import Mathlib

/-! The vendoring engine `trash`: the dependency ledger, version resolution and the
cleanup pass.

A shallow embedding of `trash.go` (package main) and of the parts of package
`conf` it relies on.  Go strings are Lean strings; a Go `map[string]bool` used
as a set (`util.Packages`) is a list of keys tested for membership.
-/

namespace Trash

/-! ## The ledger (package conf) -/

/-- One dependency entry, `conf.Import`. -/
structure Import where
  Package : String
  Version : String := ""
  Repo : String := ""
  Transitive : Bool := false
  Lock : Bool := false
  Staging : Bool := false
deriving DecidableEq, Repr

/-- The ledger, `conf.Conf` (the fields the engine reads). -/
structure Conf where
  Package : String := ""
  Imports : List Import := []
  Excludes : List String := []
  Packages : List String := []
deriving DecidableEq, Repr

/-- Modelled from the spec: the scan of `Conf.Dedupe` (conf.go is not among the
sources, only conf_test.go is).  The entries are scanned in order; an entry whose
package has been seen is dropped, any other entry is kept and its package
recorded. -/
def dedupeScan : List String → List Import → List Import
  | _, [] => []
  | seen, i :: rest =>
    if i.Package ∈ seen then dedupeScan seen rest
    else i :: dedupeScan (i.Package :: seen) rest

/-- Modelled from the spec: `Conf.Dedupe` on the entry list (conf.go is not among
the sources): keep the first entry per unique package, in the order of the first
occurrences. -/
def dedupe (imports : List Import) : List Import :=
  dedupeScan [] imports

/-- Modelled from the spec: `Conf.Dedupe` (conf.go is not among the sources), the
ledger with its entries deduplicated and every other field untouched. -/
def Conf.Dedupe (t : Conf) : Conf :=
  { t with Imports := dedupe t.Imports }

/-- The packages of an entry list, in order. -/
def packages (l : List Import) : List String :=
  l.map Import.Package

/-- How many positions of `S` hold a package that already occurred at an earlier
position. -/
def repeatedPositions (S : List Import) : Nat :=
  (List.range S.length).countP
    (fun k => decide (∃ e ∈ S[k]?, e.Package ∈ packages (S.take k)))

/-- The last case of `TestDuplicates` in conf_test.go. -/
def testImports : List Import :=
  [ { Package := "package1", Version := "version1" },
    { Package := "package2", Version := "version1", Repo := "repoA" },
    { Package := "package1", Version := "version1" },
    { Package := "package1", Version := "version1" },
    { Package := "package2", Version := "version2", Repo := "repoB" },
    { Package := "package3", Version := "version1", Repo := "repoA" } ]

/-! ## The merge step of `run` -/

/-- A Go `map[string]conf.Import` is the list of its values, one per key, kept in
the order the keys were first stored.  `m[i.Package] = i` replaces the value
stored under the key when there is one and adds the key otherwise. -/
def mapStore (m : List Import) (i : Import) : List Import :=
  if m.any (fun j => j.Package == i.Package) then
    m.map (fun j => if j.Package == i.Package then i else j)
  else m ++ [i]

/-- The first loop of the merge step:
`for _, i := range extraImports { importMap[i.Package] = i }`. -/
def importMapOf (extraImports : List Import) : List Import :=
  extraImports.foldl mapStore []

/-- The inner loop of the merge step: does some ledger entry have the package of
`extraImport`? -/
def packageAlreadyImported (imports : List Import) (extraImport : Import) : Bool :=
  imports.any (fun packageImport => packageImport.Package == extraImport.Package)

/-- The merge step of `run` ("clean duplicate imports" up to the `append`).
`rangeOrder` is the order in which `range importMap` hands out the values of the
map, which Go leaves unspecified.  The result is the new `trashConf.Imports`. -/
def mergeExtraImports (rangeOrder : List Import → List Import)
    (imports extraImports : List Import) : List Import :=
  let importMap := importMapOf extraImports
  let extraImports := rangeOrder importMap
  let filteredExtraImports :=
    extraImports.filter (fun extraImport => !packageAlreadyImported imports extraImport)
  imports ++ filteredExtraImports

/-- Two discovered entries for one package, with different pins. -/
def twoPins : List Import :=
  [ { Package := "github.com/pkg/errors", Version := "v0.8.0" },
    { Package := "github.com/pkg/errors", Version := "v0.9.1", Repo := "https://example.org/errors.git" } ]

/-! ## `vendor` -/

/-- A Go `error` value: one made in trash.go by `fmt.Errorf` (or wrapped there), or
one handed back by a library call (`os`, `filepath`, `exec`, `semver`). -/
inductive GoError where
  | errorf (msg : String)
  | library (msg : String)
deriving DecidableEq, Repr

/-- The effects of `vendor` on the process and the file system, in the order they
happen. -/
inductive Step where
  | chdir (dir : String)
  | mkdirAll (path : String)
  | setenv (key value : String)
  | prepareCache (trashDir : String) (i : Import) (insecure : Bool)
  | checkout (trashDir : String) (i : Import)
  | mv (vendorDir trashDir : String) (i : Import)
  | cpy (vendorDir trashDir : String) (i : Import)
  | removeAll (path : String)
  | stripGitDirs (vendorDir : String)
deriving DecidableEq, Repr

/-- How a call ends: it returns `nil`, returns an error, or the process is ended by
`logrus.Fatal` (no deferred call runs then). -/
inductive Outcome where
  | ok
  | error (e : GoError)
  | fatal
deriving DecidableEq, Repr

/-- What the subprocesses and the file system answer, given the steps taken so
far.  `pathJoin` is `path.Join` and `pathSplitDir` the first result of
`path.Split`; a failing `mv` or `cp` command answers with its output, a failing walk
over the vendor directory with the message of the `os` error. -/
structure World where
  pathJoin : List String → String
  pathSplitDir : String → String
  prepareCacheFatal : List Step → Import → Bool
  checkoutFatal : List Step → Import → Bool
  mvOutput : List Step → Import → Option String
  cpOutput : List Step → Import → Option String
  stripGitError : List Step → Option String

/-- The steps taken and the way the call ended. -/
structure Run where
  steps : List Step
  outcome : Outcome
deriving DecidableEq, Repr

/-- The error of the first loop of `vendor`. -/
def versionNotSpecified (package : String) : GoError :=
  .errorf ("version not specified for package '" ++ package ++ "'")

/-- The second loop of `vendor`: `prepareCache` and `checkout` for every entry that
is not skipped; `true` when one of them ended the process. -/
def prepareAndCheckout (w : World) (update insecure : Bool) (trashDir : String) :
    List Import → List Step → List Step × Bool
  | [], tr => (tr, false)
  | i :: rest, tr =>
    if update && i.Lock then prepareAndCheckout w update insecure trashDir rest tr
    else
      let tr := tr ++ [Step.prepareCache trashDir i insecure]
      if w.prepareCacheFatal tr i then (tr, true)
      else
        let tr := tr ++ [Step.checkout trashDir i]
        if w.checkoutFatal tr i then (tr, true)
        else prepareAndCheckout w update insecure trashDir rest tr

/-- The function `mv`: the error it returns when the `mv` command fails. -/
def mv (w : World) (tr : List Step) (vendorDir trashDir : String) (i : Import) :
    Option GoError :=
  let repoDir := w.pathJoin [trashDir, "src", i.Package]
  let target := w.pathJoin [vendorDir, i.Package]
  match w.mvOutput tr i with
  | some bytes => some (.errorf ("`mv -a " ++ repoDir ++ " " ++ target ++ "` failed:\n" ++ bytes))
  | none => none

/-- The function `cpy`: the error it returns when the `cp` command fails. -/
def cpy (w : World) (tr : List Step) (vendorDir trashDir : String) (i : Import) :
    Option GoError :=
  let repoDir := w.pathJoin [trashDir, "src", i.Package]
  let target := w.pathSplitDir (w.pathJoin [vendorDir, i.Package])
  match w.cpOutput tr i with
  | some bytes => some (.errorf ("`cp -a " ++ repoDir ++ " " ++ target ++ "` failed:\n" ++ bytes))
  | none => none

/-- The "Moving deps..." loop of `vendor`. -/
def moveDeps (w : World) (vendorDir trashDir : String) :
    List Import → List Step → List Step × Option GoError
  | [], tr => (tr, none)
  | i :: rest, tr =>
    if !i.Lock then
      let tr := tr ++ [Step.mv vendorDir trashDir i]
      match mv w tr vendorDir trashDir i with
      | some err => (tr, some err)
      | none => moveDeps w vendorDir trashDir rest tr
    else moveDeps w vendorDir trashDir rest tr

/-- The "Copying deps..." loop of `vendor`. -/
def copyDeps (w : World) (vendorDir trashDir : String) :
    List Import → List Step → List Step × Option GoError
  | [], tr => (tr, none)
  | i :: rest, tr =>
    let tr := tr ++ [Step.cpy vendorDir trashDir i]
    match cpy w tr vendorDir trashDir i with
    | some err => (tr, some err)
    | none => copyDeps w vendorDir trashDir rest tr

/-- The end of `vendor`: strip the `.git` directories unless `keep`, then return;
the deferred `os.Chdir(dir)` runs on the way out. -/
def vendorFinish (w : World) (keep : Bool) (dir vendorDir : String) (tr : List Step) : Run :=
  if !keep then
    let tr := tr ++ [Step.stripGitDirs vendorDir]
    match w.stripGitError tr with
    | some msg => ⟨tr ++ [Step.chdir dir], .error (.library msg)⟩
    | none => ⟨tr ++ [Step.chdir dir], .ok⟩
  else ⟨tr ++ [Step.chdir dir], .ok⟩

/-- The function `vendor`. -/
def vendor (w : World) (keep update : Bool) (trashDir dir targetDir : String)
    (trashConf : Conf) (insecure : Bool) : Run :=
  match trashConf.Imports.find? (fun i => i.Version == "") with
  | some i => ⟨[Step.chdir dir], .error (versionNotSpecified i.Package)⟩
  | none =>
    let tr := [Step.mkdirAll trashDir, Step.setenv "GOPATH" trashDir]
    match prepareAndCheckout w update insecure trashDir trashConf.Imports tr with
    | (tr, true) => ⟨tr, .fatal⟩
    | (tr, false) =>
      let vendorDir := w.pathJoin [dir, targetDir]
      if update then
        match moveDeps w vendorDir trashDir trashConf.Imports tr with
        | (tr, some err) => ⟨tr ++ [Step.chdir dir], .error err⟩
        | (tr, none) => vendorFinish w keep dir vendorDir tr
      else
        let tr := tr ++ [Step.removeAll vendorDir, Step.mkdirAll vendorDir]
        match copyDeps w vendorDir trashDir trashConf.Imports tr with
        | (tr, some err) => ⟨tr ++ [Step.chdir dir], .error err⟩
        | (tr, none) => vendorFinish w keep dir vendorDir tr

/-- The ledger entry a step of `vendor` works on, if it works on one. -/
def Step.entry : Step → Option Import
  | .prepareCache _ i _ => some i
  | .checkout _ i => some i
  | .mv _ _ i => some i
  | .cpy _ _ i => some i
  | _ => none

/-- A ledger with a locked entry between two others. -/
def lockedConf : Conf where
  Package := "github.com/rdeusser/trash"
  Imports :=
    [ { Package := "github.com/pkg/errors", Version := "v0.8.0" },
      { Package := "github.com/urfave/cli", Version := "v1.20.0", Lock := true },
      { Package := "gopkg.in/yaml.v2", Version := "v2.2.1" } ]

/-- A world in which every subprocess and file operation succeeds. -/
def quietWorld : World where
  pathJoin := fun l => "/".intercalate l
  pathSplitDir := fun s => s
  prepareCacheFatal := fun _ _ => false
  checkoutFatal := fun _ _ => false
  mvOutput := fun _ _ => none
  cpOutput := fun _ _ => none
  stripGitError := fun _ => none

/-- A ledger whose second entry has no version. -/
def unpinnedConf : Conf where
  Package := "github.com/rdeusser/trash"
  Imports :=
    [ { Package := "github.com/pkg/errors", Version := "v0.8.0" },
      { Package := "github.com/urfave/cli" },
      { Package := "gopkg.in/yaml.v2" } ]

/-! ## Strings (package strings) -/

/-- The white space of `unicode.IsSpace`. -/
def isSpace (c : Char) : Bool :=
  c.toNat ∈ [0x09, 0x0A, 0x0B, 0x0C, 0x0D, 0x20, 0x85, 0xA0, 0x1680, 0x2028, 0x2029, 0x202F,
    0x205F, 0x3000] || (0x2000 ≤ c.toNat && c.toNat ≤ 0x200A)

/-- The function `strings.TrimSpace`. -/
def trimSpace (s : String) : String :=
  ⟨((s.data.dropWhile isSpace).reverse.dropWhile isSpace).reverse⟩

/-- Split a sequence of characters at every `sep`: one more piece than separators. -/
def splitChars (sep : Char) : List Char → List (List Char)
  | [] => [[]]
  | c :: cs =>
    if c = sep then [] :: splitChars sep cs
    else
      match splitChars sep cs with
      | [] => [[c]]
      | piece :: pieces => (c :: piece) :: pieces

/-- The call `strings.Split(s, sep)` for a separator of one character. -/
def stringsSplit (s : String) (sep : Char) : List String :=
  (splitChars sep s.data).map String.mk

/-! ## `getLatestVersion` -/

/-- What a call that may fail or panic hands back. -/
inductive Result (α : Type) where
  | ok (a : α)
  | err (e : GoError)
  | panic
deriving DecidableEq, Repr

/-- The answers of `semver.NewVersion`: a version, `semver.ErrInvalidSemVer`, or
another error. -/
inductive Parsed (V : Type) where
  | version (v : V)
  | invalidSemVer
  | failed (msg : String)
deriving DecidableEq, Repr

/-- The library github.com/Masterminds/semver as `getLatestVersion` uses it, with
versions of type `V`: `NewVersion`, `(*Version).LessThan` (the `Less` of
`semver.Collection`), `(*Version).Original`, and `SortCollection`, the effect of
`sort.Sort(semver.Collection(...))` on the slice. -/
structure Semver (V : Type) where
  NewVersion : String → Parsed V
  LessThan : V → V → Bool
  Original : V → String
  SortCollection : List V → List V

/-- What the repository answers to `getLatestVersion`: the errors of `os.Chdir`,
`vcs.NewGitRepo` and `git fetch --tags --force` (none when they succeed), the output
of `git tags`, and `repo.Current()`. -/
structure Git where
  chdir : Option String
  newGitRepo : Option String
  fetchTags : Option String
  tags : Except String String
  current : Result String

/-- The loop of `getLatestVersion` over the tags: a tag answered with
`ErrInvalidSemVer` is skipped, any other error is returned, a version is appended
to `sortedTags`. -/
def collectVersions {V : Type} (sv : Semver V) : List String → List V → Except GoError (List V)
  | [], sortedTags => .ok sortedTags
  | t :: rest, sortedTags =>
    match sv.NewVersion t with
    | .invalidSemVer => collectVersions sv rest sortedTags
    | .failed msg => .error (.library msg)
    | .version v => collectVersions sv rest (sortedTags ++ [v])

/-- The tags of `getLatestVersion`:
`strings.Split(strings.TrimSpace(string(bytes)), "\n")`. -/
def tagsOf (bytes : String) : List String :=
  stringsSplit (trimSpace bytes) '\n'

/-- The version a tag parses as, if it does. -/
def versionOf {V : Type} (sv : Semver V) (t : String) : Option V :=
  match sv.NewVersion t with
  | .version v => some v
  | _ => none

/-- Did the parser fail with an error other than `ErrInvalidSemVer`? -/
def Parsed.isFailed {V : Type} : Parsed V → Bool
  | .failed _ => true
  | _ => false

/-- The function `getLatestVersion`, from the tag listing on. -/
def latestOfTags {V : Type} (sv : Semver V) (current : Result String) (bytes : String) :
    Result String :=
  let tags := tagsOf bytes
  if tags.length = 0 then current
  else
    match collectVersions sv tags [] with
    | .error e => .err e
    | .ok sortedTags =>
      if sortedTags.length = 0 then current
      else
        let sorted := sv.SortCollection sortedTags
        match sorted[sorted.length - 1]? with
        | some latest => .ok (trimSpace (sv.Original latest))
        | none => .panic

/-- The function `getLatestVersion`.  When `vcs.NewGitRepo` fails it hands back a nil
repository, and building the wrapped error calls `repo.Remote()` on it: a nil
dereference, so the call panics. -/
def getLatestVersion {V : Type} (sv : Semver V) (g : Git) (libRoot pkg : String) :
    Result String :=
  let _local := libRoot ++ "/" ++ pkg
  match g.chdir with
  | some msg => .err (.library msg)
  | none =>
    match g.newGitRepo with
    | some _ => .panic
    | none =>
      match g.fetchTags with
      | some msg => .err (.library msg)
      | none =>
        match g.tags with
        | .error msg => .err (.library msg)
        | .ok bytes => latestOfTags sv g.current bytes

/-- A version of github.com/Masterminds/semver: the three numbers, the pre-release
and the build metadata (empty when absent), and the text it was parsed from. -/
structure Version where
  major : Nat
  minor : Nat
  patch : Nat
  pre : String
  metadata : String
  original : String
deriving DecidableEq, Repr

/-- Drop the optional leading `v` of a tag. -/
def stripV : List Char → List Char
  | 'v' :: rest => rest
  | other => other

/-- Cut a sequence of characters at the first `sep`: what stands before it, and what
stands after it when there is one. -/
def splitFirst (sep : Char) : List Char → List Char × Option (List Char)
  | [] => ([], none)
  | c :: cs =>
    if c = sep then ([], some cs)
    else ((c :: (splitFirst sep cs).1), (splitFirst sep cs).2)

/-- A decimal digit, `[0-9]`. -/
def isDigitChar (c : Char) : Bool :=
  decide (48 ≤ c.toNat ∧ c.toNat ≤ 57)

/-- A character of an identifier, `[0-9A-Za-z\-]`. -/
def isIdentChar (c : Char) : Bool :=
  isDigitChar c || decide (65 ≤ c.toNat ∧ c.toNat ≤ 90) ||
    decide (97 ≤ c.toNat ∧ c.toNat ≤ 122) || decide (c = '-')

/-- A numeric segment, `[0-9]+`. -/
def isSegment (cs : List Char) : Bool :=
  !cs.isEmpty && cs.all isDigitChar

/-- A run of identifiers separated by dots, `[0-9A-Za-z\-]+(\.[0-9A-Za-z\-]+)*`. -/
def isIdentifiers (cs : List Char) : Bool :=
  (splitChars '.' cs).all (fun ident => !ident.isEmpty && ident.all isIdentChar)

/-- The number a run of decimal digits writes. -/
def natOfDigits (cs : List Char) : Nat :=
  cs.foldl (fun n c => n * 10 + (c.toNat - 48)) 0

/-- The call `strconv.ParseInt(segment, 10, 64)` on a run of digits: the number, or the
message of the range error. -/
def parseSegment (cs : List Char) : Except String Nat :=
  if natOfDigits cs < 2 ^ 63 then .ok (natOfDigits cs)
  else .error ("strconv.ParseInt: parsing \"" ++ String.mk cs ++ "\": value out of range")

/-- The three numbers of the segments of a version, absent ones being 0; the error of
the first segment that does not fit. -/
def parseSegments (segments : List (List Char)) : Except String (Nat × Nat × Nat) :=
  match parseSegment (segments.getD 0 ['0']) with
  | .error msg => .error msg
  | .ok major =>
    match parseSegment (segments.getD 1 ['0']) with
    | .error msg => .error msg
    | .ok minor =>
      match parseSegment (segments.getD 2 ['0']) with
      | .error msg => .error msg
      | .ok patch => .ok (major, minor, patch)

/-- Modelled from the spec: `semver.NewVersion` of github.com/Masterminds/semver, a
dependency that is not part of the repository.  A tag parses when the whole of it
matches `v?N(.N)?(.N)?(-identifiers)?(+identifiers)?`: the build metadata is what
follows the first `+`, the pre-release what follows the first `-` before it.  A tag
that does not match is answered with `ErrInvalidSemVer`; a matching tag with a
segment that does not fit in an `int64` fails with
"Error parsing version segment: ..." instead. -/
def NewVersion (tag : String) : Parsed Version :=
  let beforePlus := (splitFirst '+' (stripV tag.data)).1
  let metadata := (splitFirst '+' (stripV tag.data)).2
  let core := (splitFirst '-' beforePlus).1
  let pre := (splitFirst '-' beforePlus).2
  let segments := splitChars '.' core
  if segments.length ≤ 3 ∧ segments.all isSegment = true ∧ pre.all isIdentifiers = true ∧
      metadata.all isIdentifiers = true then
    match parseSegments segments with
    | .error msg => .failed ("Error parsing version segment: " ++ msg)
    | .ok (major, minor, patch) =>
      .version ⟨major, minor, patch, String.mk (pre.getD []), String.mk (metadata.getD []), tag⟩
  else .invalidSemVer

/-- Is the first sequence of characters before the second in the order of their
codes? (The comparison `<` of two Go strings made of ASCII characters.) -/
def charsLess : List Char → List Char → Bool
  | _, [] => false
  | [], _ :: _ => true
  | a :: as, b :: bs =>
    if a.toNat < b.toNat then true
    else if b.toNat < a.toNat then false
    else charsLess as bs

/-- The sign and the digits of a number as `strconv.ParseInt` reads it: an optional
leading `+` or `-`, then the rest. -/
def signAndDigits : List Char → Bool × List Char
  | '+' :: rest => (false, rest)
  | '-' :: rest => (true, rest)
  | other => (false, other)

/-- The call `strconv.ParseInt(s, 10, 64)`: the number, or nothing when the call
fails (no digits, a character that is not a digit, or a value out of range). -/
def parseInt (cs : List Char) : Option Int :=
  if isSegment (signAndDigits cs).2 then
    if (signAndDigits cs).1 then
      if natOfDigits (signAndDigits cs).2 ≤ 2 ^ 63 then
        some (-(natOfDigits (signAndDigits cs).2 : Int))
      else none
    else
      if natOfDigits (signAndDigits cs).2 < 2 ^ 63 then
        some (natOfDigits (signAndDigits cs).2 : Int)
      else none
  else none

/-- Modelled from the spec: `comparePrePart` of the library, the precedence of two
pre-release identifiers (1, 0 or -1), an absent one being the empty sequence.  Equal
texts are equal; an absent identifier is lower than any; two identifiers that
`strconv.ParseInt` reads compare as numbers; one that it reads is lower than one
that it does not; two that it does not read compare as strings. -/
def comparePrePart (s o : List Char) : Int :=
  if s = o then 0
  else if s = [] then -1
  else if o = [] then 1
  else
    match parseInt o, parseInt s with
    | none, none => if charsLess o s then 1 else -1
    | none, some _ => -1
    | some _, none => 1
    | some oi, some si => if oi < si then 1 else -1

/-- The identifiers of two pre-releases side by side, the shorter one filled up with
absent identifiers. -/
def zipIdentifiers : List (List Char) → List (List Char) → List (List Char × List Char)
  | [], os => os.map (fun o => ([], o))
  | s :: ss, [] => (s, []) :: zipIdentifiers ss []
  | s :: ss, o :: os => (s, o) :: zipIdentifiers ss os

/-- The first difference among the pairs of identifiers, 0 when there is none. -/
def firstDifference : List (List Char × List Char) → Int
  | [] => 0
  | (s, o) :: rest =>
    if comparePrePart s o ≠ 0 then comparePrePart s o else firstDifference rest

/-- Modelled from the spec: `comparePrerelease` of the library, the precedence of two
non-empty pre-releases: their identifiers are compared from the left, and the first
difference decides. -/
def comparePrerelease (v o : String) : Int :=
  firstDifference (zipIdentifiers (splitChars '.' v.data) (splitChars '.' o.data))

/-- Modelled from the spec: `(*Version).Compare` of the library, semantic-version
precedence: major, then minor, then patch; then a version without pre-release is
higher than one with, and two pre-releases compare by `comparePrerelease`.  Build
metadata plays no part. -/
def Version.Compare (v o : Version) : Int :=
  if v.major ≠ o.major then (if v.major < o.major then -1 else 1)
  else if v.minor ≠ o.minor then (if v.minor < o.minor then -1 else 1)
  else if v.patch ≠ o.patch then (if v.patch < o.patch then -1 else 1)
  else if v.pre = "" ∧ o.pre = "" then 0
  else if v.pre = "" then 1
  else if o.pre = "" then -1
  else comparePrerelease v.pre o.pre

/-- Modelled from the spec: `(*Version).LessThan` of the library, the `Less` of
`semver.Collection`. -/
def Version.LessThan (v o : Version) : Bool :=
  decide (v.Compare o < 0)

/-- Modelled from the spec: the library github.com/Masterminds/semver, with `sort` for
what `sort.Sort` makes of a collection. -/
def semverLibrary (sort : List Version → List Version) : Semver Version where
  NewVersion := NewVersion
  LessThan := Version.LessThan
  Original := fun v => v.original
  SortCollection := sort

/-- Put a version into a collection in non-decreasing order, after the versions it is
not lower than. -/
def insertVersion (v : Version) : List Version → List Version
  | [] => [v]
  | w :: ws => if v.LessThan w then v :: w :: ws else w :: insertVersion v ws

/-- A sort of a collection by insertion, one of the orders `sort.Sort` may leave. -/
def insertionSortVersions (l : List Version) : List Version :=
  l.foldl (fun sorted v => insertVersion v sorted) []

/-- A repository whose `git tags` prints `bytes` and whose checked-out revision is
`revision`. -/
def gitWithTags (bytes revision : String) : Git where
  chdir := none
  newGitRepo := none
  fetchTags := none
  tags := .ok bytes
  current := .ok revision

/-! ## Paths (packages strings and path) -/

/-- The index of the last `sep` in a sequence of characters, if there is one. -/
def lastIndexChars (sep : Char) : List Char → Option Nat
  | [] => none
  | c :: cs =>
    match lastIndexChars sep cs with
    | some k => some (k + 1)
    | none => if c = sep then some 0 else none

/-- The call `strings.LastIndex(s, sep)` for a separator of one character: -1 when
`sep` does not occur.  Offsets into a string are counted in characters; the code
only ever cuts a string at the length of one of its own prefixes, where the
character and the byte offset name the same place. -/
def lastIndex (s : String) (sep : Char) : Int :=
  match lastIndexChars sep s.data with
  | some k => (k : Int)
  | none => -1

/-- The slice `s[lo:hi]`; `none` is the run-time panic "slice bounds out of range". -/
def slice (s : String) (lo : Nat) (hi : Int) : Option String :=
  if (lo : Int) ≤ hi ∧ hi ≤ (s.length : Int) then some ⟨(s.data.take hi.toNat).drop lo⟩
  else none

/-- The slice `s[lo:]`; `none` is the run-time panic. -/
def sliceFrom (s : String) (lo : Nat) : Option String :=
  if lo ≤ s.length then some ⟨s.data.drop lo⟩ else none

/-- The function `strings.HasPrefix`. -/
def startsWith (s pre : String) : Bool :=
  decide (pre.data <+: s.data)

/-- The function `strings.HasSuffix`. -/
def endsWith (s suf : String) : Bool :=
  decide (suf.data <:+ s.data)

/-- The function `path.Split`: the path up to and including the last slash, and the
rest. -/
def pathSplit (p : String) : String × String :=
  let i := lastIndex p '/'
  (⟨p.data.take (i + 1).toNat⟩, ⟨p.data.drop (i + 1).toNat⟩)

/-- One turn of the loop of `parentPackages` after `r[p] = true`: the directory part
of `p` without its trailing slash. -/
def parentOf (p : String) : String :=
  let dir := (pathSplit p).1
  if dir.length > 0 ∧ dir.data.getLast? = some '/' then ⟨dir.data.dropLast⟩ else dir

/-- The loop of `parentPackages`, with the keys put into `r` listed in order.  The
fuel bounds the number of turns. -/
def parentPackagesLoop (lenRoot : Nat) : Nat → String → List String
  | 0, _ => []
  | fuel + 1, p =>
    if p.utf8ByteSize > lenRoot then p :: parentPackagesLoop lenRoot fuel (parentOf p)
    else []

/-- The function `parentPackages`: every turn shortens `p`, so `len(p) + 1` turns are
enough. -/
def parentPackages (root p : String) : List String :=
  parentPackagesLoop root.utf8ByteSize (p.length + 1) p

/-! ## `removeUnusedImports` -/

/-- An error of the file system, told apart by `os.IsNotExist`. -/
inductive OsError where
  | notExist
  | other (msg : String)
deriving DecidableEq, Repr

/-- What the walk function hands back to `filepath.Walk`. -/
inductive WalkReturn where
  | nil
  | skipDir
  | err (e : OsError)
deriving DecidableEq, Repr

/-- The removal a visit asks of the file system: `os.Remove(path)` or
`os.RemoveAll(path)`. -/
inductive Removal where
  | remove (path : String)
  | removeAll (path : String)
deriving DecidableEq, Repr

/-- One visit of the walk: the removal it asked for, if any, and what it returned. -/
structure Visit where
  removal : Option Removal
  returns : WalkReturn
deriving DecidableEq, Repr

/-- The import set handed to `removeUnusedImports` by `cleanup`: the collected
imports with every keep-list package (`trashConf.Packages`) added. -/
def cleanupImports (imports : List String) (trashConf : Conf) : List String :=
  imports ++ trashConf.Packages

/-- The set `importsParents` of `removeUnusedImports`. -/
def importsParents (imports : List String) : List String :=
  imports.flatMap (parentPackages "")

/-- The function `removeUnusedImports` hands to `filepath.Walk`, on one visited
`path`.  `isDir` is `info.IsDir()`, `err` the error of the walk at this path,
`removeErr` the error of the removal should one be asked for, `filepathJoin` is
`filepath.Join`, and an empty `updatePackages` is the `nil` map `cleanup` passes. -/
def removeUnusedImportsWalkFn (filepathJoin : String → String → String)
    (imports : List String) (targetDir : String) (updatePackages : List String)
    (path : String) (isDir : Bool) (err removeErr : Option OsError) : Result Visit :=
  match err with
  | some .notExist => .ok ⟨none, .skipDir⟩
  | some e => .ok ⟨none, .err e⟩
  | none =>
    if path = targetDir then .ok ⟨none, .nil⟩
    else
      let shouldClean := updatePackages.length = 0 ||
        updatePackages.any (fun pkg => startsWith path (filepathJoin targetDir pkg))
      if !shouldClean then .ok ⟨none, .nil⟩
      else if !isDir then
        match slice path (targetDir ++ "/").length (lastIndex path '/') with
        | none => .panic
        | some pkg =>
          if endsWith path "_test.go" || endsWith path ".go" && !decide (pkg ∈ imports) then
            match removeErr with
            | none => .ok ⟨some (.remove path), .nil⟩
            | some .notExist => .ok ⟨some (.remove path), .nil⟩
            | some e => .ok ⟨some (.remove path), .err e⟩
          else .ok ⟨none, .nil⟩
      else
        match sliceFrom path (targetDir ++ "/").length with
        | none => .panic
        | some pkg =>
          if !decide (pkg ∈ imports) && !decide (pkg ∈ importsParents imports) then
            match removeErr with
            | none => .ok ⟨some (.removeAll path), .skipDir⟩
            | some .notExist => .ok ⟨some (.removeAll path), .skipDir⟩
            | some e => .ok ⟨some (.removeAll path), .err e⟩
          else .ok ⟨none, .nil⟩

/-- The function `filepath.Join` on two clean, non-empty elements. -/
def joinClean (a b : String) : String :=
  a ++ "/" ++ b

/-- The elements of a path that `filepath.Clean` keeps, from the left: an empty
element and `.` are dropped; `..` takes away the element before it, stays when there
is none to take away in a path that is not rooted, and is dropped at the root.
`kept` holds the elements kept so far, the last one first. -/
def cleanElements (rooted : Bool) : List (List Char) → List (List Char) → List (List Char)
  | [], kept => kept.reverse
  | e :: es, kept =>
    if e = [] ∨ e = ['.'] then cleanElements rooted es kept
    else if e = ['.', '.'] then
      match kept with
      | [] => if rooted then cleanElements rooted es [] else cleanElements rooted es [e]
      | top :: below =>
        if top = ['.', '.'] then cleanElements rooted es (e :: kept)
        else cleanElements rooted es below
    else cleanElements rooted es (e :: kept)

/-- The function `filepath.Clean` of the standard library, with `/` for the
separator. -/
def filepathClean (path : String) : String :=
  if path = "" then "."
  else if path.data.head? = some '/' then
    ⟨'/' :: ['/'].intercalate (cleanElements true (splitChars '/' path.data) [])⟩
  else if cleanElements false (splitChars '/' path.data) [] = [] then "."
  else ⟨['/'].intercalate (cleanElements false (splitChars '/' path.data) [])⟩

/-- The function `filepath.Join` of the standard library on two elements, the call by
which `filepath.Walk` names an entry `name` of the directory `dir`: the elements from
the first non-empty one on are joined with `/`, and the result is cleaned. -/
def filepathJoinTwo (dir name : String) : String :=
  if dir ≠ "" then filepathClean (dir ++ "/" ++ name)
  else if name ≠ "" then filepathClean name
  else ""

/-- Does the visit ask for the removal of the visited path? -/
def removes (r : Result Visit) : Bool :=
  match r with
  | .ok v => v.removal.isSome
  | _ => false

/-! ## The import graph: `listImports`, `listPackages`, `collectImports` -/

/-- Modelled from the spec: `util.Packages.Merge` (package util is not among the
sources).  A `util.Packages` is a set of import paths, here a list without
repetition; `Merge` adds every key of `ps` that `r` does not hold yet. -/
def merge (r ps : List String) : List String :=
  ps ∪ r

/-- Modelled from the spec: `util.OneStr` (package util is not among the sources),
the channel that yields the one string `s`. -/
def OneStr (s : String) : List String :=
  [s]

/-- Modelled from the spec: `util.MergeStrChans` (package util is not among the
sources), the channel that yields whatever its argument channels yield. -/
def MergeStrChans (chans : List (List String)) : List String :=
  chans.flatten

/-- What the Go parser and the file system answer during discovery.
`imports pkgPath` is the import paths (`v.Path.Value` without its quotes) of the
files `parser.ParseDir` reads in `pkgPath`, `none` when it fails; `includes pkgPath`
is, for every `#include "..."` line of a C preamble there, the directory
`filepath.Dir(line[10:len(line)-1])` when `os.Stat` finds it under `pkgPath`, `none`
when the second `ParseDir` fails; `cleanJoin a b` is
`filepath.Clean(filepath.Join(a, b))`; `packageDirs` are the directories, relative to
the project, in which the walk of `listPackages` finds a package clause. -/
structure Sources where
  imports : String → Option (List String)
  includes : String → Option (List String)
  cleanJoin : String → String → String
  packageDirs : List String

/-- The directory `listImports` parses for `pkg`. -/
def pkgPathOf (rootPackage libRoot pkg : String) : String :=
  if pkg ≠ rootPackage then
    if startsWith pkg (rootPackage ++ "/") then ⟨pkg.data.drop (rootPackage.length + 1)⟩
    else libRoot ++ "/" ++ pkg
  else "."

/-- Does the string hold the character? (`strings.Contains` for one character.) -/
def containsChar (s : String) (c : Char) : Bool :=
  decide (c ∈ s.data)

/-- The body of the loop over `f.Imports` in `listImports`: the path sent on `sch`
for the import `imp` of package `pkg`, `none` when the import is skipped. -/
def keepImport (src : Sources) (rootPackage pkg imp : String) : Option String :=
  let pkgComponents := stringsSplit imp '/'
  let first := pkgComponents.headD ""
  if !containsChar first '.' then none
  else
    let imp := if first = "." ∨ first = ".." then src.cleanJoin pkg imp else imp
    if imp = rootPackage ∨ startsWith imp (rootPackage ++ "/") = true then none
    else some imp

/-- Everything `listImports` sends on `sch` for `pkg`: the Go imports it keeps, then
the include directories of the C preambles. -/
def listImportsSch (src : Sources) (rootPackage libRoot pkg : String) : List String :=
  let pkgPath := pkgPathOf rootPackage libRoot pkg
  match src.imports pkgPath with
  | none => []
  | some imps =>
    let goImports := imps.filterMap (keepImport src rootPackage pkg)
    match src.includes pkgPath with
    | none => goImports
    | some incs =>
      goImports ++ (incs.filter (fun includePath => includePath ≠ ".")).map (src.cleanJoin pkg)

/-- The function `listImports`: the set of what `sch` and `util.OneStr(pkg)` yield. -/
def listImports (src : Sources) (rootPackage libRoot pkg : String) : List String :=
  merge [] (MergeStrChans [listImportsSch src rootPackage libRoot pkg, OneStr pkg])

/-- The function `listPackages`: the root package for the directory `.`, and
`rootPackage/path` for every other directory with a package clause. -/
def listPackages (src : Sources) (rootPackage : String) : List String :=
  merge [] (src.packageDirs.map
    (fun path => if path = "." then rootPackage else rootPackage ++ "/" ++ path))

/-- One pass of the loop of `collectImports` over the pending packages: merge what
each of them lists into `imports`. -/
def scanAll (scan : String → List String) (imports packages : List String) : List String :=
  packages.foldl (fun imports p => merge imports (scan p)) imports

/-- The loop `for len(packages) > 0` of `collectImports`; the fuel bounds the number of
turns.  Besides the import set it hands back the packages scanned, in order. -/
def collectLoop (scan : String → List String) :
    Nat → List String → List String → List String → List String →
      Option (List String × List String)
  | 0, _, _, _, _ => none
  | fuel + 1, imports, packages, seenPackages, scanned =>
    if packages.length > 0 then
      let imports := scanAll scan imports packages
      let seenPackages := merge seenPackages packages
      collectLoop scan fuel imports
        (imports.filter (fun i => decide (i ∉ seenPackages))) seenPackages
        (scanned ++ packages)
    else some (imports, scanned)

/-- The function `collectImports`, with the packages it scanned. -/
def collectImportsScanned (fuel : Nat) (src : Sources) (rootPackage libRoot : String) :
    Option (List String × List String) :=
  collectLoop (listImports src rootPackage libRoot) fuel [] (listPackages src rootPackage) [] []

/-- The function `collectImports`. -/
def collectImports (fuel : Nat) (src : Sources) (rootPackage libRoot : String) :
    Option (List String) :=
  (collectImportsScanned fuel src rootPackage libRoot).map Prod.fst

/-- A project `github.com/rdeusser/trash` with the packages `.` and `util`.  The root
imports `fmt`, `github.com/pkg/errors` and its own `util`, and has a C preamble that
includes `csrc/shim.h`; `github.com/pkg/errors` imports `fmt` and `io`. -/
def demoSources : Sources where
  imports := fun pkgPath =>
    if pkgPath = "." then some ["fmt", "github.com/pkg/errors", "github.com/rdeusser/trash/util"]
    else if pkgPath = "util" then some ["strings"]
    else if pkgPath = "/cache/src/github.com/pkg/errors" then some ["fmt", "io"]
    else none
  includes := fun pkgPath =>
    if pkgPath = "." then some ["csrc"]
    else if pkgPath = "util" then some []
    else if pkgPath = "/cache/src/github.com/pkg/errors" then some []
    else none
  cleanJoin := joinClean
  packageDirs := [".", "util"]

/-! ## `remoteName` (crypto/sha1, encoding/hex) -/

/-- The UTF-8 encoding of a character, as bytes. -/
def utf8Bytes (c : Char) : List Nat :=
  let n := c.toNat
  if n < 0x80 then [n]
  else if n < 0x800 then [0xC0 + n / 0x40, 0x80 + n % 0x40]
  else if n < 0x10000 then [0xE0 + n / 0x1000, 0x80 + n / 0x40 % 0x40, 0x80 + n % 0x40]
  else [0xF0 + n / 0x40000, 0x80 + n / 0x1000 % 0x40, 0x80 + n / 0x40 % 0x40, 0x80 + n % 0x40]

/-- The conversion `[]byte(s)`. -/
def bytesOf (s : String) : List Nat :=
  s.data.flatMap utf8Bytes

/-- Rotate a 32-bit word left by `n` bits. -/
def rotl32 (x n : Nat) : Nat :=
  ((x <<< n) ||| (x >>> (32 - n))) % 2 ^ 32

/-- A 32-bit word as four bytes, most significant first. -/
def word32Bytes (w : Nat) : List Nat :=
  [w / 2 ^ 24 % 256, w / 2 ^ 16 % 256, w / 2 ^ 8 % 256, w % 256]

/-- The padding of SHA-1: a 1 bit, zeros up to 56 modulo 64 bytes, and the length of
the message in bits as 8 bytes. -/
def sha1Pad (msg : List Nat) : List Nat :=
  let bits := 8 * msg.length
  msg ++ [0x80] ++ List.replicate ((119 - msg.length % 64) % 64) 0 ++
    word32Bytes (bits / 2 ^ 32 % 2 ^ 32) ++ word32Bytes (bits % 2 ^ 32)

/-- The big-endian 32-bit words of a run of bytes. -/
def wordsOf : List Nat → List Nat
  | a :: b :: c :: d :: rest => (a * 2 ^ 24 + b * 2 ^ 16 + c * 2 ^ 8 + d) :: wordsOf rest
  | _ => []

/-- Extend the message schedule by `n` words; `rev` holds the words so far, the
latest first. -/
def sha1Schedule : Nat → List Nat → List Nat
  | 0, rev => rev
  | n + 1, rev =>
    let w := rotl32 (rev.getD 2 0 ^^^ rev.getD 7 0 ^^^ rev.getD 13 0 ^^^ rev.getD 15 0) 1
    sha1Schedule n (w :: rev)

/-- The five working words of SHA-1. -/
structure Sha1State where
  a : Nat
  b : Nat
  c : Nat
  d : Nat
  e : Nat
deriving DecidableEq, Repr

/-- One round of SHA-1 with the word `w`; `t` is the number of the round. -/
def sha1Round (s : Sha1State) (t w : Nat) : Sha1State :=
  let f :=
    if t < 20 then (s.b &&& s.c) ||| ((s.b ^^^ (2 ^ 32 - 1)) &&& s.d)
    else if t < 40 then s.b ^^^ s.c ^^^ s.d
    else if t < 60 then (s.b &&& s.c) ||| (s.b &&& s.d) ||| (s.c &&& s.d)
    else s.b ^^^ s.c ^^^ s.d
  let k :=
    if t < 20 then 0x5A827999
    else if t < 40 then 0x6ED9EBA1
    else if t < 60 then 0x8F1BBCDC
    else 0xCA62C1D6
  ⟨(rotl32 s.a 5 + f + s.e + k + w) % 2 ^ 32, s.a, rotl32 s.b 30, s.c, s.d⟩

/-- The rounds over the words of the schedule, from round `t` on. -/
def sha1Rounds : List Nat → Nat → Sha1State → Sha1State
  | [], _, s => s
  | w :: ws, t, s => sha1Rounds ws (t + 1) (sha1Round s t w)

/-- The compression of one block of 64 bytes into the hash state. -/
def sha1Block (h : Sha1State) (block : List Nat) : Sha1State :=
  let schedule := (sha1Schedule 64 (wordsOf block).reverse).reverse
  let s := sha1Rounds schedule 0 h
  ⟨(h.a + s.a) % 2 ^ 32, (h.b + s.b) % 2 ^ 32, (h.c + s.c) % 2 ^ 32, (h.d + s.d) % 2 ^ 32,
    (h.e + s.e) % 2 ^ 32⟩

/-- The blocks of 64 bytes of the padded message, compressed in order. -/
def sha1Blocks : Nat → Sha1State → List Nat → Sha1State
  | 0, h, _ => h
  | n + 1, h, bytes =>
    if bytes = [] then h else sha1Blocks n (sha1Block h (bytes.take 64)) (bytes.drop 64)

/-- The function `sha1.Sum` of crypto/sha1: the 20 bytes of the digest. -/
def sha1Sum (msg : List Nat) : List Nat :=
  let padded := sha1Pad msg
  let h := sha1Blocks (padded.length / 64 + 1)
    ⟨0x67452301, 0xEFCDAB89, 0x98BADCFE, 0x10325476, 0xC3D2E1F0⟩ padded
  word32Bytes h.a ++ word32Bytes h.b ++ word32Bytes h.c ++ word32Bytes h.d ++ word32Bytes h.e

/-- The digits of `hex.EncodeToString`. -/
def hexDigits : List Char :=
  "0123456789abcdef".data

/-- The function `hex.EncodeToString`: two lowercase digits a byte. -/
def hexEncode (bytes : List Nat) : List Char :=
  bytes.flatMap (fun b => [hexDigits.getD (b / 16 % 16) '0', hexDigits.getD (b % 16) '0'])

/-- The function `remoteName`. -/
def remoteName (url : String) : String :=
  if url = "" then "origin"
  else ⟨(hexEncode (sha1Sum (bytesOf url))).take 7⟩

/-! ## `checkout` -/

/-- The fields of `strings.Fields`: the runs of characters that are not white space.
`cur` holds the run being read, latest character first. -/
def fieldsChars : List Char → List Char → List (List Char)
  | [], cur => if cur = [] then [] else [cur.reverse]
  | c :: cs, cur =>
    if isSpace c then
      if cur = [] then fieldsChars cs [] else cur.reverse :: fieldsChars cs []
    else fieldsChars cs (c :: cur)

/-- The function `strings.Fields`. -/
def stringsFields (s : String) : List String :=
  (fieldsChars s.data []).map String.mk

/-- A git subprocess `checkout` starts. -/
inductive GitCall where
  | branchList (pattern : String)
  | fetch (remote : String)
  | checkout (version : String)
  | logAll
deriving DecidableEq, Repr

/-- The outcomes `checkout` meets: whether `os.Chdir(repoDir)` succeeds, what
`isBranch` answers, whether the fetch before the first attempt succeeds, whether the
first `git checkout -f --detach` succeeds, the output of
`git log --all --pretty=oneline --abbrev-commit -1` (`none` when it fails), whether
the fetch before the retry succeeds, and whether the second checkout succeeds. -/
structure CheckoutAnswers where
  chdir : Bool
  isBranch : Bool
  fetchFirst : Bool
  checkoutFirst : Bool
  logAll : Option String
  fetchRetry : Bool
  checkoutRetry : Bool

/-- How `checkout` ends: it returns, `logrus.Fatal` ends the process, or indexing the
fields of an output without fields panics. -/
inductive CheckoutEnd where
  | returned
  | fatal
  | panic
deriving DecidableEq, Repr

/-- Does `checkout` resolve the version to the remote-qualified ref (and fetch
first)?  `isBranch` is only asked when the version is not "master". -/
def usesRemoteRef (a : CheckoutAnswers) (i : Import) : Bool :=
  i.Version == "master" || a.isBranch

/-- The ref of the first checkout attempt. -/
def firstRef (a : CheckoutAnswers) (i : Import) : String :=
  if usesRemoteRef a i then remoteName i.Repo ++ "/" ++ i.Version else i.Version

/-- The git calls of `checkout` before the first checkout attempt. -/
def callsBeforeCheckout (a : CheckoutAnswers) (i : Import) : List GitCall :=
  (if i.Version == "master" then []
    else [GitCall.branchList (remoteName i.Repo ++ "/" ++ i.Version)]) ++
  (if usesRemoteRef a i then [GitCall.fetch (remoteName i.Repo)] else [])

/-- The function `checkout` after a failed first attempt at `version`; `calls` are the
git calls made so far. -/
def checkoutRetry (a : CheckoutAnswers) (i : Import) (calls : List GitCall)
    (version : String) : List GitCall × CheckoutEnd :=
  if i.Version == "master" then
    let calls := calls ++ [GitCall.logAll]
    match a.logAll with
    | none => (calls, .fatal)
    | some bytes =>
      match stringsFields (trimSpace bytes) with
      | [] => (calls, .panic)
      | commit :: _ =>
        let calls := calls ++ [GitCall.checkout commit]
        if a.checkoutRetry then (calls, .returned) else (calls, .fatal)
  else
    let calls := calls ++ [GitCall.fetch (remoteName i.Repo)]
    if !a.fetchRetry then (calls, .fatal)
    else
      let calls := calls ++ [GitCall.checkout version]
      if a.checkoutRetry then (calls, .returned) else (calls, .fatal)

/-- The function `checkout`: the git calls it makes, in order, and how it ends. -/
def checkout (a : CheckoutAnswers) (i : Import) : List GitCall × CheckoutEnd :=
  if !a.chdir then ([], .fatal)
  else
    let calls := callsBeforeCheckout a i
    if usesRemoteRef a i && !a.fetchFirst then (calls, .fatal)
    else
      let version := firstRef a i
      let calls := calls ++ [GitCall.checkout version]
      if a.checkoutFirst then (calls, .returned)
      else checkoutRetry a i calls version

/-- Is the call a checkout attempt? -/
def GitCall.isCheckout : GitCall → Bool
  | .checkout _ => true
  | _ => false

/-- Is the call a fetch? -/
def GitCall.isFetch : GitCall → Bool
  | .fetch _ => true
  | _ => false

/-- An entry pinned to the branch "master" of the default remote. -/
def masterEntry : Import :=
  { Package := "github.com/pkg/errors", Version := "master" }

/-- An entry pinned to a tag. -/
def taggedEntry : Import :=
  { Package := "github.com/pkg/errors", Version := "v0.8.0" }

/-- The first checkout fails and the retry succeeds; the latest commit of the
repository is `4f2a9c1`. -/
def retryAnswers : CheckoutAnswers where
  chdir := true
  isBranch := false
  fetchFirst := true
  checkoutFirst := false
  logAll := some "4f2a9c1 Fix the walk\n"
  fetchRetry := true
  checkoutRetry := true

/-! ## `checkGitRepo` -/

/-- What `os.Chdir(repoDir)` answers. -/
inductive ChdirResult where
  | ok
  | notExist
  | failed (msg : String)
deriving DecidableEq, Repr

/-- The cache slot as `checkGitRepo` and `cloneGitRepo` find it: the answer of
`os.Chdir(repoDir)`, whether the slot is a recognized repository
(`isCurrentDirARepo`), the lines `git remote` prints, the errors of `os.RemoveAll`
and `os.MkdirAll` in `cloneGitRepo`, and whether the slot is a recognized repository
after `go get`. -/
structure CacheSlot where
  chdir : ChdirResult
  isRepo : Bool
  remotes : List String
  removeAllError : Option String
  mkdirAllError : Option String
  isRepoAfterGet : Bool

/-- What `checkGitRepo` does to the cache slot. -/
inductive SlotStep where
  | removeAll (repoDir : String)
  | goGet (args : List String)
  | mkdirAll (repoDir : String)
  | gitInit
  | addRemote (name url : String)
deriving DecidableEq, Repr

/-- The function `remoteExists`. -/
def remoteExists (slot : CacheSlot) (name : String) : Bool :=
  slot.remotes.any (fun line => trimSpace line == name)

/-- The function `cloneGitRepo`: wipe the slot, `go get` the package, make sure the
directory and a repository exist, and add the remote of the entry. -/
def cloneGitRepo (slot : CacheSlot) (repoDir : String) (i : Import) (insecure : Bool) :
    List SlotStep × Option GoError :=
  match slot.removeAllError with
  | some msg => ([SlotStep.removeAll repoDir], some (.library msg))
  | none =>
    let args := ["get", "-d", "-f", "-u"] ++ (if insecure then ["-insecure"] else []) ++
      [i.Package]
    let steps := [SlotStep.removeAll repoDir, SlotStep.goGet args, SlotStep.mkdirAll repoDir]
    match slot.mkdirAllError with
    | some msg => (steps, some (.library msg))
    | none =>
      let steps := if !slot.isRepoAfterGet then steps ++ [SlotStep.gitInit] else steps
      let steps :=
        if i.Repo ≠ "" then steps ++ [SlotStep.addRemote (remoteName i.Repo) i.Repo] else steps
      (steps, none)

/-- The function `checkGitRepo`. -/
def checkGitRepo (slot : CacheSlot) (repoDir : String) (i : Import) (insecure : Bool) :
    List SlotStep × Option GoError :=
  match slot.chdir with
  | .notExist => cloneGitRepo slot repoDir i insecure
  | .failed msg => ([], some (.library msg))
  | .ok =>
    if !slot.isRepo then cloneGitRepo slot repoDir i insecure
    else if i.Repo ≠ "" ∧ !remoteExists slot (remoteName i.Repo) then
      ([SlotStep.addRemote (remoteName i.Repo) i.Repo], none)
    else if !remoteExists slot "origin" then cloneGitRepo slot repoDir i insecure
    else ([], none)

/-- An entry fetched from an explicit repository URL. -/
def forkEntry : Import :=
  { Package := "github.com/pkg/errors", Version := "v0.8.0",
    Repo := "https://github.com/rdeusser/errors.git" }

/-- A recognized repository whose only remote is the alias of the URL of `forkEntry`,
as `cloneGitRepo` leaves it when `go get` cannot resolve the package. -/
def aliasOnlySlot : CacheSlot where
  chdir := .ok
  isRepo := true
  remotes := ["8d8fda4"]
  removeAllError := none
  mkdirAllError := none
  isRepoAfterGet := false

/-! ## Lemmas on the deduplicating scan -/

theorem dedupeScan_cons_of_mem {seen : List String} {i : Import} (rest : List Import)
    (h : i.Package ∈ seen) : dedupeScan seen (i :: rest) = dedupeScan seen rest := by
  simp [dedupeScan, h]

theorem dedupeScan_cons_of_not_mem {seen : List String} {i : Import} (rest : List Import)
    (h : i.Package ∉ seen) :
    dedupeScan seen (i :: rest) = i :: dedupeScan (i.Package :: seen) rest := by
  simp [dedupeScan, h]

theorem dedupeScan_snoc (seen : List String) (S : List Import) (x : Import) :
    dedupeScan seen (S ++ [x]) =
      dedupeScan seen S ++
        (if x.Package ∈ seen ∨ x.Package ∈ packages S then [] else [x]) := by
  induction S generalizing seen with
  | nil => by_cases h : x.Package ∈ seen <;> simp [dedupeScan, packages, h]
  | cons i rest ih =>
    rw [List.cons_append]
    by_cases h : i.Package ∈ seen
    · rw [dedupeScan_cons_of_mem _ h, dedupeScan_cons_of_mem _ h, ih]
      congr 1
      by_cases hx : x.Package ∈ seen
      · simp [hx]
      · have hne : x.Package ≠ i.Package := fun e => hx (e ▸ h)
        simp [packages, hx, hne]
    · rw [dedupeScan_cons_of_not_mem _ h, dedupeScan_cons_of_not_mem _ h, ih, List.cons_append]
      congr 2
      simp only [packages, List.map_cons, List.mem_cons]
      by_cases hx : x.Package ∈ seen <;> by_cases hr : x.Package ∈ List.map Import.Package rest <;>
        by_cases he : x.Package = i.Package <;> simp [hx, hr, he]

theorem dedupe_snoc (S : List Import) (x : Import) :
    dedupe (S ++ [x]) = dedupe S ++ (if x.Package ∈ packages S then [] else [x]) := by
  simp [dedupe, dedupeScan_snoc]

theorem mem_packages_dedupeScan (seen : List String) (S : List Import) (p : String) :
    p ∈ packages (dedupeScan seen S) ↔ p ∈ packages S ∧ p ∉ seen := by
  induction S generalizing seen with
  | nil => simp [dedupeScan, packages]
  | cons i rest ih =>
    by_cases h : i.Package ∈ seen
    · have := ih seen
      simp only [dedupeScan, h, if_true, this]
      simp only [packages, List.map_cons, List.mem_cons]
      constructor
      · rintro ⟨a, b⟩; exact ⟨Or.inr a, b⟩
      · rintro ⟨a | a, b⟩
        · exact absurd (a ▸ h) b
        · exact ⟨a, b⟩
    · have := ih (i.Package :: seen)
      simp only [packages, List.mem_cons, not_or] at this
      simp only [dedupeScan, h, if_false, packages, List.map_cons, List.mem_cons, this]
      constructor
      · rintro (a | ⟨a, b, c⟩)
        · exact ⟨Or.inl a, a ▸ h⟩
        · exact ⟨Or.inr a, c⟩
      · rintro ⟨a | a, b⟩
        · exact Or.inl a
        · by_cases e : p = i.Package
          · exact Or.inl e
          · exact Or.inr ⟨a, e, b⟩

theorem nodup_packages_dedupeScan (seen : List String) (S : List Import) :
    (packages (dedupeScan seen S)).Nodup := by
  induction S generalizing seen with
  | nil => simp [dedupeScan, packages]
  | cons i rest ih =>
    by_cases h : i.Package ∈ seen
    · simpa [dedupeScan, h] using ih seen
    · simp only [dedupeScan, h, if_false, packages, List.map_cons, List.nodup_cons]
      refine ⟨?_, ih _⟩
      intro hm
      have := (mem_packages_dedupeScan (i.Package :: seen) rest i.Package).1 hm
      simp at this

theorem dedupeScan_sublist (seen : List String) (S : List Import) :
    (dedupeScan seen S).Sublist S := by
  induction S generalizing seen with
  | nil => simp [dedupeScan]
  | cons i rest ih =>
    by_cases h : i.Package ∈ seen
    · simpa [dedupeScan, h] using (ih seen).cons i
    · simpa [dedupeScan, h] using (ih (i.Package :: seen)).cons₂ i

theorem dedupeScan_eq_self (seen : List String) (S : List Import)
    (hnd : (packages S).Nodup) (hdis : ∀ p ∈ packages S, p ∉ seen) :
    dedupeScan seen S = S := by
  induction S generalizing seen with
  | nil => simp [dedupeScan]
  | cons i rest ih =>
    simp only [packages, List.map_cons, List.nodup_cons, List.mem_cons, forall_eq_or_imp] at hnd hdis
    simp only [dedupeScan, hdis.1, if_false, List.cons.injEq, true_and]
    apply ih _ hnd.2
    intro p hp
    simp only [List.mem_cons, not_or]
    exact ⟨fun e => hnd.1 (e ▸ hp), hdis.2 p hp⟩

theorem repeatedPositions_snoc (S : List Import) (x : Import) :
    repeatedPositions (S ++ [x]) =
      repeatedPositions S + (if x.Package ∈ packages S then 1 else 0) := by
  unfold repeatedPositions
  rw [List.length_append, List.length_singleton, List.range_succ, List.countP_append]
  congr 1
  · apply List.countP_congr
    intro k hk
    have hk' : k < S.length := List.mem_range.1 hk
    simp [List.getElem?_append_left hk', List.take_append_of_le_length (Nat.le_of_lt hk')]
  · by_cases h : x.Package ∈ packages S <;> simp [List.countP_cons, h]

theorem length_dedupe_add (S : List Import) :
    S.length = (dedupe S).length + repeatedPositions S := by
  induction S using List.reverseRecOn with
  | nil => simp [dedupe, dedupeScan, repeatedPositions]
  | append_singleton S x ih =>
    rw [dedupe_snoc, repeatedPositions_snoc]
    by_cases h : x.Package ∈ packages S <;> simp [h] <;> omega

theorem find_dedupe (S : List Import) :
    ∀ e ∈ dedupe S, S.find? (fun i => i.Package == e.Package) = some e := by
  induction S using List.reverseRecOn with
  | nil => simp [dedupe, dedupeScan]
  | append_singleton S x ih =>
    intro e he
    rw [dedupe_snoc, List.mem_append] at he
    rcases he with he | he
    · simp [List.find?_append, ih e he]
    · by_cases h : x.Package ∈ packages S
      · simp [h] at he
      · simp only [h, if_false, List.mem_singleton] at he
        subst he
        have hnone : S.find? (fun i => i.Package == e.Package) = none := by
          rw [List.find?_eq_none]
          intro i hi hpe
          exact h (by simpa [packages] using ⟨i, hi, by simpa using hpe⟩)
        simp [List.find?_append, hnone]

theorem mem_packages_dedupe (S : List Import) (p : String) :
    p ∈ packages (dedupe S) ↔ p ∈ packages S := by
  simp [dedupe, mem_packages_dedupeScan]

theorem packages_snoc (S : List Import) (x : Import) :
    packages (S ++ [x]) = packages S ++ [x.Package] := by
  simp [packages]

theorem indexOf_dedupe (S : List Import) (p q : String)
    (hp : p ∈ packages S) (hq : q ∈ packages S) :
    ((packages (dedupe S)).indexOf p < (packages (dedupe S)).indexOf q ↔
      (packages S).indexOf p < (packages S).indexOf q) := by
  induction S using List.reverseRecOn with
  | nil => simp [packages] at hp
  | append_singleton S x ih =>
    rw [packages_snoc] at hp hq ⊢
    rw [dedupe_snoc]
    by_cases h : x.Package ∈ packages S
    · have hp' : p ∈ packages S := by
        rcases List.mem_append.1 hp with a | a
        · exact a
        · rw [List.mem_singleton.1 a]; exact h
      have hq' : q ∈ packages S := by
        rcases List.mem_append.1 hq with a | a
        · exact a
        · rw [List.mem_singleton.1 a]; exact h
      rw [if_pos h, List.append_nil, List.indexOf_append_of_mem hp',
        List.indexOf_append_of_mem hq']
      exact ih hp' hq'
    · rw [if_neg h]
      have hpk : packages (dedupe S ++ [x]) = packages (dedupe S) ++ [x.Package] :=
        packages_snoc _ _
      rw [hpk]
      by_cases hpS : p ∈ packages S <;> by_cases hqS : q ∈ packages S
      · rw [List.indexOf_append_of_mem ((mem_packages_dedupe S p).2 hpS),
          List.indexOf_append_of_mem ((mem_packages_dedupe S q).2 hqS),
          List.indexOf_append_of_mem hpS, List.indexOf_append_of_mem hqS]
        exact ih hpS hqS
      · have hpD := (mem_packages_dedupe S p).2 hpS
        have hqD : q ∉ packages (dedupe S) := fun a => hqS ((mem_packages_dedupe S q).1 a)
        rw [List.indexOf_append_of_mem hpD, List.indexOf_append_of_not_mem hqD,
          List.indexOf_append_of_mem hpS, List.indexOf_append_of_not_mem hqS]
        have h1 := List.indexOf_lt_length.2 hpD
        have h2 := List.indexOf_lt_length.2 hpS
        constructor <;> intro _ <;> omega
      · have hqD := (mem_packages_dedupe S q).2 hqS
        have hpD : p ∉ packages (dedupe S) := fun a => hpS ((mem_packages_dedupe S p).1 a)
        rw [List.indexOf_append_of_mem hqD, List.indexOf_append_of_not_mem hpD,
          List.indexOf_append_of_mem hqS, List.indexOf_append_of_not_mem hpS]
        have h1 := List.indexOf_lt_length.2 hqD
        have h2 := List.indexOf_lt_length.2 hqS
        constructor <;> intro _ <;> omega
      · have hpx : p = x.Package := by
          rcases List.mem_append.1 hp with a | a
          · exact absurd a hpS
          · exact List.mem_singleton.1 a
        have hqx : q = x.Package := by
          rcases List.mem_append.1 hq with a | a
          · exact absurd a hqS
          · exact List.mem_singleton.1 a
        rw [hpx, hqx]
        simp

/-! ## The ledger claims -/

/-- C1: after `Conf.Dedupe` the ledger holds exactly one entry per distinct package
of `S`: no two kept entries share a package, the kept packages are exactly the
packages of `S`, the number of entries lost is the number of positions of `S` whose
package already occurred earlier (so the count never increases), every field but
the entry list is untouched, and the 6-entry test list loses exactly 3 entries. -/
theorem C1_dedupe_one_entry_per_package (t : Conf) :
    (packages t.Dedupe.Imports).Nodup ∧
    (∀ p, p ∈ packages t.Dedupe.Imports ↔ p ∈ packages t.Imports) ∧
    t.Imports.length = t.Dedupe.Imports.length + repeatedPositions t.Imports ∧
    t.Imports.length - t.Dedupe.Imports.length = repeatedPositions t.Imports ∧
    t.Dedupe.Imports.length ≤ t.Imports.length ∧
    t.Dedupe = { t with Imports := t.Dedupe.Imports } ∧
    testImports.length - (Conf.Dedupe { Imports := testImports }).Imports.length = 3 := by
  have hlen := length_dedupe_add t.Imports
  refine ⟨nodup_packages_dedupeScan [] t.Imports, mem_packages_dedupe t.Imports, hlen,
    ?_, ?_, rfl, by decide⟩
  · show t.Imports.length - (dedupe t.Imports).length = _
    omega
  · show (dedupe t.Imports).length ≤ _
    omega

/-- C2: the entry `Conf.Dedupe` keeps for a package is the first entry of `S` with
that package (the whole entry: version, repo and flags), the kept entries stand in
the order of their first occurrences in `S` (the result is a sublist of `S`, and
one kept package precedes another exactly when its first occurrence in `S` does),
and deduplicating twice is deduplicating once. -/
theorem C2_dedupe_keeps_first_in_order (S : List Import) :
    (∀ e ∈ dedupe S, S.find? (fun i => i.Package == e.Package) = some e) ∧
    (dedupe S).Sublist S ∧
    (∀ p ∈ packages S, ∀ q ∈ packages S,
      ((packages (dedupe S)).indexOf p < (packages (dedupe S)).indexOf q ↔
        (packages S).indexOf p < (packages S).indexOf q)) ∧
    dedupe (dedupe S) = dedupe S ∧
    (∀ t : Conf, t.Dedupe.Dedupe = t.Dedupe) := by
  have hid : ∀ l, dedupe (dedupe l) = dedupe l := fun l =>
    dedupeScan_eq_self [] (dedupe l) (nodup_packages_dedupeScan [] l) (by simp)
  refine ⟨find_dedupe S, dedupeScan_sublist [] S,
    fun p hp q hq => indexOf_dedupe S p q hp hq, hid S, ?_⟩
  intro t
  simp [Conf.Dedupe, hid]

/-! ## Lemmas on the merge step -/

theorem packageAlreadyImported_iff (imports : List Import) (e : Import) :
    packageAlreadyImported imports e = true ↔ e.Package ∈ packages imports := by
  simp only [packageAlreadyImported, List.any_eq_true, beq_iff_eq, packages, List.mem_map]

theorem importMapOf_snoc (E : List Import) (x : Import) :
    importMapOf (E ++ [x]) = mapStore (importMapOf E) x := by
  simp [importMapOf, List.foldl_append]

theorem mem_mapStore (m : List Import) (x e : Import) :
    e ∈ mapStore m x ↔ e = x ∨ (e ∈ m ∧ e.Package ≠ x.Package) := by
  unfold mapStore
  by_cases h : m.any (fun j => j.Package == x.Package) = true
  · rw [if_pos h]
    simp only [List.any_eq_true, beq_iff_eq] at h
    obtain ⟨j, hj, hjx⟩ := h
    simp only [List.mem_map, beq_iff_eq]
    constructor
    · rintro ⟨a, ha, rfl⟩
      by_cases hax : a.Package = x.Package
      · simp [hax]
      · simp [hax, ha]
    · rintro (rfl | ⟨he, hne⟩)
      · exact ⟨j, hj, by simp [hjx]⟩
      · exact ⟨e, he, by simp [hne]⟩
  · rw [if_neg h]
    simp only [List.any_eq_true, beq_iff_eq, not_exists, not_and] at h
    simp only [List.mem_append, List.mem_singleton]
    constructor
    · rintro (he | he)
      · exact Or.inr ⟨he, h e he⟩
      · exact Or.inl he
    · rintro (he | ⟨he, _⟩)
      · exact Or.inr he
      · exact Or.inl he

theorem packages_mapStore (m : List Import) (x : Import) :
    packages (mapStore m x) =
      if x.Package ∈ packages m then packages m else packages m ++ [x.Package] := by
  unfold mapStore
  by_cases h : x.Package ∈ packages m
  · have h' : m.any (fun j => j.Package == x.Package) = true := by
      simp only [packages, List.mem_map] at h
      obtain ⟨j, hj, hjx⟩ := h
      simp only [List.any_eq_true, beq_iff_eq]
      exact ⟨j, hj, hjx⟩
    rw [if_pos h', if_pos h]
    simp only [packages, List.map_map]
    apply List.map_congr_left
    intro a _
    by_cases hax : a.Package = x.Package <;> simp [hax]
  · have h' : ¬ m.any (fun j => j.Package == x.Package) = true := by
      intro hh
      simp only [List.any_eq_true, beq_iff_eq] at hh
      obtain ⟨j, hj, hjx⟩ := hh
      exact h (by simpa [packages] using ⟨j, hj, hjx⟩)
    rw [if_neg h', if_neg h]
    simp [packages]

theorem mem_packages_importMapOf (E : List Import) :
    ∀ p, p ∈ packages (importMapOf E) ↔ p ∈ packages E := by
  induction E using List.reverseRecOn with
  | nil => simp [importMapOf, packages]
  | append_singleton E x ih =>
    intro p
    rw [importMapOf_snoc, packages_mapStore, packages_snoc]
    by_cases h : x.Package ∈ packages (importMapOf E)
    · rw [if_pos h, List.mem_append, List.mem_singleton, ih p]
      constructor
      · exact Or.inl
      · rintro (a | a)
        · exact a
        · rw [a]; exact (ih _).1 h
    · rw [if_neg h, List.mem_append, List.mem_append, ih p]

theorem nodup_packages_importMapOf (E : List Import) :
    (packages (importMapOf E)).Nodup := by
  induction E using List.reverseRecOn with
  | nil => simp [importMapOf, packages]
  | append_singleton E x ih =>
    rw [importMapOf_snoc, packages_mapStore]
    by_cases h : x.Package ∈ packages (importMapOf E)
    · rw [if_pos h]; exact ih
    · rw [if_neg h]
      exact List.Nodup.append ih (List.nodup_singleton _) (by simpa using h)

theorem importMapOf_last (E : List Import) :
    ∀ e ∈ importMapOf E, E.reverse.find? (fun i => i.Package == e.Package) = some e := by
  induction E using List.reverseRecOn with
  | nil => simp [importMapOf]
  | append_singleton E x ih =>
    intro e he
    rw [importMapOf_snoc, mem_mapStore] at he
    rw [List.reverse_append, List.reverse_singleton, List.singleton_append]
    rcases he with rfl | ⟨he, hne⟩
    · simp [List.find?_cons]
    · have : (x.Package == e.Package) = false := by
        simpa using fun h => hne h.symm
      rw [List.find?_cons, this]
      exact ih e he

theorem drop_mergeExtraImports (rangeOrder : List Import → List Import)
    (L E : List Import) :
    (mergeExtraImports rangeOrder L E).drop L.length =
      (rangeOrder (importMapOf E)).filter (fun e => !packageAlreadyImported L e) := by
  simp [mergeExtraImports]

theorem mem_packages_filtered (rangeOrder : List Import → List Import)
    (hrange : ∀ m, (rangeOrder m).Perm m) (L E : List Import) (p : String) :
    p ∈ packages ((rangeOrder (importMapOf E)).filter (fun e => !packageAlreadyImported L e)) ↔
      p ∈ packages E ∧ p ∉ packages L := by
  rw [← mem_packages_importMapOf E p]
  simp only [packages, List.mem_map, List.mem_filter, (hrange (importMapOf E)).mem_iff,
    Bool.not_eq_true', ← Bool.not_eq_true, packageAlreadyImported_iff]
  constructor
  · rintro ⟨e, ⟨he, hn⟩, rfl⟩
    exact ⟨⟨e, he, rfl⟩, hn⟩
  · rintro ⟨⟨e, he, rfl⟩, hn⟩
    exact ⟨e, ⟨he, hn⟩, rfl⟩

theorem nodup_packages_filtered (rangeOrder : List Import → List Import)
    (hrange : ∀ m, (rangeOrder m).Perm m) (L E : List Import) :
    (packages ((rangeOrder (importMapOf E)).filter
      (fun e => !packageAlreadyImported L e))).Nodup := by
  have h1 : (packages (rangeOrder (importMapOf E))).Nodup :=
    (((hrange (importMapOf E)).map Import.Package).nodup_iff).2 (nodup_packages_importMapOf E)
  exact List.Nodup.sublist (List.Sublist.map _ (List.filter_sublist _)) h1

/-! ## The merge claims -/

/-- C3: whatever order the map of discovered entries is ranged over, the merge step
of `run` leaves the ledger entries `L` as an unchanged prefix of the new entry list,
every appended entry has a package that does not occur in `L`, and looking a
package of `L` up in the new list finds the entry `L` had for it. -/
theorem C3_merge_keeps_ledger_prefix (rangeOrder : List Import → List Import)
    (L E : List Import) :
    L <+: mergeExtraImports rangeOrder L E ∧
    (mergeExtraImports rangeOrder L E).take L.length = L ∧
    (∀ e ∈ (mergeExtraImports rangeOrder L E).drop L.length, e.Package ∉ packages L) ∧
    (∀ p ∈ packages L,
      (mergeExtraImports rangeOrder L E).find? (fun i => i.Package == p) =
        L.find? (fun i => i.Package == p)) := by
  refine ⟨by simp [mergeExtraImports], by simp [mergeExtraImports], ?_, ?_⟩
  · intro e he
    rw [drop_mergeExtraImports, List.mem_filter] at he
    intro hm
    have := (packageAlreadyImported_iff L e).2 hm
    simp [this] at he
  · intro p hp
    simp only [packages, List.mem_map] at hp
    obtain ⟨i, hi, hip⟩ := hp
    have hsome : (L.find? (fun i => i.Package == p)).isSome = true := by
      rw [List.find?_isSome]
      exact ⟨i, hi, by simpa using hip⟩
    obtain ⟨v, hv⟩ := Option.isSome_iff_exists.1 hsome
    simp [mergeExtraImports, List.find?_append, hv]

/-- C4, the claim at `twoPins`: with an empty ledger and two discovered entries for
one package, the merge step appends the second (last) entry while `dedupe` keeps
the first, so the two results do not hold the same entries. -/
theorem C4_counterexample :
    (packages ([] : List Import)).Nodup ∧
    mergeExtraImports id [] twoPins =
      [{ Package := "github.com/pkg/errors", Version := "v0.9.1",
         Repo := "https://example.org/errors.git" }] ∧
    dedupe ([] ++ twoPins) = [{ Package := "github.com/pkg/errors", Version := "v0.8.0" }] ∧
    ¬ (∀ e, e ∈ mergeExtraImports id [] twoPins ↔ e ∈ dedupe ([] ++ twoPins)) := by
  refine ⟨by decide, by decide, by decide, ?_⟩
  intro h
  have := (h { Package := "github.com/pkg/errors", Version := "v0.8.0" }).2 (by decide)
  revert this
  decide

/-- C4 (amended): for a ledger `L` without duplicate packages and a range order that
hands out every value of the map once, the merge step yields the same packages as
`dedupe (L ++ E)`, each once; the appended entries are one per package of `E` that
is absent from `L`; and the entry appended for a package is the last entry of `E`
with that package. -/
theorem C4_merge_packages_last_wins (rangeOrder : List Import → List Import)
    (hrange : ∀ m, (rangeOrder m).Perm m) (L E : List Import)
    (hL : (packages L).Nodup) :
    (packages (mergeExtraImports rangeOrder L E)).Perm (packages (dedupe (L ++ E))) ∧
    (packages ((mergeExtraImports rangeOrder L E).drop L.length)).Nodup ∧
    (∀ p, p ∈ packages ((mergeExtraImports rangeOrder L E).drop L.length) ↔
      p ∈ packages E ∧ p ∉ packages L) ∧
    (∀ e ∈ (mergeExtraImports rangeOrder L E).drop L.length,
      E.reverse.find? (fun i => i.Package == e.Package) = some e) := by
  refine ⟨?_, ?_, ?_, ?_⟩
  · have hnd : (packages (mergeExtraImports rangeOrder L E)).Nodup := by
      simp only [mergeExtraImports, packages, List.map_append]
      refine List.Nodup.append hL (nodup_packages_filtered rangeOrder hrange L E) ?_
      intro p hp hq
      exact ((mem_packages_filtered rangeOrder hrange L E p).1 hq).2 hp
    have hnd2 : (packages (dedupe (L ++ E))).Nodup := nodup_packages_dedupeScan [] (L ++ E)
    rw [List.perm_ext_iff_of_nodup hnd hnd2]
    intro p
    rw [mem_packages_dedupe]
    have hf := mem_packages_filtered rangeOrder hrange L E p
    simp only [packages] at hf
    simp only [mergeExtraImports, packages, List.map_append, List.mem_append, hf]
    constructor
    · rintro (a | ⟨a, _⟩)
      · exact Or.inl a
      · exact Or.inr a
    · rintro (a | a)
      · exact Or.inl a
      · by_cases hpL : p ∈ List.map Import.Package L
        · exact Or.inl hpL
        · exact Or.inr ⟨a, hpL⟩
  · rw [drop_mergeExtraImports]
    exact nodup_packages_filtered rangeOrder hrange L E
  · intro p
    rw [drop_mergeExtraImports]
    exact mem_packages_filtered rangeOrder hrange L E p
  · intro e he
    rw [drop_mergeExtraImports, List.mem_filter, (hrange (importMapOf E)).mem_iff] at he
    exact importMapOf_last E e he.1

/-- C4 (amended) at `twoPins` merged into a one-entry ledger, ranging the map in
insertion order. -/
theorem C4_merge_packages_last_wins_witness :
    (packages (mergeExtraImports id [{ Package := "github.com/urfave/cli", Version := "v1.20.0" }]
      twoPins)).Perm
      (packages (dedupe ([{ Package := "github.com/urfave/cli", Version := "v1.20.0" }] ++
        twoPins))) ∧
    ∀ e ∈ (mergeExtraImports id [{ Package := "github.com/urfave/cli", Version := "v1.20.0" }]
        twoPins).drop 1,
      twoPins.reverse.find? (fun i => i.Package == e.Package) = some e :=
  have h := C4_merge_packages_last_wins id (fun m => List.Perm.refl m)
    [{ Package := "github.com/urfave/cli", Version := "v1.20.0" }] twoPins (by decide)
  ⟨h.1, h.2.2.2⟩

/-! ## Lemmas on `vendor` -/

theorem versionNotSpecified_injective {p q : String}
    (h : versionNotSpecified p = versionNotSpecified q) : p = q := by
  simp only [versionNotSpecified, GoError.errorf.injEq] at h
  have := congrArg String.data h
  simp only [String.data_append] at this
  have := List.append_cancel_left (List.append_cancel_right this)
  exact String.ext this

theorem mv_ne_versionNotSpecified (w : World) (tr : List Step) (vendorDir trashDir : String)
    (i : Import) (p : String) : mv w tr vendorDir trashDir i ≠ some (versionNotSpecified p) := by
  unfold mv
  cases w.mvOutput tr i with
  | none => simp
  | some bytes =>
    simp only [versionNotSpecified, ne_eq, Option.some.injEq, GoError.errorf.injEq]
    intro h
    have := congrArg String.data h
    simp [String.data_append] at this

theorem cpy_ne_versionNotSpecified (w : World) (tr : List Step) (vendorDir trashDir : String)
    (i : Import) (p : String) : cpy w tr vendorDir trashDir i ≠ some (versionNotSpecified p) := by
  unfold cpy
  cases w.cpOutput tr i with
  | none => simp
  | some bytes =>
    simp only [versionNotSpecified, ne_eq, Option.some.injEq, GoError.errorf.injEq]
    intro h
    have := congrArg String.data h
    simp [String.data_append] at this

theorem moveDeps_ne_versionNotSpecified (w : World) (vendorDir trashDir : String)
    (l : List Import) (tr : List Step) (p : String) :
    (moveDeps w vendorDir trashDir l tr).2 ≠ some (versionNotSpecified p) := by
  induction l generalizing tr with
  | nil => simp [moveDeps]
  | cons i rest ih =>
    unfold moveDeps
    by_cases hl : i.Lock = true
    · simpa [hl] using ih tr
    · simp only [hl, Bool.not_false, if_true]
      have hmv := mv_ne_versionNotSpecified w (tr ++ [Step.mv vendorDir trashDir i])
        vendorDir trashDir i p
      cases hm : mv w (tr ++ [Step.mv vendorDir trashDir i]) vendorDir trashDir i with
      | none => simpa using ih _
      | some err =>
        rw [hm] at hmv
        simpa using hmv

theorem copyDeps_ne_versionNotSpecified (w : World) (vendorDir trashDir : String)
    (l : List Import) (tr : List Step) (p : String) :
    (copyDeps w vendorDir trashDir l tr).2 ≠ some (versionNotSpecified p) := by
  induction l generalizing tr with
  | nil => simp [copyDeps]
  | cons i rest ih =>
    unfold copyDeps
    dsimp only
    have hcp := cpy_ne_versionNotSpecified w (tr ++ [Step.cpy vendorDir trashDir i])
      vendorDir trashDir i p
    cases hm : cpy w (tr ++ [Step.cpy vendorDir trashDir i]) vendorDir trashDir i with
    | none => simpa using ih _
    | some err =>
      rw [hm] at hcp
      simpa using hcp

theorem vendorFinish_ne_versionNotSpecified (w : World) (keep : Bool) (dir vendorDir : String)
    (tr : List Step) (p : String) :
    (vendorFinish w keep dir vendorDir tr).outcome ≠ .error (versionNotSpecified p) := by
  unfold vendorFinish
  cases keep with
  | true => simp
  | false =>
    simp only [Bool.not_false, if_true]
    cases hs : w.stripGitError (tr ++ [Step.stripGitDirs vendorDir]) with
    | none => simp
    | some err => simp [versionNotSpecified]

theorem vendor_of_versions (w : World) (keep update : Bool) (trashDir dir targetDir : String)
    (trashConf : Conf) (insecure : Bool)
    (h : trashConf.Imports.find? (fun i => i.Version == "") = none) (p : String) :
    (vendor w keep update trashDir dir targetDir trashConf insecure).outcome ≠
      .error (versionNotSpecified p) := by
  unfold vendor
  rw [h]
  dsimp only
  rcases hp : prepareAndCheckout w update insecure trashDir trashConf.Imports
    [Step.mkdirAll trashDir, Step.setenv "GOPATH" trashDir] with ⟨tr, b⟩
  cases b with
  | true => simp
  | false =>
    dsimp only
    cases update with
    | true =>
      simp only [if_true]
      rcases hm : moveDeps w (w.pathJoin [dir, targetDir]) trashDir trashConf.Imports tr with
        ⟨tr2, e⟩
      have := moveDeps_ne_versionNotSpecified w (w.pathJoin [dir, targetDir]) trashDir
        trashConf.Imports tr p
      rw [hm] at this
      cases e with
      | none => exact vendorFinish_ne_versionNotSpecified w keep dir _ tr2 p
      | some err => simpa using this
    | false =>
      simp only [Bool.false_eq_true, if_false]
      rcases hm : copyDeps w (w.pathJoin [dir, targetDir]) trashDir trashConf.Imports
        (tr ++ [Step.removeAll (w.pathJoin [dir, targetDir]),
          Step.mkdirAll (w.pathJoin [dir, targetDir])]) with ⟨tr2, e⟩
      have := copyDeps_ne_versionNotSpecified w (w.pathJoin [dir, targetDir]) trashDir
        trashConf.Imports (tr ++ [Step.removeAll (w.pathJoin [dir, targetDir]),
          Step.mkdirAll (w.pathJoin [dir, targetDir])]) p
      rw [hm] at this
      cases e with
      | none => exact vendorFinish_ne_versionNotSpecified w keep dir _ tr2 p
      | some err => simpa using this

theorem find_first_unversioned (pre post : List Import) (i : Import)
    (hpre : ∀ j ∈ pre, j.Version ≠ "") (hi : i.Version = "") :
    (pre ++ i :: post).find? (fun i => i.Version == "") = some i := by
  induction pre with
  | nil => simp [List.find?_cons, hi]
  | cons j rest ih =>
    have hj : (j.Version == "") = false := by
      simpa using hpre j (List.mem_cons_self _ _)
    rw [List.cons_append, List.find?_cons, hj]
    exact ih (fun k hk => hpre k (List.mem_cons_of_mem _ hk))

/-! ## The `vendor` claim -/

/-- C5: `vendor` returns the error "version not specified for package '<p>'" if and
only if some ledger entry has an empty version; `<p>` is then the package of the
first such entry in ledger order, and the call returns having done nothing but the
deferred `os.Chdir(dir)`: no cache preparation, checkout, move, copy, removal or
creation of a directory. -/
theorem C5_vendor_version_not_specified (w : World) (keep update : Bool)
    (trashDir dir targetDir : String) (trashConf : Conf) (insecure : Bool) :
    ((∃ p, (vendor w keep update trashDir dir targetDir trashConf insecure).outcome =
        .error (.errorf ("version not specified for package '" ++ p ++ "'"))) ↔
      ∃ i ∈ trashConf.Imports, i.Version = "") ∧
    (∀ pre i post, trashConf.Imports = pre ++ i :: post →
      (∀ j ∈ pre, j.Version ≠ "") → i.Version = "" →
      vendor w keep update trashDir dir targetDir trashConf insecure =
        ⟨[Step.chdir dir],
          .error (.errorf ("version not specified for package '" ++ i.Package ++ "'"))⟩ ∧
      ∀ p, (vendor w keep update trashDir dir targetDir trashConf insecure).outcome =
          .error (.errorf ("version not specified for package '" ++ p ++ "'")) →
        p = i.Package) := by
  constructor
  · constructor
    · rintro ⟨p, hp⟩
      by_contra hno
      have hnone : trashConf.Imports.find? (fun i => i.Version == "") = none := by
        rw [List.find?_eq_none]
        intro i hi hv
        exact hno ⟨i, hi, by simpa using hv⟩
      exact vendor_of_versions w keep update trashDir dir targetDir trashConf insecure hnone p hp
    · rintro ⟨i, hi, hv⟩
      have hsome : (trashConf.Imports.find? (fun i => i.Version == "")).isSome = true := by
        rw [List.find?_isSome]
        exact ⟨i, hi, by simpa using hv⟩
      obtain ⟨j, hj⟩ := Option.isSome_iff_exists.1 hsome
      exact ⟨j.Package, by simp [vendor, hj, versionNotSpecified]⟩
  · intro pre i post hsplit hpre hi
    have hfind : trashConf.Imports.find? (fun i => i.Version == "") = some i := by
      rw [hsplit]; exact find_first_unversioned pre post i hpre hi
    have hv : vendor w keep update trashDir dir targetDir trashConf insecure =
        ⟨[Step.chdir dir],
          .error (.errorf ("version not specified for package '" ++ i.Package ++ "'"))⟩ := by
      simp [vendor, hfind, versionNotSpecified]
    refine ⟨hv, ?_⟩
    intro p hp
    rw [hv] at hp
    have : versionNotSpecified i.Package = versionNotSpecified p := by
      simpa [versionNotSpecified] using hp
    exact (versionNotSpecified_injective this).symm

/-- C5 at `unpinnedConf`: the second entry is the first without a version, so
`vendor` returns the error naming its package after the deferred `os.Chdir` alone. -/
theorem C5_vendor_version_not_specified_witness :
    vendor quietWorld false false "/cache" "/proj" "vendor" unpinnedConf false =
      ⟨[Step.chdir "/proj"],
        .error (.errorf "version not specified for package 'github.com/urfave/cli'")⟩ :=
  ((C5_vendor_version_not_specified quietWorld false false "/cache" "/proj" "vendor"
    unpinnedConf false).2
    [{ Package := "github.com/pkg/errors", Version := "v0.8.0" }]
    { Package := "github.com/urfave/cli" }
    [{ Package := "gopkg.in/yaml.v2" }] rfl (by decide) rfl).1

/-! ## Lemmas on `getLatestVersion` -/

theorem collectVersions_ok {V : Type} (sv : Semver V) (tags : List String) (acc : List V)
    (h : ∀ t ∈ tags, ∀ msg, sv.NewVersion t ≠ .failed msg) :
    collectVersions sv tags acc = .ok (acc ++ tags.filterMap (versionOf sv)) := by
  induction tags generalizing acc with
  | nil => simp [collectVersions]
  | cons t rest ih =>
    have hrest : ∀ u ∈ rest, ∀ msg, sv.NewVersion u ≠ .failed msg :=
      fun u hu => h u (List.mem_cons_of_mem _ hu)
    cases hp : sv.NewVersion t with
    | version v =>
      simp [collectVersions, hp, ih _ hrest, versionOf, List.filterMap_cons]
    | invalidSemVer =>
      simp [collectVersions, hp, ih _ hrest, versionOf, List.filterMap_cons]
    | failed msg => exact absurd hp (h t (List.mem_cons_self _ _) msg)

theorem collectVersions_failed {V : Type} (sv : Semver V) (pre post : List String) (t msg : String)
    (acc : List V) (hpre : ∀ u ∈ pre, ∀ m, sv.NewVersion u ≠ .failed m)
    (ht : sv.NewVersion t = .failed msg) :
    collectVersions sv (pre ++ t :: post) acc = .error (.library msg) := by
  induction pre generalizing acc with
  | nil => simp [collectVersions, ht]
  | cons u rest ih =>
    have hrest : ∀ x ∈ rest, ∀ m, sv.NewVersion x ≠ .failed m :=
      fun x hx => hpre x (List.mem_cons_of_mem _ hx)
    cases hp : sv.NewVersion u with
    | version v => simp [collectVersions, hp, ih _ hrest]
    | invalidSemVer => simp [collectVersions, hp, ih _ hrest]
    | failed m => exact absurd hp (hpre u (List.mem_cons_self _ _) m)

theorem mem_filterMap_versionOf {V : Type} (sv : Semver V) (tags : List String) (v : V) :
    v ∈ tags.filterMap (versionOf sv) ↔ ∃ t ∈ tags, sv.NewVersion t = .version v := by
  simp only [List.mem_filterMap, versionOf]
  constructor
  · rintro ⟨t, ht, h⟩
    refine ⟨t, ht, ?_⟩
    cases hp : sv.NewVersion t with
    | version w => rw [hp] at h; simp at h; rw [h]
    | invalidSemVer => rw [hp] at h; simp at h
    | failed m => rw [hp] at h; simp at h
  · rintro ⟨t, ht, h⟩
    exact ⟨t, ht, by rw [h]⟩

theorem last_of_sorted {V : Type} (less : V → V → Bool) (sort : List V → List V)
    (l : List V)
    (hsort : (sort l).Perm l ∧ (sort l).Pairwise (fun a b => less b a = false))
    (hl : l ≠ []) :
    ∃ m, (sort l)[(sort l).length - 1]? = some m ∧ m ∈ l ∧
      ∀ a ∈ l, a ≠ m → less m a = false := by
  obtain ⟨hperm, hpair⟩ := hsort
  have hne : sort l ≠ [] := fun h => hl (by simpa [h] using hperm.symm)
  rw [← List.getLast?_eq_getElem?]
  cases hlast : (sort l).getLast? with
  | none => exact absurd (List.getLast?_eq_none_iff.1 hlast) hne
  | some m =>
    obtain ⟨ys, hys⟩ := List.getLast?_eq_some_iff.1 hlast
    refine ⟨m, rfl, hperm.mem_iff.1 (by rw [hys]; simp), ?_⟩
    intro a ha ham
    have ha' : a ∈ sort l := hperm.mem_iff.2 ha
    rw [hys] at ha' hpair
    rcases List.mem_append.1 ha' with h | h
    · exact (List.pairwise_append.1 hpair).2.2 a h m (List.mem_singleton_self m)
    · exact absurd (List.mem_singleton.1 h) ham

theorem not_failed_of_isFailed {V : Type} (sv : Semver V) (tags : List String)
    (h : ∀ t ∈ tags, (sv.NewVersion t).isFailed = false) :
    ∀ t ∈ tags, ∀ msg, sv.NewVersion t ≠ .failed msg := by
  intro t ht msg hmsg
  have := h t ht
  rw [hmsg] at this
  simp [Parsed.isFailed] at this

theorem exists_first_failed {V : Type} (sv : Semver V) (tags : List String)
    (h : ∃ t ∈ tags, ∃ msg, sv.NewVersion t = .failed msg) :
    ∃ pre t post msg, tags = pre ++ t :: post ∧
      (∀ u ∈ pre, ∀ m, sv.NewVersion u ≠ .failed m) ∧ sv.NewVersion t = .failed msg := by
  induction tags with
  | nil => simp at h
  | cons u rest ih =>
    by_cases hu : ∃ m, sv.NewVersion u = .failed m
    · obtain ⟨m, hm⟩ := hu
      exact ⟨[], u, rest, m, rfl, by simp, hm⟩
    · obtain ⟨t, ht, msg, hmsg⟩ := h
      have htr : t ∈ rest := by
        rcases List.mem_cons.1 ht with rfl | h'
        · exact absurd ⟨msg, hmsg⟩ hu
        · exact h'
      obtain ⟨pre, t', post, msg', hsplit, hpre, ht'⟩ := ih ⟨t, htr, msg, hmsg⟩
      refine ⟨u :: pre, t', post, msg', by rw [hsplit]; rfl, ?_, ht'⟩
      intro x hx m hxm
      rcases List.mem_cons.1 hx with rfl | hx
      · exact hu ⟨m, hxm⟩
      · exact hpre x hx m hxm

theorem getLatestVersion_of_tags {V : Type} (sv : Semver V) (g : Git) (libRoot pkg bytes : String)
    (h1 : g.chdir = none) (h2 : g.newGitRepo = none) (h3 : g.fetchTags = none)
    (h4 : g.tags = .ok bytes) :
    getLatestVersion sv g libRoot pkg = latestOfTags sv g.current bytes := by
  simp [getLatestVersion, h1, h2, h3, h4]

theorem latestOfTags_of_versions {V : Type} (sv : Semver V) (current : Result String)
    (bytes : String)
    (hnofail : ∀ t ∈ tagsOf bytes, ∀ msg, sv.NewVersion t ≠ .failed msg)
    (hsome : (tagsOf bytes).filterMap (versionOf sv) ≠ []) :
    latestOfTags sv current bytes =
      match (sv.SortCollection ((tagsOf bytes).filterMap (versionOf sv)))[
        (sv.SortCollection ((tagsOf bytes).filterMap (versionOf sv))).length - 1]? with
      | some latest => .ok (trimSpace (sv.Original latest))
      | none => .panic := by
  have htags : (tagsOf bytes).length ≠ 0 := by
    intro h
    rw [List.length_eq_zero] at h
    simp [h] at hsome
  have hlen : ((tagsOf bytes).filterMap (versionOf sv)).length ≠ 0 := by
    simpa [List.length_eq_zero] using hsome
  unfold latestOfTags
  simp only [htags, if_false, collectVersions_ok sv _ [] hnofail, List.nil_append, hlen]

/-! ## Lemmas on the semver library -/

theorem dropWhile_of_all_false {p : Char → Bool} (l : List Char)
    (h : ∀ c ∈ l, p c = false) : l.dropWhile p = l := by
  cases l with
  | nil => rfl
  | cons c cs => simp [List.dropWhile_cons, h c (List.mem_cons_self _ _)]

theorem trimSpace_of_no_space (s : String) (h : ∀ c ∈ s.data, isSpace c = false) :
    trimSpace s = s := by
  unfold trimSpace
  rw [dropWhile_of_all_false _ h,
    dropWhile_of_all_false _ (fun c hc => h c (List.mem_reverse.1 hc)), List.reverse_reverse]

theorem mem_splitChars (sep : Char) (cs : List Char) :
    ∀ c ∈ cs, c = sep ∨ ∃ piece ∈ splitChars sep cs, c ∈ piece := by
  induction cs with
  | nil => simp
  | cons d ds ih =>
    intro c hc
    by_cases hd : d = sep
    · rcases List.mem_cons.1 hc with rfl | hc
      · exact Or.inl hd
      · rcases ih c hc with h | ⟨piece, hp, hcp⟩
        · exact Or.inl h
        · exact Or.inr ⟨piece, by simp [splitChars, hd, hp], hcp⟩
    · cases hs : splitChars sep ds with
      | nil =>
        rcases List.mem_cons.1 hc with rfl | hc
        · exact Or.inr ⟨[c], by simp [splitChars, hd, hs], by simp⟩
        · rcases ih c hc with h | ⟨piece, hp, _⟩
          · exact Or.inl h
          · rw [hs] at hp; simp at hp
      | cons q qs =>
        rcases List.mem_cons.1 hc with rfl | hc
        · exact Or.inr ⟨c :: q, by simp [splitChars, hd, hs], by simp⟩
        · rcases ih c hc with h | ⟨piece, hp, hcp⟩
          · exact Or.inl h
          · rw [hs] at hp
            rcases List.mem_cons.1 hp with rfl | hp
            · exact Or.inr ⟨d :: piece, by simp [splitChars, hd, hs],
                List.mem_cons_of_mem _ hcp⟩
            · exact Or.inr ⟨piece, by simp [splitChars, hd, hs, hp], hcp⟩

theorem mem_splitFirst (sep : Char) (cs : List Char) :
    ∀ c ∈ cs, c = sep ∨ c ∈ (splitFirst sep cs).1 ∨
      ∃ rest, (splitFirst sep cs).2 = some rest ∧ c ∈ rest := by
  induction cs with
  | nil => simp
  | cons d ds ih =>
    intro c hc
    by_cases hd : d = sep
    · rcases List.mem_cons.1 hc with rfl | hc
      · exact Or.inl hd
      · exact Or.inr (Or.inr ⟨ds, by simp [splitFirst, hd], hc⟩)
    · rcases List.mem_cons.1 hc with rfl | hc
      · exact Or.inr (Or.inl (by simp [splitFirst, hd]))
      · rcases ih c hc with h | h | ⟨rest, hr, hcr⟩
        · exact Or.inl h
        · exact Or.inr (Or.inl (by simp [splitFirst, hd, h]))
        · exact Or.inr (Or.inr ⟨rest, by simp [splitFirst, hd, hr], hcr⟩)

theorem mem_stripV (cs : List Char) : ∀ c ∈ cs, c = 'v' ∨ c ∈ stripV cs := by
  intro c hc
  unfold stripV
  split
  · next rest =>
    rcases List.mem_cons.1 hc with h | h
    · exact Or.inl h
    · exact Or.inr h
  · exact Or.inr hc

theorem isSpace_digit (c : Char) (h : 48 ≤ c.toNat ∧ c.toNat ≤ 57) : isSpace c = false := by
  unfold isSpace
  simp only [List.mem_cons, List.mem_singleton, List.not_mem_nil, or_false, Bool.or_eq_false_iff,
    decide_eq_false_iff_not, Bool.and_eq_false_imp, decide_eq_true_eq, not_le]
  omega

theorem isSpace_printable (c : Char) (h : 33 ≤ c.toNat ∧ c.toNat ≤ 126) : isSpace c = false := by
  unfold isSpace
  simp only [List.mem_cons, List.mem_singleton, List.not_mem_nil, or_false, Bool.or_eq_false_iff,
    decide_eq_false_iff_not, Bool.and_eq_false_imp, decide_eq_true_eq, not_le]
  omega

theorem isSpace_digitChar (c : Char) (h : isDigitChar c = true) : isSpace c = false := by
  apply isSpace_digit
  simpa [isDigitChar] using h

theorem isSpace_identChar (c : Char) (h : isIdentChar c = true) : isSpace c = false := by
  unfold isIdentChar isDigitChar at h
  simp only [Bool.or_eq_true, decide_eq_true_eq] at h
  rcases h with ((h | h) | h) | h
  · exact isSpace_printable c (by omega)
  · exact isSpace_printable c (by omega)
  · exact isSpace_printable c (by omega)
  · rw [h]; decide

theorem isSpace_segments (cs : List Char) (h : (splitChars '.' cs).all isSegment = true) :
    ∀ c ∈ cs, isSpace c = false := by
  intro c hc
  rcases mem_splitChars '.' cs c hc with rfl | ⟨piece, hp, hcp⟩
  · decide
  · have hseg := List.all_eq_true.1 h piece hp
    unfold isSegment at hseg
    simp only [Bool.and_eq_true] at hseg
    exact isSpace_digitChar c (List.all_eq_true.1 hseg.2 c hcp)

theorem isSpace_identifiers (cs : List Char) (h : isIdentifiers cs = true) :
    ∀ c ∈ cs, isSpace c = false := by
  intro c hc
  rcases mem_splitChars '.' cs c hc with rfl | ⟨piece, hp, hcp⟩
  · decide
  · have hid := List.all_eq_true.1 h piece hp
    simp only [Bool.and_eq_true] at hid
    exact isSpace_identChar c (List.all_eq_true.1 hid.2 c hcp)

theorem NewVersion_version (t : String) (v : Version) (h : NewVersion t = .version v) :
    v.original = t ∧
    (splitChars '.' (splitFirst '-' (splitFirst '+' (stripV t.data)).1).1).all isSegment = true ∧
    (splitFirst '-' (splitFirst '+' (stripV t.data)).1).2.all isIdentifiers = true ∧
    (splitFirst '+' (stripV t.data)).2.all isIdentifiers = true := by
  unfold NewVersion at h
  simp only at h
  split at h
  · next hc =>
    split at h
    · simp at h
    · simp only [Parsed.version.injEq] at h
      rw [← h]
      exact ⟨rfl, hc.2.1, hc.2.2.1, hc.2.2.2⟩
  · simp at h

theorem NewVersion_original (t : String) (v : Version) (h : NewVersion t = .version v) :
    v.original = t :=
  (NewVersion_version t v h).1

theorem NewVersion_trim (t : String) (v : Version) (h : NewVersion t = .version v) :
    trimSpace t = t := by
  obtain ⟨_, hseg, hpre, hmeta⟩ := NewVersion_version t v h
  apply trimSpace_of_no_space
  intro c hc
  rcases mem_stripV t.data c hc with rfl | hc
  · decide
  · rcases mem_splitFirst '+' _ c hc with rfl | hc | ⟨rest, hr, hcr⟩
    · decide
    · rcases mem_splitFirst '-' _ c hc with rfl | hc | ⟨rest, hr, hcr⟩
      · decide
      · exact isSpace_segments _ hseg c hc
      · rw [hr] at hpre
        exact isSpace_identifiers rest hpre c hcr
    · rw [hr] at hmeta
      exact isSpace_identifiers rest hmeta c hcr

theorem not_lessThan_precedence (v o : Version) (h : v.LessThan o = false) :
    o.major ≤ v.major ∧ (o.major = v.major → o.minor ≤ v.minor) ∧
    (o.major = v.major → o.minor = v.minor → o.patch ≤ v.patch) ∧
    (o.major = v.major → o.minor = v.minor → o.patch = v.patch →
      v.pre = "" ∨ (o.pre ≠ "" ∧ 0 ≤ comparePrerelease v.pre o.pre)) := by
  have h0 : 0 ≤ v.Compare o := by
    simpa [Version.LessThan] using h
  unfold Version.Compare at h0
  by_cases h1 : v.major = o.major
  · by_cases h2 : v.minor = o.minor
    · by_cases h3 : v.patch = o.patch
      · refine ⟨by omega, fun _ => by omega, fun _ _ => by omega, fun _ _ _ => ?_⟩
        by_cases hv : v.pre = ""
        · exact Or.inl hv
        · right
          by_cases ho : o.pre = ""
          · simp [h1, h2, h3, hv, ho] at h0
          · exact ⟨ho, by simpa [h1, h2, h3, hv, ho] using h0⟩
      · have : ¬ v.patch < o.patch := by
          intro hlt
          simp [h1, h2, h3, hlt] at h0
        exact ⟨by omega, fun _ => by omega, fun _ _ => by omega, fun _ _ e => absurd e.symm h3⟩
    · have : ¬ v.minor < o.minor := by
        intro hlt
        simp [h1, h2, hlt] at h0
      exact ⟨by omega, fun _ => by omega, fun _ e => absurd e.symm h2,
        fun _ e => absurd e.symm h2⟩
  · have : ¬ v.major < o.major := by
      intro hlt
      simp [h1, hlt] at h0
    exact ⟨by omega, fun e => absurd e.symm h1, fun e => absurd e.symm h1,
      fun e => absurd e.symm h1⟩

/-! ## The version claims -/

/-- C6, the claim at the listing `v1.0.0`, `99999999999999999999`: the first tag parses
as a version; the second matches the pattern of a version, but its number does not
fit in an `int64`, so the parser fails with an error that is not `ErrInvalidSemVer`,
and `getLatestVersion` returns that error instead of `v1.0.0`. -/
theorem C6_counterexample :
    NewVersion "v1.0.0" = .version ⟨1, 0, 0, "", "", "v1.0.0"⟩ ∧
    (∀ v, NewVersion "99999999999999999999" ≠ .version v) ∧
    tagsOf "v1.0.0\n99999999999999999999\n" = ["v1.0.0", "99999999999999999999"] ∧
    getLatestVersion (semverLibrary insertionSortVersions)
      (gitWithTags "v1.0.0\n99999999999999999999\n" "4f2a9c1")
      "/cache/src" "github.com/pkg/errors" =
      .err (.library ("Error parsing version segment: strconv.ParseInt: parsing " ++
        "\"99999999999999999999\": value out of range")) := by
  refine ⟨by decide, ?_, by decide, by decide⟩
  intro v h
  have : NewVersion "99999999999999999999" =
      .failed ("Error parsing version segment: strconv.ParseInt: parsing " ++
        "\"99999999999999999999\": value out of range") := by decide
  rw [this] at h
  exact absurd h (by simp)

/-- C6 (amended): when the tag listing has been obtained, at least one tag parses as
a version and no tag makes the parser fail with an error other than
`ErrInvalidSemVer`, `getLatestVersion` returns the literal text of a tag whose
version is greater than or equal to that of every other parseable tag by
semantic-version precedence: its major number is not lower; with equal major
numbers its minor number is not lower; with equal major and minor numbers its patch
number is not lower; and with the three numbers equal it either has no pre-release,
or both have one and its pre-release is not lower.  The result is the same for
every listing with the same parseable tags in the same order: the tags answered
with `ErrInvalidSemVer` have no influence.  The one assumption is that `sort.Sort`
leaves the collection of this listing sorted: a rearrangement of it in which no
version is lower than one before it. -/
theorem C6_latest_is_maximal_tag (sort : List Version → List Version) (g : Git)
    (libRoot pkg bytes : String)
    (hchdir : g.chdir = none) (hrepo : g.newGitRepo = none) (hfetch : g.fetchTags = none)
    (htags : g.tags = .ok bytes)
    (hSort :
      (sort ((tagsOf bytes).filterMap (versionOf (semverLibrary sort)))).Perm
        ((tagsOf bytes).filterMap (versionOf (semverLibrary sort))) ∧
      (sort ((tagsOf bytes).filterMap (versionOf (semverLibrary sort)))).Pairwise
        (fun a b => b.LessThan a = false))
    (hsome : ∃ t ∈ tagsOf bytes, ∃ v, NewVersion t = .version v)
    (hnofail : ∀ t ∈ tagsOf bytes, ∀ msg, NewVersion t ≠ .failed msg) :
    (∃ t ∈ tagsOf bytes, ∃ v, NewVersion t = .version v ∧
      getLatestVersion (semverLibrary sort) g libRoot pkg = .ok t ∧
      ∀ t' ∈ tagsOf bytes, t' ≠ t → ∀ v', NewVersion t' = .version v' →
        v.LessThan v' = false ∧
        v'.major ≤ v.major ∧
        (v'.major = v.major → v'.minor ≤ v.minor) ∧
        (v'.major = v.major → v'.minor = v.minor → v'.patch ≤ v.patch) ∧
        (v'.major = v.major → v'.minor = v.minor → v'.patch = v.patch →
          v.pre = "" ∨ (v'.pre ≠ "" ∧ 0 ≤ comparePrerelease v.pre v'.pre))) ∧
    (∀ (g' : Git) (bytes' : String), g'.chdir = none → g'.newGitRepo = none →
      g'.fetchTags = none → g'.tags = .ok bytes' →
      (∀ t ∈ tagsOf bytes', ∀ msg, NewVersion t ≠ .failed msg) →
      (tagsOf bytes').filterMap (versionOf (semverLibrary sort)) =
        (tagsOf bytes).filterMap (versionOf (semverLibrary sort)) →
      getLatestVersion (semverLibrary sort) g' libRoot pkg =
        getLatestVersion (semverLibrary sort) g libRoot pkg) := by
  have hne : (tagsOf bytes).filterMap (versionOf (semverLibrary sort)) ≠ [] := by
    obtain ⟨t, ht, v, hv⟩ := hsome
    intro h
    have := (mem_filterMap_versionOf (semverLibrary sort) (tagsOf bytes) v).2 ⟨t, ht, hv⟩
    rw [h] at this
    simp at this
  have hget := getLatestVersion_of_tags (semverLibrary sort) g libRoot pkg bytes
    hchdir hrepo hfetch htags
  have hlatest := latestOfTags_of_versions (semverLibrary sort) g.current bytes hnofail hne
  obtain ⟨m, hm, hmem, hmax⟩ := last_of_sorted Version.LessThan sort _ hSort hne
  obtain ⟨t, ht, htv⟩ := (mem_filterMap_versionOf (semverLibrary sort) (tagsOf bytes) m).1 hmem
  have htv' : NewVersion t = .version m := htv
  have hresult : getLatestVersion (semverLibrary sort) g libRoot pkg = .ok t := by
    rw [hget, hlatest]
    have hm' : ((semverLibrary sort).SortCollection
        ((tagsOf bytes).filterMap (versionOf (semverLibrary sort))))[
        ((semverLibrary sort).SortCollection
          ((tagsOf bytes).filterMap (versionOf (semverLibrary sort)))).length - 1]? =
        some m := hm
    rw [hm']
    show Result.ok (trimSpace m.original) = Result.ok t
    rw [NewVersion_original t m htv', NewVersion_trim t m htv']
  constructor
  · refine ⟨t, ht, m, htv', hresult, ?_⟩
    intro t' ht' hne' v' hv'
    have hless : m.LessThan v' = false := by
      apply hmax v'
        ((mem_filterMap_versionOf (semverLibrary sort) (tagsOf bytes) v').2 ⟨t', ht', hv'⟩)
      intro heq
      apply hne'
      rw [← NewVersion_original t' v' hv', heq, NewVersion_original t m htv']
    exact ⟨hless, not_lessThan_precedence m v' hless⟩
  · intro g' bytes' h1 h2 h3 h4 hnofail' heq
    rw [getLatestVersion_of_tags (semverLibrary sort) g' libRoot pkg bytes' h1 h2 h3 h4, hget,
      hlatest,
      latestOfTags_of_versions (semverLibrary sort) g'.current bytes' hnofail'
        (by rw [heq]; exact hne),
      heq]

/-- C6 (amended) at the listing of the spec, `v1.0.0`, `v1.2.0`, `v1.1.0` and
`not-a-version`: the result is `v1.2.0`, a tag of the listing that parses as a
version which is not lower than that of any other parseable tag.  At a listing with
pre-releases, `v1.9.0`, `v2.0.0-rc1`, `v2.0.0-beta` and `foo`, the result is
`v2.0.0-rc1`. -/
theorem C6_latest_is_maximal_tag_witness :
    getLatestVersion (semverLibrary insertionSortVersions)
      (gitWithTags "v1.0.0\nv1.2.0\nv1.1.0\nnot-a-version\n" "4f2a9c1")
      "/cache/src" "github.com/pkg/errors" = .ok "v1.2.0" ∧
    getLatestVersion (semverLibrary insertionSortVersions)
      (gitWithTags "v1.9.0\nv2.0.0-rc1\nv2.0.0-beta\nfoo\n" "4f2a9c1")
      "/cache/src" "github.com/pkg/errors" = .ok "v2.0.0-rc1" ∧
    ∃ t ∈ tagsOf "v1.0.0\nv1.2.0\nv1.1.0\nnot-a-version\n", ∃ v,
      NewVersion t = .version v ∧
      getLatestVersion (semverLibrary insertionSortVersions)
        (gitWithTags "v1.0.0\nv1.2.0\nv1.1.0\nnot-a-version\n" "4f2a9c1")
        "/cache/src" "github.com/pkg/errors" = .ok t ∧
      ∀ t' ∈ tagsOf "v1.0.0\nv1.2.0\nv1.1.0\nnot-a-version\n", t' ≠ t →
        ∀ v', NewVersion t' = .version v' →
          v.LessThan v' = false ∧
          v'.major ≤ v.major ∧
          (v'.major = v.major → v'.minor ≤ v.minor) ∧
          (v'.major = v.major → v'.minor = v.minor → v'.patch ≤ v.patch) ∧
          (v'.major = v.major → v'.minor = v.minor → v'.patch = v.patch →
            v.pre = "" ∨ (v'.pre ≠ "" ∧ 0 ≤ comparePrerelease v.pre v'.pre)) :=
  ⟨by decide, by decide,
    (C6_latest_is_maximal_tag insertionSortVersions
      (gitWithTags "v1.0.0\nv1.2.0\nv1.1.0\nnot-a-version\n" "4f2a9c1")
      "/cache/src" "github.com/pkg/errors" "v1.0.0\nv1.2.0\nv1.1.0\nnot-a-version\n"
      rfl rfl rfl rfl (by decide)
      ⟨"v1.0.0", by decide, ⟨1, 0, 0, "", "", "v1.0.0"⟩, by decide⟩
      (not_failed_of_isFailed (semverLibrary insertionSortVersions) _ (by decide))).1⟩

/-- C7, the claim at the listing `99999999999999999999`: no tag parses as a version,
yet `getLatestVersion` returns the parser's error for the tag and not the
checked-out revision. -/
theorem C7_counterexample :
    tagsOf "99999999999999999999\n" = ["99999999999999999999"] ∧
    (∀ t ∈ tagsOf "99999999999999999999\n", ∀ v, NewVersion t ≠ .version v) ∧
    (gitWithTags "99999999999999999999\n" "4f2a9c1").current = .ok "4f2a9c1" ∧
    getLatestVersion (semverLibrary insertionSortVersions)
      (gitWithTags "99999999999999999999\n" "4f2a9c1")
      "/cache/src" "github.com/pkg/errors" =
      .err (.library ("Error parsing version segment: strconv.ParseInt: parsing " ++
        "\"99999999999999999999\": value out of range")) := by
  refine ⟨by decide, ?_, rfl, by decide⟩
  intro t ht v h
  have ht' : t = "99999999999999999999" := by
    have : tagsOf "99999999999999999999\n" = ["99999999999999999999"] := by decide
    rw [this] at ht
    simpa using ht
  subst ht'
  have : NewVersion "99999999999999999999" =
      .failed ("Error parsing version segment: strconv.ParseInt: parsing " ++
        "\"99999999999999999999\": value out of range") := by decide
  rw [this] at h
  exact absurd h (by simp)

/-- C7 (amended): when the tag listing has been obtained (empty output included) and
every tag is answered with `ErrInvalidSemVer`, `getLatestVersion` returns what
`repo.Current()` returns, the checked-out revision; and when no tag parses as a
version, it returns either that or the error of the first tag on which the parser
failed with another error. -/
theorem C7_no_version_falls_back {V : Type} (sv : Semver V) (g : Git)
    (libRoot pkg bytes : String)
    (hchdir : g.chdir = none) (hrepo : g.newGitRepo = none) (hfetch : g.fetchTags = none)
    (htags : g.tags = .ok bytes) :
    ((∀ t ∈ tagsOf bytes, sv.NewVersion t = .invalidSemVer) →
      getLatestVersion sv g libRoot pkg = g.current) ∧
    (∀ pre t post msg, tagsOf bytes = pre ++ t :: post →
      (∀ u ∈ pre, ∀ m, sv.NewVersion u ≠ .failed m) → sv.NewVersion t = .failed msg →
      getLatestVersion sv g libRoot pkg = .err (.library msg)) ∧
    ((∀ t ∈ tagsOf bytes, ∀ v, sv.NewVersion t ≠ .version v) →
      getLatestVersion sv g libRoot pkg = g.current ∨
        ∃ t ∈ tagsOf bytes, ∃ msg, sv.NewVersion t = .failed msg ∧
          getLatestVersion sv g libRoot pkg = .err (.library msg)) := by
  have hget := getLatestVersion_of_tags sv g libRoot pkg bytes hchdir hrepo hfetch htags
  have hinvalid : (∀ t ∈ tagsOf bytes, ∀ v, sv.NewVersion t ≠ .version v) →
      (∀ t ∈ tagsOf bytes, ∀ msg, sv.NewVersion t ≠ .failed msg) →
      getLatestVersion sv g libRoot pkg = g.current := by
    intro hnov hnofail
    have hnil : (tagsOf bytes).filterMap (versionOf sv) = [] := by
      rw [List.filterMap_eq_nil_iff]
      intro t ht
      unfold versionOf
      cases hp : sv.NewVersion t with
      | version v => exact absurd hp (hnov t ht v)
      | invalidSemVer => rfl
      | failed m => rfl
    rw [hget]
    unfold latestOfTags
    simp only [collectVersions_ok sv _ [] hnofail, hnil, List.append_nil, List.length_nil,
      if_true, ite_self]
  have hfail : ∀ pre t post msg, tagsOf bytes = pre ++ t :: post →
      (∀ u ∈ pre, ∀ m, sv.NewVersion u ≠ .failed m) → sv.NewVersion t = .failed msg →
      getLatestVersion sv g libRoot pkg = .err (.library msg) := by
    intro pre t post msg hsplit hpre ht
    rw [hget]
    unfold latestOfTags
    have hlen : (tagsOf bytes).length ≠ 0 := by rw [hsplit]; simp
    simp only [hlen, if_false]
    rw [hsplit, collectVersions_failed sv pre post t msg [] hpre ht]
  refine ⟨?_, hfail, ?_⟩
  · intro hall
    exact hinvalid (fun t ht v h => by rw [hall t ht] at h; simp at h)
      (fun t ht m h => by rw [hall t ht] at h; simp at h)
  · intro hnov
    by_cases hex : ∃ t ∈ tagsOf bytes, ∃ msg, sv.NewVersion t = .failed msg
    · right
      obtain ⟨pre, t, post, msg, hsplit, hpre, ht⟩ := exists_first_failed sv _ hex
      exact ⟨t, by rw [hsplit]; simp, msg, ht, hfail pre t post msg hsplit hpre ht⟩
    · left
      apply hinvalid hnov
      intro t ht m h
      exact hex ⟨t, ht, m, h⟩

/-- C7 (amended) at an empty listing and at a listing without version tags: both
fall back to the checked-out revision. -/
theorem C7_no_version_falls_back_witness :
    getLatestVersion (semverLibrary insertionSortVersions) (gitWithTags "" "4f2a9c1")
      "/cache/src" "github.com/pkg/errors" = .ok "4f2a9c1" ∧
    getLatestVersion (semverLibrary insertionSortVersions)
      (gitWithTags "nightly\nnot-a-version\n" "4f2a9c1")
      "/cache/src" "github.com/pkg/errors" = .ok "4f2a9c1" :=
  ⟨(C7_no_version_falls_back (semverLibrary insertionSortVersions) (gitWithTags "" "4f2a9c1")
      "/cache/src" "github.com/pkg/errors" "" rfl rfl rfl rfl).1 (by decide),
    (C7_no_version_falls_back (semverLibrary insertionSortVersions)
      (gitWithTags "nightly\nnot-a-version\n" "4f2a9c1")
      "/cache/src" "github.com/pkg/errors" "nightly\nnot-a-version\n" rfl rfl rfl rfl).1
      (by decide)⟩

/-! ## Lemmas on paths -/

theorem lastIndexChars_of_not_mem (sep : Char) (l : List Char) (h : sep ∉ l) :
    lastIndexChars sep l = none := by
  induction l with
  | nil => rfl
  | cons c cs ih =>
    simp only [List.mem_cons, not_or] at h
    have hc : ¬ c = sep := fun e => h.1 e.symm
    simp [lastIndexChars, ih h.2, hc]

theorem lastIndexChars_append (sep : Char) (a b : List Char) (h : sep ∉ b) :
    lastIndexChars sep (a ++ sep :: b) = some a.length := by
  induction a with
  | nil => simp [lastIndexChars, lastIndexChars_of_not_mem sep b h]
  | cons c cs ih => simp [lastIndexChars, ih]

theorem exists_last_split (sep : Char) (l : List Char) (h : sep ∈ l) :
    ∃ a b, l = a ++ sep :: b ∧ sep ∉ b := by
  induction l with
  | nil => simp at h
  | cons c cs ih =>
    by_cases hcs : sep ∈ cs
    · obtain ⟨a, b, hab, hb⟩ := ih hcs
      exact ⟨c :: a, b, by rw [hab]; rfl, hb⟩
    · have hc : sep = c := by
        rcases List.mem_cons.1 h with h' | h'
        · exact h'
        · exact absurd h' hcs
      exact ⟨[], cs, by rw [hc]; rfl, hcs⟩

theorem split_at_slash_iff (a b d : List Char) (hb : '/' ∉ b) :
    (∃ rest, a ++ '/' :: b = d ++ '/' :: rest) ↔ (d = a ∨ ∃ r, a = d ++ '/' :: r) := by
  constructor
  · rintro ⟨rest, h⟩
    rcases List.append_eq_append_iff.1 h with ⟨a', hd, hrest⟩ | ⟨c', ha, hrest⟩
    · cases a' with
      | nil => left; simpa using hd
      | cons x xs =>
        simp only [List.cons_append, List.cons.injEq] at hrest
        exact absurd (by rw [hrest.2]; simp) hb
    · cases c' with
      | nil => left; simpa using ha.symm
      | cons x xs =>
        simp only [List.cons_append, List.cons.injEq] at hrest
        right
        exact ⟨xs, by rw [ha, hrest.1]⟩
  · rintro (rfl | ⟨r, rfl⟩)
    · exact ⟨b, rfl⟩
    · exact ⟨r ++ '/' :: b, by simp⟩

theorem utf8ByteSize_go_pos (c : Char) (cs : List Char) :
    0 < String.utf8ByteSize.go (c :: cs) := by
  have := Char.utf8Size_pos c
  simp only [String.utf8ByteSize.go]
  omega

theorem utf8ByteSize_pos_iff (s : String) : s.utf8ByteSize > 0 ↔ s.data ≠ [] := by
  cases s with
  | mk l =>
    cases l with
    | nil => simp [String.utf8ByteSize, String.utf8ByteSize.go]
    | cons c cs =>
      simp only [String.utf8ByteSize, ne_eq, reduceCtorEq, not_false_eq_true, iff_true]
      exact utf8ByteSize_go_pos c cs

theorem parentOf_of_no_slash (p : String) (h : '/' ∉ p.data) : parentOf p = "" := by
  simp [parentOf, pathSplit, lastIndex, lastIndexChars_of_not_mem '/' p.data h]

theorem parentOf_of_split (a b : List Char) (hb : '/' ∉ b) :
    parentOf ⟨a ++ '/' :: b⟩ = ⟨a⟩ := by
  have htake : List.take (a.length + 1) (a ++ '/' :: b) = a ++ ['/'] := by
    rw [List.take_append_eq_append_take]
    simp
  have hnat : ((a.length : Int) + 1).toNat = a.length + 1 := by omega
  simp only [parentOf, pathSplit, lastIndex, lastIndexChars_append '/' a b hb, hnat, htake]
  simp [String.length]

theorem parentOf_length_lt (p : String) (h : p.data ≠ []) :
    (parentOf p).length < p.length := by
  by_cases hs : '/' ∈ p.data
  · obtain ⟨a, b, hab, hb⟩ := exists_last_split '/' p.data hs
    have hp : p = ⟨a ++ '/' :: b⟩ := String.ext hab
    rw [hp, parentOf_of_split a b hb]
    simp [String.length]
  · rw [parentOf_of_no_slash p hs]
    simp only [String.length]
    exact List.length_pos.2 h

theorem parentPackagesLoop_empty (fuel : Nat) : parentPackagesLoop 0 fuel "" = [] := by
  cases fuel with
  | zero => rfl
  | succ n => simp [parentPackagesLoop, String.utf8ByteSize, String.utf8ByteSize.go]

theorem parentPackagesLoop_fuel (f1 f2 : Nat) (p : String)
    (h1 : p.length < f1) (h2 : p.length < f2) :
    parentPackagesLoop 0 f1 p = parentPackagesLoop 0 f2 p := by
  induction f1 generalizing f2 p with
  | zero => omega
  | succ n ih =>
    cases f2 with
    | zero => omega
    | succ m =>
      by_cases hp : p.data = []
      · have : ¬ p.utf8ByteSize > 0 := fun h => (utf8ByteSize_pos_iff p).1 h hp
        simp [parentPackagesLoop, this]
      · have hpos : p.utf8ByteSize > 0 := (utf8ByteSize_pos_iff p).2 hp
        have hlt := parentOf_length_lt p hp
        simp only [parentPackagesLoop, hpos, if_true, List.cons.injEq, true_and]
        exact ih m (parentOf p) (by omega) (by omega)

theorem mem_parentPackagesLoop (fuel : Nat) (p d : String) (h : p.length < fuel) :
    d ∈ parentPackagesLoop 0 fuel p ↔
      d.data ≠ [] ∧ (d = p ∨ ∃ rest, p.data = d.data ++ '/' :: rest) := by
  induction fuel generalizing p with
  | zero => omega
  | succ n ih =>
    by_cases hp : p.data = []
    · have : ¬ p.utf8ByteSize > 0 := fun h => (utf8ByteSize_pos_iff p).1 h hp
      simp only [parentPackagesLoop, this, if_false, List.not_mem_nil, false_iff, not_and, not_or]
      intro hd
      refine ⟨fun e => hd (e ▸ hp), ?_⟩
      rintro ⟨rest, hr⟩
      rw [hp] at hr
      simp at hr
    · have hpos : p.utf8ByteSize > 0 := (utf8ByteSize_pos_iff p).2 hp
      simp only [parentPackagesLoop, hpos, if_true, List.mem_cons]
      by_cases hs : '/' ∈ p.data
      · obtain ⟨a, b, hab, hb⟩ := exists_last_split '/' p.data hs
        have hpe : p = ⟨a ++ '/' :: b⟩ := String.ext hab
        have hlen : (⟨a⟩ : String).length < n := by
          have : p.length = a.length + 1 + b.length := by
            simp [String.length, hab]; omega
          simp only [String.length]
          omega
        rw [hpe, parentOf_of_split a b hb, ih ⟨a⟩ hlen]
        have key := split_at_slash_iff a b d.data hb
        constructor
        · rintro (rfl | ⟨hd, h2⟩)
          · exact ⟨by simp, Or.inl rfl⟩
          · refine ⟨hd, Or.inr (key.2 ?_)⟩
            rcases h2 with h2 | h2
            · exact Or.inl (by rw [h2])
            · exact Or.inr h2
        · rintro ⟨hd, h2 | h2⟩
          · exact Or.inl h2
          · rcases key.1 h2 with h3 | h3
            · exact Or.inr ⟨hd, Or.inl (String.ext h3)⟩
            · exact Or.inr ⟨hd, Or.inr h3⟩
      · rw [parentOf_of_no_slash p hs, parentPackagesLoop_empty]
        simp only [List.not_mem_nil, or_false]
        constructor
        · rintro rfl
          exact ⟨hp, Or.inl rfl⟩
        · rintro ⟨_, h2 | ⟨rest, hr⟩⟩
          · exact h2
          · exact absurd (by rw [hr]; simp) hs

theorem mem_parentPackages (i d : String) :
    d ∈ parentPackages "" i ↔ d ≠ "" ∧ (d = i ∨ ∃ rest : String, i = d ++ "/" ++ rest) := by
  have h0 : ("" : String).utf8ByteSize = 0 := rfl
  unfold parentPackages
  rw [h0, mem_parentPackagesLoop _ i d (Nat.lt_succ_self _)]
  have hne : d.data ≠ [] ↔ d ≠ "" := by
    constructor
    · intro h e; exact h (by rw [e])
    · intro h e; exact h (String.ext e)
  rw [hne]
  constructor
  · rintro ⟨hd, h | ⟨rest, hr⟩⟩
    · exact ⟨hd, Or.inl h⟩
    · exact ⟨hd, Or.inr ⟨⟨rest⟩, String.ext (by simp [hr])⟩⟩
  · rintro ⟨hd, h | ⟨rest, hr⟩⟩
    · exact ⟨hd, Or.inl h⟩
    · exact ⟨hd, Or.inr ⟨rest.data, by rw [hr]; simp⟩⟩

/-! ## Lemmas on the walk function of `removeUnusedImports` -/

theorem length_data (t : String) : t.length = t.data.length := rfl

theorem data_join (t d : String) : (t ++ "/" ++ d).data = t.data ++ '/' :: d.data := by
  rw [String.data_append, String.data_append]
  show (t.data ++ ['/']) ++ d.data = _
  rw [List.append_assoc]
  rfl

theorem length_join (t d : String) :
    (t ++ "/" ++ d).length = t.data.length + 1 + d.data.length := by
  rw [length_data, data_join, List.length_append, List.length_cons]
  omega

theorem length_slash (t : String) : (t ++ "/").length = t.data.length + 1 := by
  rw [length_data, String.data_append]
  show (t.data ++ ['/']).length = _
  rw [List.length_append]
  rfl

theorem path_ne_targetDir (t d : String) : t ++ "/" ++ d ≠ t := by
  intro h
  have := congrArg String.length h
  rw [length_join, length_data] at this
  omega

theorem sliceFrom_targetDir (t d : String) :
    sliceFrom (t ++ "/" ++ d) (t ++ "/").length = some d := by
  have hle : t.data.length + 1 ≤ (t ++ "/" ++ d).length := by
    rw [length_join]; omega
  unfold sliceFrom
  rw [length_slash, if_pos hle, data_join]
  have : List.drop (t.data.length + 1) (t.data ++ '/' :: d.data) = d.data := by
    rw [List.drop_append_eq_append_drop]
    simp
  rw [this]

theorem slice_targetDir (t dir name : String) (hname : '/' ∉ name.data) :
    slice (t ++ "/" ++ dir ++ "/" ++ name) (t ++ "/").length
      (lastIndex (t ++ "/" ++ dir ++ "/" ++ name) '/') = some dir := by
  have hdata : (t ++ "/" ++ dir ++ "/" ++ name).data =
      (t.data ++ '/' :: dir.data) ++ '/' :: name.data := by
    rw [data_join (t ++ "/" ++ dir) name, data_join]
  have hlast : lastIndex (t ++ "/" ++ dir ++ "/" ++ name) '/' =
      ((t.data.length + 1 + dir.data.length : Nat) : Int) := by
    unfold lastIndex
    rw [hdata, lastIndexChars_append '/' _ _ hname, List.length_append, List.length_cons]
    simp only [Nat.cast_inj]
    omega
  have hplen : (t ++ "/" ++ dir ++ "/" ++ name).length =
      t.data.length + 1 + dir.data.length + 1 + name.data.length := by
    rw [length_data, hdata, List.length_append, List.length_append, List.length_cons,
      List.length_cons]
    omega
  unfold slice
  rw [hlast, length_slash, hplen]
  have hcond : ((t.data.length + 1 : Nat) : Int) ≤
        ((t.data.length + 1 + dir.data.length : Nat) : Int) ∧
      ((t.data.length + 1 + dir.data.length : Nat) : Int) ≤
        ((t.data.length + 1 + dir.data.length + 1 + name.data.length : Nat) : Int) := by
    constructor <;> omega
  rw [if_pos hcond, hdata, Int.toNat_ofNat]
  have h1 : List.take (t.data.length + 1 + dir.data.length)
      ((t.data ++ '/' :: dir.data) ++ '/' :: name.data) = t.data ++ '/' :: dir.data := by
    rw [List.take_append_eq_append_take]
    have hl : (t.data ++ '/' :: dir.data).length = t.data.length + 1 + dir.data.length := by
      rw [List.length_append, List.length_cons]; omega
    rw [← hl, List.take_length, Nat.sub_self, List.take_zero, List.append_nil]
  rw [h1]
  have h2 : List.drop (t.data.length + 1) (t.data ++ '/' :: dir.data) = dir.data := by
    rw [List.drop_append_eq_append_drop]
    simp
  rw [h2]

theorem endsWith_name (pre name suf : String) (hs : '/' ∉ suf.data) :
    endsWith (pre ++ "/" ++ name) suf = endsWith name suf := by
  have hdata : (pre ++ "/" ++ name).data = pre.data ++ '/' :: name.data := data_join pre name
  unfold endsWith
  rw [hdata]
  apply decide_eq_decide.2
  constructor
  · intro h
    have h1 : ('/' :: name.data) <:+ pre.data ++ '/' :: name.data := List.suffix_append _ _
    rcases List.suffix_or_suffix_of_suffix h h1 with h2 | h2
    · rcases List.suffix_cons_iff.1 h2 with h3 | h3
      · exact absurd (by rw [h3]; simp) hs
      · exact h3
    · exact absurd (h2.subset (List.mem_cons_self _ _)) hs
  · intro h
    exact h.trans ((List.suffix_cons _ _).trans (List.suffix_append _ _))

theorem walkFn_dir (filepathJoin : String → String → String) (I : List String) (t d : String)
    (removeErr : Option OsError) :
    removeUnusedImportsWalkFn filepathJoin I t [] (t ++ "/" ++ d) true none removeErr =
      if d ∉ I ∧ d ∉ importsParents I then
        .ok ⟨some (.removeAll (t ++ "/" ++ d)),
          match removeErr with
          | none => .skipDir
          | some .notExist => .skipDir
          | some e => .err e⟩
      else .ok ⟨none, .nil⟩ := by
  unfold removeUnusedImportsWalkFn
  simp only [if_neg (path_ne_targetDir t d), sliceFrom_targetDir]
  by_cases h1 : d ∈ I
  · simp [h1]
  · by_cases h2 : d ∈ importsParents I
    · simp [h1, h2]
    · simp only [h1, h2, decide_False, Bool.not_false, Bool.and_self, if_true, not_false_eq_true,
        and_self]
      rcases removeErr with _ | _ | _ <;> rfl

theorem walkFn_file (filepathJoin : String → String → String) (I : List String)
    (t dir name : String) (removeErr : Option OsError) (hname : '/' ∉ name.data) :
    removeUnusedImportsWalkFn filepathJoin I t [] (t ++ "/" ++ dir ++ "/" ++ name) false none
        removeErr =
      if endsWith name "_test.go" = true ∨ (endsWith name ".go" = true ∧ dir ∉ I) then
        .ok ⟨some (.remove (t ++ "/" ++ dir ++ "/" ++ name)),
          match removeErr with
          | none => .nil
          | some .notExist => .nil
          | some e => .err e⟩
      else .ok ⟨none, .nil⟩ := by
  have hne : t ++ "/" ++ dir ++ "/" ++ name ≠ t := by
    intro h
    have := congrArg String.length h
    rw [length_join (t ++ "/" ++ dir) name, length_data t, ← length_data (t ++ "/" ++ dir),
      length_join] at this
    omega
  have e1 := endsWith_name (t ++ "/" ++ dir) name "_test.go" (by decide)
  have e2 := endsWith_name (t ++ "/" ++ dir) name ".go" (by decide)
  unfold removeUnusedImportsWalkFn
  simp only [if_neg hne, slice_targetDir t dir name hname, e1, e2]
  by_cases h1 : endsWith name "_test.go" = true <;> by_cases h2 : endsWith name ".go" = true <;>
    by_cases h3 : dir ∈ I <;>
    simp [h1, h2, h3] <;> rcases removeErr with _ | _ | _ <;> rfl

theorem mem_importsParents (I : List String) (d : String) :
    d ∈ importsParents I ↔
      d ≠ "" ∧ ∃ i ∈ I, d = i ∨ ∃ rest : String, i = d ++ "/" ++ rest := by
  simp only [importsParents, List.mem_flatMap, mem_parentPackages]
  constructor
  · rintro ⟨i, hi, hd, h⟩
    exact ⟨hd, i, hi, h⟩
  · rintro ⟨hd, i, hi, h⟩
    exact ⟨i, hi, hd, h⟩

theorem walkFn_directory_rule (filepathJoin : String → String → String)
    (I : List String) (t d : String) (removeErr : Option OsError) (hd : d ≠ "") :
    (removes (removeUnusedImportsWalkFn filepathJoin I t [] (t ++ "/" ++ d) true none
        removeErr) = true ↔
      d ∉ I ∧ ¬ ∃ i ∈ I, ∃ rest : String, i = d ++ "/" ++ rest) ∧
    (removes (removeUnusedImportsWalkFn filepathJoin I t [] (t ++ "/" ++ d) true none
        removeErr) = true →
      ∃ ret, removeUnusedImportsWalkFn filepathJoin I t [] (t ++ "/" ++ d) true none
        removeErr = .ok ⟨some (.removeAll (t ++ "/" ++ d)), ret⟩) ∧
    (∀ i, d ∈ parentPackages "" i ↔ d = i ∨ ∃ rest : String, i = d ++ "/" ++ rest) := by
  have hpar : ∀ i, d ∈ parentPackages "" i ↔ d = i ∨ ∃ rest : String, i = d ++ "/" ++ rest :=
    fun i => by rw [mem_parentPackages]; simp [hd]
  have hmem : d ∈ importsParents I ↔ ∃ i ∈ I, d = i ∨ ∃ rest : String, i = d ++ "/" ++ rest := by
    rw [mem_importsParents]; simp [hd]
  refine ⟨?_, ?_, hpar⟩
  · rw [walkFn_dir]
    by_cases hc : d ∉ I ∧ d ∉ importsParents I
    · rw [if_pos hc]
      simp only [removes, Option.isSome_some, true_iff]
      refine ⟨hc.1, ?_⟩
      rintro ⟨i, hi, rest, hr⟩
      exact hc.2 (hmem.2 ⟨i, hi, Or.inr ⟨rest, hr⟩⟩)
    · rw [if_neg hc]
      simp only [removes, Option.isSome_none, Bool.false_eq_true, false_iff]
      rintro ⟨h1, h2⟩
      apply hc
      refine ⟨h1, fun hp => ?_⟩
      obtain ⟨i, hi, h | ⟨rest, hr⟩⟩ := hmem.1 hp
      · exact h1 (h ▸ hi)
      · exact h2 ⟨i, hi, rest, hr⟩
  · rw [walkFn_dir]
    by_cases hc : d ∉ I ∧ d ∉ importsParents I
    · rw [if_pos hc]
      intro _
      exact ⟨_, rfl⟩
    · rw [if_neg hc]
      simp [removes]

/-! ## The cleanup claims -/

/-- C8: the walk of `removeUnusedImports` with the target directory written `vendor/`
and the import set `a/b/c`.  `filepath.Walk` names the directory `a` by
`filepath.Join("vendor/", "a")`, which is `vendor/a`; the walk function cuts
`len(targetDir+"/")`, 8 characters, off this path of 8 characters and takes the
empty path for the package, which is neither a member of the import set nor among
`importsParents`, so it asks for `os.RemoveAll("vendor/a")`, although `a` is a proper
ancestor of the member `a/b/c`.  With the target directory written `vendor` the same
directory is kept, as are `a/b` and `a/b/c`, and the sibling `a/d` is removed; and
on every visited path of the form `t + "/" + d` the directory is removed if and only
if `d` is neither a member nor a proper ancestor of a member. -/
theorem C8_directory_rule_cuts_wrong_prefix :
    filepathJoinTwo "vendor/" "a" = "vendor/a" ∧
    ("vendor/" ++ "/").length = 8 ∧
    sliceFrom "vendor/a" ("vendor/" ++ "/").length = some "" ∧
    "" ∉ ["a/b/c"] ∧ "" ∉ importsParents ["a/b/c"] ∧
    "a" ∈ parentPackages "" "a/b/c" ∧
    removeUnusedImportsWalkFn filepathJoinTwo ["a/b/c"] "vendor/" []
      (filepathJoinTwo "vendor/" "a") true none none =
        .ok ⟨some (.removeAll "vendor/a"), .skipDir⟩ ∧
    removeUnusedImportsWalkFn filepathJoinTwo ["a/b/c"] "vendor" []
      (filepathJoinTwo "vendor" "a") true none none = .ok ⟨none, .nil⟩ ∧
    removeUnusedImportsWalkFn filepathJoinTwo ["a/b/c"] "vendor" []
      (filepathJoinTwo "vendor/a" "b") true none none = .ok ⟨none, .nil⟩ ∧
    removeUnusedImportsWalkFn filepathJoinTwo ["a/b/c"] "vendor" []
      (filepathJoinTwo "vendor/a/b" "c") true none none = .ok ⟨none, .nil⟩ ∧
    removeUnusedImportsWalkFn filepathJoinTwo ["a/b/c"] "vendor" []
      (filepathJoinTwo "vendor/a" "d") true none none =
        .ok ⟨some (.removeAll "vendor/a/d"), .skipDir⟩ ∧
    (∀ (filepathJoin : String → String → String) (I : List String) (t d : String)
      (removeErr : Option OsError), d ≠ "" →
      (removes (removeUnusedImportsWalkFn filepathJoin I t [] (t ++ "/" ++ d) true none
          removeErr) = true ↔
        d ∉ I ∧ ¬ ∃ i ∈ I, ∃ rest : String, i = d ++ "/" ++ rest) ∧
      (removes (removeUnusedImportsWalkFn filepathJoin I t [] (t ++ "/" ++ d) true none
          removeErr) = true →
        ∃ ret, removeUnusedImportsWalkFn filepathJoin I t [] (t ++ "/" ++ d) true none
          removeErr = .ok ⟨some (.removeAll (t ++ "/" ++ d)), ret⟩) ∧
      (∀ i, d ∈ parentPackages "" i ↔ d = i ∨ ∃ rest : String, i = d ++ "/" ++ rest)) :=
  ⟨by decide, by decide, by decide, by decide, by decide, by decide, by decide, by decide,
    by decide, by decide, by decide,
    fun filepathJoin I t d removeErr hd => walkFn_directory_rule filepathJoin I t d removeErr hd⟩

/-- C9: on a test file lying directly in the target directory the walk of
`removeUnusedImports` panics on the slice `path[len(targetDir+"/"):LastIndex(path, "/")]`
(bounds 7 and 6) before it looks at the suffix, so the file is not removed; on every
file inside a directory `dir` of the target directory the file is removed if and
only if its name ends in `_test.go`, or ends in `.go` while `dir` is neither
imported nor on the keep-list. -/
theorem C9_file_rule_panics_in_target_dir :
    removeUnusedImportsWalkFn joinClean (cleanupImports ["github.com/pkg/errors"] {})
      "vendor" [] "vendor/errors_test.go" false none none = .panic ∧
    removes (removeUnusedImportsWalkFn joinClean (cleanupImports ["github.com/pkg/errors"] {})
      "vendor" [] "vendor/errors_test.go" false none none) = false ∧
    endsWith "vendor/errors_test.go" "_test.go" = true ∧
    lastIndex "vendor/errors_test.go" '/' = 6 ∧ ("vendor" ++ "/").length = 7 ∧
    (∀ (filepathJoin : String → String → String) (imports : List String) (trashConf : Conf)
      (t dir name : String) (removeErr : Option OsError), '/' ∉ name.data →
      (removes (removeUnusedImportsWalkFn filepathJoin (cleanupImports imports trashConf) t []
          (t ++ "/" ++ dir ++ "/" ++ name) false none removeErr) = true ↔
        endsWith name "_test.go" = true ∨
          (endsWith name ".go" = true ∧ dir ∉ imports ∧ dir ∉ trashConf.Packages))) := by
  refine ⟨by decide, by decide, by decide, by decide, by decide, ?_⟩
  intro filepathJoin imports trashConf t dir name removeErr hname
  rw [walkFn_file filepathJoin _ t dir name removeErr hname]
  have hmem : dir ∉ cleanupImports imports trashConf ↔
      dir ∉ imports ∧ dir ∉ trashConf.Packages := by
    simp [cleanupImports]
  by_cases hc : endsWith name "_test.go" = true ∨
      (endsWith name ".go" = true ∧ dir ∉ cleanupImports imports trashConf)
  · rw [if_pos hc]
    simp only [removes, Option.isSome_some, true_iff]
    rcases hc with h | ⟨h1, h2⟩
    · exact Or.inl h
    · exact Or.inr ⟨h1, hmem.1 h2⟩
  · rw [if_neg hc]
    simp only [removes, Option.isSome_none, Bool.false_eq_true, false_iff]
    rintro (h | ⟨h1, h2⟩)
    · exact hc (Or.inl h)
    · exact hc (Or.inr ⟨h1, hmem.2 h2⟩)

/-- C10, the claim at the import set `a/b/c` and the file `vendor/a/b/x.go`: the
directory `a/b` is an ancestor of a member of the import set, the file is a `.go`
file that is not a test, and the walk removes it. -/
theorem C10_counterexample :
    "a/b" ∈ importsParents ["a/b/c"] ∧
    endsWith "x.go" ".go" = true ∧ endsWith "x.go" "_test.go" = false ∧
    removeUnusedImportsWalkFn joinClean ["a/b/c"] "vendor" [] "vendor/a/b/x.go" false none none =
      .ok ⟨some (.remove "vendor/a/b/x.go"), .nil⟩ := by
  refine ⟨by decide, by decide, by decide, by decide⟩

/-- C10 (amended): on every visited path of the form `t + "/" + dir + "/" + name`, the
path of the file `name` in the directory `dir` of the target directory `t` as
`filepath.Walk` names it for a target directory written like `vendor`, where `name`
is a `.go` file that is not a test: the file is kept when `dir` is a member of the set
`I` of imports, and removed when `dir` is not a member, also when `dir` is an
ancestor of a member; the directory `dir` itself, visited as `t + "/" + dir`, is kept
when it is an ancestor of a member.  Visited paths of another form are not covered. -/
theorem C10_file_kept_iff_directory_imported (filepathJoin : String → String → String)
    (I : List String) (t dir name : String) (removeErr : Option OsError)
    (hname : '/' ∉ name.data) (hgo : endsWith name ".go" = true)
    (htest : endsWith name "_test.go" = false) :
    (dir ∈ I →
      removeUnusedImportsWalkFn filepathJoin I t [] (t ++ "/" ++ dir ++ "/" ++ name) false none
        removeErr = .ok ⟨none, .nil⟩) ∧
    (dir ∉ I →
      removes (removeUnusedImportsWalkFn filepathJoin I t [] (t ++ "/" ++ dir ++ "/" ++ name)
        false none removeErr) = true ∧
      ∃ ret, removeUnusedImportsWalkFn filepathJoin I t [] (t ++ "/" ++ dir ++ "/" ++ name)
        false none removeErr = .ok ⟨some (.remove (t ++ "/" ++ dir ++ "/" ++ name)), ret⟩) ∧
    (dir ∈ importsParents I →
      removeUnusedImportsWalkFn filepathJoin I t [] (t ++ "/" ++ dir) true none removeErr =
        .ok ⟨none, .nil⟩) := by
  refine ⟨?_, ?_, ?_⟩
  · intro hdir
    rw [walkFn_file filepathJoin I t dir name removeErr hname]
    simp [hgo, htest, hdir]
  · intro hdir
    rw [walkFn_file filepathJoin I t dir name removeErr hname]
    have hc : endsWith name "_test.go" = true ∨ (endsWith name ".go" = true ∧ dir ∉ I) :=
      Or.inr ⟨hgo, hdir⟩
    rw [if_pos hc]
    exact ⟨rfl, _, rfl⟩
  · intro hdir
    rw [walkFn_dir]
    have hc : ¬ (dir ∉ I ∧ dir ∉ importsParents I) := fun h => h.2 hdir
    rw [if_neg hc]

/-- C10 (amended) at the import set `a/b/c`: `x.go` is kept in `a/b/c` and removed in
`a/b`, and the directory `a/b` is kept. -/
theorem C10_file_kept_iff_directory_imported_witness :
    removeUnusedImportsWalkFn joinClean ["a/b/c"] "vendor" []
      ("vendor" ++ "/" ++ "a/b/c" ++ "/" ++ "x.go") false none none = .ok ⟨none, .nil⟩ ∧
    removes (removeUnusedImportsWalkFn joinClean ["a/b/c"] "vendor" []
      ("vendor" ++ "/" ++ "a/b" ++ "/" ++ "x.go") false none none) = true ∧
    removeUnusedImportsWalkFn joinClean ["a/b/c"] "vendor" [] ("vendor" ++ "/" ++ "a/b") true
      none none = .ok ⟨none, .nil⟩ :=
  ⟨(C10_file_kept_iff_directory_imported joinClean ["a/b/c"] "vendor" "a/b/c" "x.go" none
      (by decide) (by decide) (by decide)).1 (by decide),
    ((C10_file_kept_iff_directory_imported joinClean ["a/b/c"] "vendor" "a/b" "x.go" none
      (by decide) (by decide) (by decide)).2.1 (by decide)).1,
    (C10_file_kept_iff_directory_imported joinClean ["a/b/c"] "vendor" "a/b" "x.go" none
      (by decide) (by decide) (by decide)).2.2 (by decide)⟩

/-! ## Lemmas on the import graph -/

theorem mem_merge (r ps : List String) (x : String) : x ∈ merge r ps ↔ x ∈ r ∨ x ∈ ps := by
  simp only [merge, List.mem_union_iff]
  exact Or.comm

theorem nodup_merge (r ps : List String) (h : r.Nodup) : (merge r ps).Nodup :=
  List.Nodup.union ps h

theorem mem_scanAll (scan : String → List String) (packages imports : List String) (x : String) :
    x ∈ scanAll scan imports packages ↔ x ∈ imports ∨ ∃ p ∈ packages, x ∈ scan p := by
  induction packages generalizing imports with
  | nil => simp [scanAll]
  | cons q rest ih =>
    have h := ih (merge imports (scan q))
    simp only [scanAll, List.foldl_cons] at h ⊢
    rw [h, mem_merge]
    constructor
    · rintro ((h1 | h1) | ⟨p, hp, hx⟩)
      · exact Or.inl h1
      · exact Or.inr ⟨q, List.mem_cons_self _ _, h1⟩
      · exact Or.inr ⟨p, List.mem_cons_of_mem _ hp, hx⟩
    · rintro (h1 | ⟨p, hp, hx⟩)
      · exact Or.inl (Or.inl h1)
      · rcases List.mem_cons.1 hp with rfl | hp
        · exact Or.inl (Or.inr hx)
        · exact Or.inr ⟨p, hp, hx⟩

theorem nodup_scanAll (scan : String → List String) (packages imports : List String)
    (h : imports.Nodup) : (scanAll scan imports packages).Nodup := by
  induction packages generalizing imports with
  | nil => simpa [scanAll] using h
  | cons q rest ih =>
    have := ih (merge imports (scan q)) (nodup_merge _ _ h)
    simpa [scanAll] using this

theorem countP_lt_countP (l : List String) (p q : String → Bool)
    (hpq : ∀ x ∈ l, p x = true → q x = true) (x : String) (hx : x ∈ l)
    (hq : q x = true) (hp : p x = false) : l.countP p < l.countP q := by
  induction l with
  | nil => simp at hx
  | cons y ys ih =>
    have hle : ys.countP p ≤ ys.countP q :=
      List.countP_mono_left (fun z hz => hpq z (List.mem_cons_of_mem _ hz))
    rcases List.mem_cons.1 hx with rfl | hx
    · rw [List.countP_cons_of_pos _ _ hq, List.countP_cons_of_neg _ _ (by simp [hp])]
      omega
    · have ih' := ih (fun z hz => hpq z (List.mem_cons_of_mem _ hz)) hx
      by_cases hy : p y = true
      · rw [List.countP_cons_of_pos _ _ hy,
          List.countP_cons_of_pos _ _ (hpq y (List.mem_cons_self _ _) hy)]
        omega
      · rw [List.countP_cons_of_neg _ _ hy]
        by_cases hqy : q y = true
        · rw [List.countP_cons_of_pos _ _ hqy]; omega
        · rw [List.countP_cons_of_neg _ _ hqy]; exact ih'

theorem collectLoop_mono (scan : String → List String) (fuel : Nat) :
    ∀ (imports packages seen scanned : List String) (r : List String × List String),
      collectLoop scan fuel imports packages seen scanned = some r →
      ∀ k, collectLoop scan (fuel + k) imports packages seen scanned = some r := by
  induction fuel with
  | zero => intro _ _ _ _ r h; simp [collectLoop] at h
  | succ n ih =>
    intro imports packages seen scanned r h k
    have hk : n + 1 + k = (n + k) + 1 := by omega
    rw [hk]
    by_cases hp : packages.length > 0
    · simp only [collectLoop, hp, if_true] at h ⊢
      exact ih _ _ _ _ r h k
    · simp only [collectLoop, hp, if_false] at h ⊢
      exact h

theorem collectLoop_scanned (scan : String → List String) (fuel : Nat) :
    ∀ (imports packages seen scanned : List String) (r : List String × List String),
      collectLoop scan fuel imports packages seen scanned = some r →
      (∀ p ∈ scanned, p ∈ r.2) ∧ (∀ p ∈ packages, p ∈ r.2) := by
  induction fuel with
  | zero => intro _ _ _ _ r h; simp [collectLoop] at h
  | succ n ih =>
    intro imports packages seen scanned r h
    by_cases hp : packages.length > 0
    · simp only [collectLoop, hp, if_true] at h
      have h1 := (ih _ _ _ _ r h).1
      exact ⟨fun p hq => h1 p (List.mem_append_left _ hq),
        fun p hq => h1 p (List.mem_append_right _ hq)⟩
    · have hnil : packages = [] := by
        cases packages with
        | nil => rfl
        | cons a b => simp at hp
      subst hnil
      simp only [collectLoop, hp, if_false, Option.some.injEq] at h
      rw [← h]
      exact ⟨fun p hq => hq, by simp⟩

theorem collectLoop_good (scan : String → List String) (Good : String → Prop) (fuel : Nat) :
    ∀ (imports packages seen scanned : List String) (r : List String × List String),
      collectLoop scan fuel imports packages seen scanned = some r →
      (∀ p ∈ r.2, Good p → ∀ x ∈ scan p, Good x) →
      (∀ p ∈ packages, Good p) → (∀ m ∈ imports, Good m) → ∀ m ∈ r.1, Good m := by
  induction fuel with
  | zero => intro _ _ _ _ r h; simp [collectLoop] at h
  | succ n ih =>
    intro imports packages seen scanned r h hscan hpk him
    by_cases hp : packages.length > 0
    · have hsub := (collectLoop_scanned scan (n + 1) imports packages seen scanned r h).2
      simp only [collectLoop, hp, if_true] at h
      have him' : ∀ m ∈ scanAll scan imports packages, Good m := by
        intro m hm
        rcases (mem_scanAll scan packages imports m).1 hm with h1 | ⟨q, hq, hmq⟩
        · exact him m h1
        · exact hscan q (hsub q hq) (hpk q hq) m hmq
      exact ih _ _ _ _ r h hscan (fun q hq => him' q (List.mem_filter.1 hq).1) him'
    · simp only [collectLoop, hp, if_false, Option.some.injEq] at h
      rw [← h]
      exact him

theorem collectLoop_terminates (scan : String → List String) (U : List String)
    (hU : ∀ p ∈ U, ∀ r ∈ scan p, r ∈ U) (fuel : Nat) :
    ∀ (imports packages seen scanned : List String),
      U.countP (fun u => decide (u ∉ seen)) < fuel →
      (∀ p ∈ packages, p ∈ U) → (∀ m ∈ imports, m ∈ U) →
      (∀ p ∈ packages, p ∉ seen) → packages.Nodup → imports.Nodup →
      (∀ m ∈ imports, m ∈ seen ∨ m ∈ packages) →
      (∀ s ∈ seen, ∀ r ∈ scan s, r ∈ imports) →
      scanned.Nodup → (∀ x, x ∈ scanned ↔ x ∈ seen) →
      ∃ result scanned', collectLoop scan fuel imports packages seen scanned =
          some (result, scanned') ∧
        scanned'.Nodup ∧ (∀ p ∈ packages, p ∈ scanned') ∧ (∀ s ∈ seen, s ∈ scanned') ∧
        (∀ m ∈ imports, m ∈ result) ∧ (∀ s ∈ scanned', ∀ r ∈ scan s, r ∈ result) ∧
        (∀ m ∈ result, m ∈ scanned') ∧ result.Nodup := by
  induction fuel with
  | zero => intro _ _ _ _ h; omega
  | succ n ih =>
    intro imports packages seen scanned hfuel hpU hiU hps hpnd hind hcover hseen hsnd hsc
    by_cases hp : packages.length > 0
    · simp only [collectLoop, hp, if_true]
      have hmemI : ∀ m, m ∈ scanAll scan imports packages ↔
          m ∈ imports ∨ ∃ q ∈ packages, m ∈ scan q := mem_scanAll scan packages imports
      obtain ⟨q0, hq0⟩ := List.exists_mem_of_length_pos hp
      have hcount : U.countP (fun u => decide (u ∉ merge seen packages)) < n := by
        have hlt := countP_lt_countP U (fun u => decide (u ∉ merge seen packages))
          (fun u => decide (u ∉ seen))
          (fun x _ hx => by
            simp only [decide_eq_true_eq] at hx ⊢
            exact fun h => hx ((mem_merge _ _ _).2 (Or.inl h)))
          q0 (hpU q0 hq0) (by simpa using hps q0 hq0)
          (by simpa using (mem_merge seen packages q0).2 (Or.inr hq0))
        omega
      have hiU' : ∀ m ∈ scanAll scan imports packages, m ∈ U := by
        intro m hm
        rcases (hmemI m).1 hm with h1 | ⟨q, hq, hmq⟩
        · exact hiU m h1
        · exact hU q (hpU q hq) m hmq
      obtain ⟨result, scanned', heq, h1, h2, h3, h4, h5, h6, h7⟩ :=
        ih (scanAll scan imports packages)
          ((scanAll scan imports packages).filter (fun i => decide (i ∉ merge seen packages)))
          (merge seen packages) (scanned ++ packages) hcount
          (fun q hq => hiU' q (List.mem_filter.1 hq).1) hiU'
          (fun q hq => by simpa using (List.mem_filter.1 hq).2)
          ((nodup_scanAll scan packages imports hind).filter _)
          (nodup_scanAll scan packages imports hind)
          (fun m hm => by
            by_cases hms : m ∈ merge seen packages
            · exact Or.inl hms
            · exact Or.inr (List.mem_filter.2 ⟨hm, by simpa using hms⟩))
          (fun s hs r hr => by
            rcases (mem_merge _ _ _).1 hs with h | h
            · exact (hmemI r).2 (Or.inl (hseen s h r hr))
            · exact (hmemI r).2 (Or.inr ⟨s, h, hr⟩))
          (List.Nodup.append hsnd hpnd (fun x hx hx' => hps x hx' ((hsc x).1 hx)))
          (fun x => by rw [List.mem_append, mem_merge, hsc x])
      refine ⟨result, scanned', heq, h1, ?_, ?_, ?_, h5, h6, h7⟩
      · exact fun q hq => h3 q ((mem_merge _ _ _).2 (Or.inr hq))
      · exact fun s hs => h3 s ((mem_merge _ _ _).2 (Or.inl hs))
      · exact fun m hm => h4 m ((hmemI m).2 (Or.inl hm))
    · have hnil : packages = [] := by
        cases packages with
        | nil => rfl
        | cons a b => simp at hp
      subst hnil
      refine ⟨imports, scanned, by simp [collectLoop], hsnd, by simp,
        fun s hs => (hsc s).2 hs, fun m hm => hm, ?_, ?_, hind⟩
      · exact fun s hs r hr => hseen s ((hsc s).1 hs) r hr
      · intro m hm
        rcases hcover m hm with h | h
        · exact (hsc m).2 h
        · simp at h

theorem collectLoop_superset (scan : String → List String) (fuel : Nat) :
    ∀ (imports packages seen scanned : List String) (r : List String × List String),
      collectLoop scan fuel imports packages seen scanned = some r →
      (∀ m ∈ imports, m ∈ r.1) ∧ (∀ p ∈ packages, ∀ x ∈ scan p, x ∈ r.1) := by
  induction fuel with
  | zero => intro _ _ _ _ r h; simp [collectLoop] at h
  | succ n ih =>
    intro imports packages seen scanned r h
    by_cases hp : packages.length > 0
    · simp only [collectLoop, hp, if_true] at h
      have h1 := (ih _ _ _ _ r h).1
      exact ⟨fun m hm => h1 m ((mem_scanAll scan packages imports m).2 (Or.inl hm)),
        fun q hq x hx => h1 x ((mem_scanAll scan packages imports x).2 (Or.inr ⟨q, hq, hx⟩))⟩
    · have hnil : packages = [] := by
        cases packages with
        | nil => rfl
        | cons a b => simp at hp
      subst hnil
      simp only [collectLoop, hp, if_false, Option.some.injEq] at h
      rw [← h]
      exact ⟨fun m hm => hm, by simp⟩

theorem collectLoop_scanned_listed (scan : String → List String)
    (hself : ∀ p, p ∈ scan p) (fuel : Nat) :
    ∀ (imports packages seen scanned : List String) (r : List String × List String),
      collectLoop scan fuel imports packages seen scanned = some r →
      ∀ p ∈ r.2, p ∈ scanned ∨ p ∈ r.1 := by
  induction fuel with
  | zero => intro _ _ _ _ r h; simp [collectLoop] at h
  | succ n ih =>
    intro imports packages seen scanned r h
    by_cases hp : packages.length > 0
    · simp only [collectLoop, hp, if_true] at h
      intro p hpr
      rcases ih _ _ _ _ r h p hpr with h1 | h1
      · rcases List.mem_append.1 h1 with h2 | h2
        · exact Or.inl h2
        · exact Or.inr ((collectLoop_superset scan n _ _ _ _ r h).1 p
            ((mem_scanAll scan packages imports p).2 (Or.inr ⟨p, h2, hself p⟩)))
      · exact Or.inr h1
    · simp only [collectLoop, hp, if_false, Option.some.injEq] at h
      rw [← h]
      exact fun p hpr => Or.inl hpr

theorem mem_listImports (src : Sources) (rootPackage libRoot pkg x : String) :
    x ∈ listImports src rootPackage libRoot pkg ↔
      x ∈ listImportsSch src rootPackage libRoot pkg ∨ x = pkg := by
  simp [listImports, mem_merge, MergeStrChans, OneStr]

theorem mem_listPackages (src : Sources) (rootPackage x : String) :
    x ∈ listPackages src rootPackage ↔
      ∃ path ∈ src.packageDirs,
        x = if path = "." then rootPackage else rootPackage ++ "/" ++ path := by
  simp only [listPackages, mem_merge, List.not_mem_nil, false_or, List.mem_map]
  constructor
  · rintro ⟨path, hp, rfl⟩; exact ⟨path, hp, rfl⟩
  · rintro ⟨path, hp, rfl⟩; exact ⟨path, hp, rfl⟩

theorem keepImport_some (src : Sources) (rootPackage pkg imp m : String)
    (h : keepImport src rootPackage pkg imp = some m) :
    containsChar ((stringsSplit imp '/').headD "") '.' = true ∧
      m ≠ rootPackage ∧ startsWith m (rootPackage ++ "/") = false ∧
      (m = imp ∨ m = src.cleanJoin pkg imp) := by
  unfold keepImport at h
  dsimp only at h
  by_cases hc : containsChar ((stringsSplit imp '/').headD "") '.' = true
  · rw [if_neg (by rw [hc]; decide)] at h
    by_cases hrel : (stringsSplit imp '/').headD "" = "." ∨ (stringsSplit imp '/').headD "" = ".."
    · simp only [if_pos hrel] at h
      by_cases hroot : src.cleanJoin pkg imp = rootPackage ∨
          startsWith (src.cleanJoin pkg imp) (rootPackage ++ "/") = true
      · rw [if_pos hroot] at h; exact absurd h (by simp)
      · rw [if_neg hroot, Option.some.injEq] at h
        rw [not_or] at hroot
        subst h
        exact ⟨hc, hroot.1, by simpa using hroot.2, Or.inr rfl⟩
    · simp only [if_neg hrel] at h
      by_cases hroot : imp = rootPackage ∨ startsWith imp (rootPackage ++ "/") = true
      · rw [if_pos hroot] at h; exact absurd h (by simp)
      · rw [if_neg hroot, Option.some.injEq] at h
        rw [not_or] at hroot
        subst h
        exact ⟨hc, hroot.1, by simpa using hroot.2, Or.inl rfl⟩
  · rw [Bool.not_eq_true] at hc
    rw [if_pos (by rw [hc]; rfl)] at h
    exact absurd h (by simp)

theorem mem_listImportsSch (src : Sources) (rootPackage libRoot pkg m : String)
    (h : m ∈ listImportsSch src rootPackage libRoot pkg) :
    (∃ imps, src.imports (pkgPathOf rootPackage libRoot pkg) = some imps ∧
      ∃ imp ∈ imps, keepImport src rootPackage pkg imp = some m) ∨
    (∃ imps incs, src.imports (pkgPathOf rootPackage libRoot pkg) = some imps ∧
      src.includes (pkgPathOf rootPackage libRoot pkg) = some incs ∧
      ∃ includePath ∈ incs, includePath ≠ "." ∧ m = src.cleanJoin pkg includePath) := by
  unfold listImportsSch at h
  dsimp only at h
  cases hi : src.imports (pkgPathOf rootPackage libRoot pkg) with
  | none => rw [hi] at h; simp at h
  | some imps =>
    rw [hi] at h
    have hgo : m ∈ imps.filterMap (keepImport src rootPackage pkg) →
        ∃ imp ∈ imps, keepImport src rootPackage pkg imp = some m := by
      intro hm
      obtain ⟨imp, himps, himp⟩ := List.mem_filterMap.1 hm
      exact ⟨imp, himps, himp⟩
    cases hc : src.includes (pkgPathOf rootPackage libRoot pkg) with
    | none =>
      rw [hc] at h
      exact Or.inl ⟨imps, rfl, hgo h⟩
    | some incs =>
      rw [hc] at h
      rcases List.mem_append.1 h with h1 | h1
      · exact Or.inl ⟨imps, rfl, hgo h1⟩
      · obtain ⟨inc, hinc, rfl⟩ := List.mem_map.1 h1
        exact Or.inr ⟨imps, incs, rfl, rfl, inc, (List.mem_filter.1 hinc).1,
          by simpa using (List.mem_filter.1 hinc).2, rfl⟩

/-! ## The import graph claims -/

/-- C11, the claim at `demoSources`: the import set `collectImports` returns for the
project `github.com/rdeusser/trash` holds the root package itself, its local package
`util` and the include directory `csrc`, all equal to or nested under the root
package. -/
theorem C11_counterexample :
    collectImports 10 demoSources "github.com/rdeusser/trash" "/cache/src" =
      some ["github.com/rdeusser/trash/util", "github.com/pkg/errors",
        "github.com/rdeusser/trash/csrc", "github.com/rdeusser/trash"] ∧
    startsWith "github.com/rdeusser/trash/util" ("github.com/rdeusser/trash" ++ "/") = true ∧
    startsWith "github.com/rdeusser/trash/csrc" ("github.com/rdeusser/trash" ++ "/") = true := by
  refine ⟨by decide, by decide, by decide⟩

/-- C11 (amended): every member of the import set `collectImports` returns is
(a) a local package, the root package for the directory `.` or `rootPackage/dir` for
another directory with a package clause; or (b) an import reference written in a
source file of a package that was scanned and kept by `listImports`: its written
first segment holds a `.`, and the path recorded (the reference itself or its join
with the importing package) is neither the root package nor nested under it; or
(c) an include directory, other than `.`, of a C preamble of a package that was
scanned, joined to that package.  Every scanned package is itself a member of the
set, as is every local package, since `listImports` lists the package it scans. -/
theorem C11_import_set_members (fuel : Nat) (src : Sources)
    (rootPackage libRoot : String) (imports : List String)
    (h : collectImports fuel src rootPackage libRoot = some imports) :
    ∃ scanned, collectImportsScanned fuel src rootPackage libRoot = some (imports, scanned) ∧
      (∀ m ∈ imports,
        ((m = rootPackage ∧ "." ∈ src.packageDirs) ∨
          ∃ path ∈ src.packageDirs, path ≠ "." ∧ m = rootPackage ++ "/" ++ path) ∨
        (∃ pkg ∈ scanned, ∃ imps,
          src.imports (pkgPathOf rootPackage libRoot pkg) = some imps ∧
          ∃ imp ∈ imps, keepImport src rootPackage pkg imp = some m ∧
            containsChar ((stringsSplit imp '/').headD "") '.' = true ∧
            m ≠ rootPackage ∧ startsWith m (rootPackage ++ "/") = false ∧
            (m = imp ∨ m = src.cleanJoin pkg imp)) ∨
        (∃ pkg ∈ scanned, ∃ imps incs,
          src.imports (pkgPathOf rootPackage libRoot pkg) = some imps ∧
          src.includes (pkgPathOf rootPackage libRoot pkg) = some incs ∧
          ∃ includePath ∈ incs, includePath ≠ "." ∧ m = src.cleanJoin pkg includePath)) ∧
      (∀ p ∈ scanned, p ∈ imports) ∧
      (∀ p ∈ listPackages src rootPackage, p ∈ imports) := by
  unfold collectImports at h
  cases hr : collectImportsScanned fuel src rootPackage libRoot with
  | none => rw [hr] at h; simp at h
  | some r =>
    rw [hr] at h
    simp only [Option.map_some', Option.some.injEq] at h
    subst h
    unfold collectImportsScanned at hr
    refine ⟨r.2, rfl, ?_, ?_, ?_⟩
    · have hgood := collectLoop_good (listImports src rootPackage libRoot)
        (fun m => m ∈ listPackages src rootPackage ∨
          ∃ pkg ∈ r.2, m ∈ listImportsSch src rootPackage libRoot pkg)
        fuel [] (listPackages src rootPackage) [] [] r hr
        (fun q hqs hq x hx => by
          rcases (mem_listImports src rootPackage libRoot q x).1 hx with h1 | h1
          · exact Or.inr ⟨q, hqs, h1⟩
          · rw [h1]; exact hq)
        (fun q hq => Or.inl hq) (by simp)
      intro m hm
      rcases hgood m hm with h1 | ⟨pkg, hpkg, h1⟩
      · left
        obtain ⟨path, hp, hx⟩ := (mem_listPackages src rootPackage m).1 h1
        by_cases hdot : path = "."
        · left
          rw [hx, if_pos hdot]
          exact ⟨rfl, hdot ▸ hp⟩
        · right; exact ⟨path, hp, hdot, by rw [hx, if_neg hdot]⟩
      · right
        rcases mem_listImportsSch src rootPackage libRoot pkg m h1 with
          ⟨imps, himps, imp, himp, hk⟩ | ⟨imps, incs, himps, hincs, inc, hinc, hne, he⟩
        · left
          exact ⟨pkg, hpkg, imps, himps, imp, himp, hk,
            keepImport_some src rootPackage pkg imp m hk⟩
        · right
          exact ⟨pkg, hpkg, imps, incs, himps, hincs, inc, hinc, hne, he⟩
    · intro p hp
      rcases collectLoop_scanned_listed (listImports src rootPackage libRoot)
          (fun q => (mem_listImports src rootPackage libRoot q q).2 (Or.inr rfl))
          fuel [] (listPackages src rootPackage) [] [] r hr p hp with h1 | h1
      · simp at h1
      · exact h1
    · intro q hq
      exact (collectLoop_superset (listImports src rootPackage libRoot) fuel []
        (listPackages src rootPackage) [] [] r hr).2 q hq q
        ((mem_listImports src rootPackage libRoot q q).2 (Or.inr rfl))

/-- C11 (amended) at `demoSources`: the four members of its import set; each of them
was scanned, and the root package, a local package, is among them. -/
theorem C11_import_set_members_witness :
    collectImports 10 demoSources "github.com/rdeusser/trash" "/cache/src" =
      some ["github.com/rdeusser/trash/util", "github.com/pkg/errors",
        "github.com/rdeusser/trash/csrc", "github.com/rdeusser/trash"] ∧
    "github.com/rdeusser/trash" ∈ listPackages demoSources "github.com/rdeusser/trash" ∧
    ∃ scanned,
      collectImportsScanned 10 demoSources "github.com/rdeusser/trash" "/cache/src" =
        some (["github.com/rdeusser/trash/util", "github.com/pkg/errors",
          "github.com/rdeusser/trash/csrc", "github.com/rdeusser/trash"], scanned) ∧
      (∀ p ∈ scanned, p ∈ ["github.com/rdeusser/trash/util", "github.com/pkg/errors",
        "github.com/rdeusser/trash/csrc", "github.com/rdeusser/trash"]) ∧
      "github.com/rdeusser/trash" ∈
        ["github.com/rdeusser/trash/util", "github.com/pkg/errors",
          "github.com/rdeusser/trash/csrc", "github.com/rdeusser/trash"] := by
  obtain ⟨scanned, h1, _, h3, h4⟩ :=
    C11_import_set_members 10 demoSources "github.com/rdeusser/trash" "/cache/src"
      ["github.com/rdeusser/trash/util", "github.com/pkg/errors",
        "github.com/rdeusser/trash/csrc", "github.com/rdeusser/trash"] (by decide)
  exact ⟨by decide, by decide, scanned, h1, h3, h4 "github.com/rdeusser/trash" (by decide)⟩

/-- C12: for an import graph that stays inside a finite list `U` of paths (the local
packages are in `U`, and whatever `listImports` lists for a path of `U` is in `U`), the
loop of `collectImports` returns after at most `len(U) + 1` turns, with the same
result for every larger bound; no package is scanned twice; every local package and
every member of the returned set is scanned; and the returned set holds every
reference extracted from a local package and from any of its own members. -/
theorem C12_collectImports_fixed_point (src : Sources) (rootPackage libRoot : String)
    (U : List String)
    (hlocal : ∀ p ∈ listPackages src rootPackage, p ∈ U)
    (hclosed : ∀ p ∈ U, ∀ r ∈ listImports src rootPackage libRoot p, r ∈ U) :
    ∃ imports scanned,
      (∀ fuel, U.length < fuel →
        collectImportsScanned fuel src rootPackage libRoot = some (imports, scanned) ∧
        collectImports fuel src rootPackage libRoot = some imports) ∧
      scanned.Nodup ∧
      (∀ p ∈ listPackages src rootPackage, p ∈ scanned ∧
        ∀ r ∈ listImportsSch src rootPackage libRoot p, r ∈ imports) ∧
      (∀ m ∈ imports, m ∈ scanned ∧
        ∀ r ∈ listImportsSch src rootPackage libRoot m, r ∈ imports) := by
  have hcount : U.countP (fun u => decide (u ∉ ([] : List String))) < U.length + 1 :=
    Nat.lt_succ_of_le (List.countP_le_length _)
  obtain ⟨result, scanned, heq, h1, h2, _, _, h5, h6, _⟩ :=
    collectLoop_terminates (listImports src rootPackage libRoot) U hclosed (U.length + 1)
      [] (listPackages src rootPackage) [] [] hcount hlocal (by simp) (by simp)
      (nodup_merge _ _ List.nodup_nil) List.nodup_nil (by simp) (by simp) List.nodup_nil
      (by simp)
  refine ⟨result, scanned, ?_, h1, ?_, ?_⟩
  · intro fuel hfuel
    have hk : fuel = (U.length + 1) + (fuel - (U.length + 1)) := by omega
    have := collectLoop_mono (listImports src rootPackage libRoot) (U.length + 1) _ _ _ _ _ heq
      (fuel - (U.length + 1))
    rw [← hk] at this
    exact ⟨this, by simp [collectImports, collectImportsScanned, this]⟩
  · intro q hq
    exact ⟨h2 q hq, fun r hr => h5 q (h2 q hq) r
      ((mem_listImports src rootPackage libRoot q r).2 (Or.inl hr))⟩
  · intro m hm
    exact ⟨h6 m hm, fun r hr => h5 m (h6 m hm) r
      ((mem_listImports src rootPackage libRoot m r).2 (Or.inl hr))⟩

/-- C12 at `demoSources`: its import graph stays inside four paths, so the loop
returns within five turns and scans no package twice. -/
theorem C12_collectImports_fixed_point_witness :
    ∃ imports scanned,
      collectImportsScanned 5 demoSources "github.com/rdeusser/trash" "/cache/src" =
        some (imports, scanned) ∧ scanned.Nodup := by
  obtain ⟨imports, scanned, h1, h2, _⟩ :=
    C12_collectImports_fixed_point demoSources "github.com/rdeusser/trash" "/cache/src"
      ["github.com/rdeusser/trash", "github.com/rdeusser/trash/util", "github.com/pkg/errors",
        "github.com/rdeusser/trash/csrc"] (by decide) (by decide)
  exact ⟨imports, scanned, (h1 5 (by decide)).1, h2⟩

/-! ## Lemmas on `remoteName` -/

theorem length_word32Bytes (w : Nat) : (word32Bytes w).length = 4 := rfl

theorem length_sha1Sum (msg : List Nat) : (sha1Sum msg).length = 20 := by
  simp [sha1Sum, length_word32Bytes]

theorem length_hexEncode (bytes : List Nat) : (hexEncode bytes).length = 2 * bytes.length := by
  induction bytes with
  | nil => rfl
  | cons b bs ih =>
    simp only [hexEncode, List.flatMap_cons, List.length_append, List.length_cons,
      List.length_nil] at ih ⊢
    omega

theorem hexDigit_mem (n : Nat) (h : n < 16) : hexDigits.getD n '0' ∈ hexDigits := by
  revert n
  decide

theorem mem_hexEncode (bytes : List Nat) : ∀ c ∈ hexEncode bytes, c ∈ hexDigits := by
  intro c hc
  simp only [hexEncode, List.mem_flatMap, List.mem_cons, List.mem_singleton, List.not_mem_nil,
    or_false] at hc
  obtain ⟨b, _, h | h⟩ := hc
  · rw [h]; exact hexDigit_mem _ (Nat.mod_lt _ (by decide))
  · rw [h]; exact hexDigit_mem _ (Nat.mod_lt _ (by decide))

/-! ## The `remoteName` claim -/

set_option maxRecDepth 100000 in
/-- C16: `remoteName("")` is "origin", and for a non-empty URL `remoteName` is the
first 7 characters of the lowercase hexadecimal encoding of the SHA-1 digest of the
URL: 7 characters out of `0123456789abcdef`, the same for equal URLs.  The digest is
that of FIPS 180-4: "abc" gives `a9993e364706816aba3e25717850c26c9cd0d89d`. -/
theorem C16_remoteName_is_sha1_alias :
    remoteName "" = "origin" ∧
    (∀ u : String, u ≠ "" →
      remoteName u = ⟨(hexEncode (sha1Sum (bytesOf u))).take 7⟩ ∧
      (remoteName u).length = 7 ∧
      ∀ c ∈ (remoteName u).data, c ∈ "0123456789abcdef".data) ∧
    (∀ u v : String, u = v → remoteName u = remoteName v) ∧
    hexEncode (sha1Sum (bytesOf "abc")) = "a9993e364706816aba3e25717850c26c9cd0d89d".data ∧
    remoteName "abc" = "a9993e3" := by
  refine ⟨by decide, ?_, fun u v h => by rw [h], by decide, by decide⟩
  intro u hu
  have hr : remoteName u = ⟨(hexEncode (sha1Sum (bytesOf u))).take 7⟩ := by
    simp [remoteName, hu]
  refine ⟨hr, ?_, ?_⟩
  · rw [hr]
    show ((hexEncode (sha1Sum (bytesOf u))).take 7).length = 7
    rw [List.length_take, length_hexEncode, length_sha1Sum]
    rfl
  · rw [hr]
    intro c hc
    exact mem_hexEncode _ c (List.mem_of_mem_take hc)

/-! ## The slice of the containing package -/

theorem slice_direct_file (t rel : String) (hrel : '/' ∉ rel.data) :
    slice (t ++ "/" ++ rel) (t ++ "/").length (lastIndex (t ++ "/" ++ rel) '/') = none := by
  have hlast : lastIndex (t ++ "/" ++ rel) '/' = (t.data.length : Int) := by
    unfold lastIndex
    rw [data_join, lastIndexChars_append '/' _ _ hrel]
  unfold slice
  rw [hlast, length_slash]
  have : ¬ (((t.data.length + 1 : Nat) : Int) ≤ (t.data.length : Int) ∧
      (t.data.length : Int) ≤ ((t ++ "/" ++ rel).length : Int)) := by
    intro h
    omega
  rw [if_neg this]

/-- C17: for a file lying directly in the target directory, `path = t + "/" + rel`
with no slash in `rel`, the slice `path[len(t+"/"):LastIndex(path, "/")]` has its
start `len(t) + 1` above its end `len(t)`: it is out of bounds, and the walk function
panics (so for `vendor/modules.txt`); for a file inside a directory `dir` of the
target directory the slice is in bounds and yields `dir`. -/
theorem C17_slice_out_of_bounds_in_target_dir :
    ("vendor" ++ "/").length = 7 ∧ lastIndex "vendor/modules.txt" '/' = 6 ∧
    slice "vendor/modules.txt" ("vendor" ++ "/").length (lastIndex "vendor/modules.txt" '/') =
      none ∧
    removeUnusedImportsWalkFn joinClean ["github.com/pkg/errors"] "vendor" []
      "vendor/modules.txt" false none none = .panic ∧
    (∀ t rel : String, '/' ∉ rel.data →
      lastIndex (t ++ "/" ++ rel) '/' = (t.length : Int) ∧
      slice (t ++ "/" ++ rel) (t ++ "/").length (lastIndex (t ++ "/" ++ rel) '/') = none ∧
      ∀ (filepathJoin : String → String → String) (I : List String) (removeErr : Option OsError),
        removeUnusedImportsWalkFn filepathJoin I t [] (t ++ "/" ++ rel) false none removeErr =
          .panic) ∧
    (∀ t dir name : String, '/' ∉ name.data →
      slice (t ++ "/" ++ dir ++ "/" ++ name) (t ++ "/").length
        (lastIndex (t ++ "/" ++ dir ++ "/" ++ name) '/') = some dir) := by
  refine ⟨by decide, by decide, by decide, by decide, ?_, fun t dir name h =>
    slice_targetDir t dir name h⟩
  intro t rel hrel
  have hs := slice_direct_file t rel hrel
  refine ⟨?_, hs, ?_⟩
  · unfold lastIndex
    rw [data_join, lastIndexChars_append '/' _ _ hrel]
    rfl
  · intro filepathJoin I removeErr
    unfold removeUnusedImportsWalkFn
    simp only [if_neg (path_ne_targetDir t rel), hs]
    simp

/-! ## The `checkGitRepo` claim -/

set_option maxRecDepth 100000 in
/-- C14, the claim at `aliasOnlySlot` and `forkEntry`: the slot is a recognized
repository, the remote `8d8fda4` of the entry's URL is registered, and `checkGitRepo`
still wipes the slot and clones again, because no remote is named "origin". -/
theorem C14_counterexample :
    aliasOnlySlot.isRepo = true ∧ forkEntry.Repo ≠ "" ∧
    remoteName forkEntry.Repo = "8d8fda4" ∧
    remoteExists aliasOnlySlot (remoteName forkEntry.Repo) = true ∧
    checkGitRepo aliasOnlySlot "/cache/src/github.com/pkg/errors" forkEntry false =
      ([SlotStep.removeAll "/cache/src/github.com/pkg/errors",
        SlotStep.goGet ["get", "-d", "-f", "-u", "github.com/pkg/errors"],
        SlotStep.mkdirAll "/cache/src/github.com/pkg/errors",
        SlotStep.gitInit,
        SlotStep.addRemote "8d8fda4" "https://github.com/rdeusser/errors.git"], none) := by
  refine ⟨rfl, by decide, by decide, by decide, by decide⟩

/-- C14 (amended): for a cache slot that exists and is a recognized repository and an
entry with a non-empty repo URL, `checkGitRepo` only adds the remote
`remoteName(entry.repo)` when it is not registered (nothing is wiped), leaves the
repository as it is when that remote and a remote "origin" are registered, and calls
`cloneGitRepo`, which starts by removing the slot, when that remote is registered and
no remote is named "origin". -/
theorem C14_checkGitRepo_existing_repository (slot : CacheSlot) (repoDir : String)
    (i : Import) (insecure : Bool)
    (hchdir : slot.chdir = .ok) (hrepo : slot.isRepo = true) (hurl : i.Repo ≠ "") :
    (remoteExists slot (remoteName i.Repo) = false →
      checkGitRepo slot repoDir i insecure =
        ([SlotStep.addRemote (remoteName i.Repo) i.Repo], none)) ∧
    (remoteExists slot (remoteName i.Repo) = true → remoteExists slot "origin" = true →
      checkGitRepo slot repoDir i insecure = ([], none)) ∧
    (remoteExists slot (remoteName i.Repo) = true → remoteExists slot "origin" = false →
      checkGitRepo slot repoDir i insecure = cloneGitRepo slot repoDir i insecure ∧
      (cloneGitRepo slot repoDir i insecure).1.head? = some (SlotStep.removeAll repoDir)) := by
  refine ⟨?_, ?_, ?_⟩
  · intro h
    simp [checkGitRepo, hchdir, hrepo, hurl, h]
  · intro h1 h2
    simp [checkGitRepo, hchdir, hrepo, h1, h2]
  · intro h1 h2
    refine ⟨by simp [checkGitRepo, hchdir, hrepo, h1, h2], ?_⟩
    unfold cloneGitRepo
    cases slot.removeAllError with
    | some msg => rfl
    | none =>
      cases slot.mkdirAllError with
      | some msg => rfl
      | none =>
        dsimp only
        by_cases h3 : slot.isRepoAfterGet = true <;> simp [h3, hurl]

set_option maxRecDepth 100000 in
/-- C14 (amended) at `forkEntry`: the alias is added to a repository that only has
"origin", and a repository with both remotes is left as it is. -/
theorem C14_checkGitRepo_existing_repository_witness :
    checkGitRepo { aliasOnlySlot with remotes := ["origin"] }
      "/cache/src/github.com/pkg/errors" forkEntry false =
      ([SlotStep.addRemote (remoteName forkEntry.Repo) forkEntry.Repo], none) ∧
    checkGitRepo { aliasOnlySlot with remotes := ["origin", "8d8fda4"] }
      "/cache/src/github.com/pkg/errors" forkEntry false = ([], none) :=
  ⟨(C14_checkGitRepo_existing_repository { aliasOnlySlot with remotes := ["origin"] }
      "/cache/src/github.com/pkg/errors" forkEntry false rfl rfl (by decide)).1 (by decide),
    (C14_checkGitRepo_existing_repository { aliasOnlySlot with remotes := ["origin", "8d8fda4"] }
      "/cache/src/github.com/pkg/errors" forkEntry false rfl rfl (by decide)).2.1
      (by decide) (by decide)⟩

/-! ## Lemmas on `checkout` -/

theorem checkout_of_chdir (a : CheckoutAnswers) (i : Import) (h : a.chdir = true) :
    checkout a i =
      if (usesRemoteRef a i && !a.fetchFirst) = true then (callsBeforeCheckout a i, .fatal)
      else if a.checkoutFirst = true then
        (callsBeforeCheckout a i ++ [GitCall.checkout (firstRef a i)], .returned)
      else checkoutRetry a i (callsBeforeCheckout a i ++ [GitCall.checkout (firstRef a i)])
        (firstRef a i) := by
  simp [checkout, h]

theorem filter_callsBeforeCheckout (a : CheckoutAnswers) (i : Import) :
    (callsBeforeCheckout a i).filter GitCall.isCheckout = [] := by
  unfold callsBeforeCheckout
  by_cases h1 : (i.Version == "master") = true <;> by_cases h2 : usesRemoteRef a i = true <;>
    simp [h1, h2, GitCall.isCheckout]

theorem checkoutRetry_master (a : CheckoutAnswers) (i : Import) (calls : List GitCall)
    (version : String) (hm : i.Version = "master") :
    checkoutRetry a i calls version =
      match a.logAll with
      | none => (calls ++ [GitCall.logAll], .fatal)
      | some bytes =>
        match stringsFields (trimSpace bytes) with
        | [] => (calls ++ [GitCall.logAll], .panic)
        | commit :: _ =>
          (calls ++ [GitCall.logAll, GitCall.checkout commit],
            if a.checkoutRetry = true then .returned else .fatal) := by
  unfold checkoutRetry
  have : (i.Version == "master") = true := by rw [hm]; rfl
  rw [if_pos this]
  cases a.logAll with
  | none => rfl
  | some bytes =>
    dsimp only
    cases stringsFields (trimSpace bytes) with
    | nil => rfl
    | cons c rest =>
      dsimp only
      by_cases h : a.checkoutRetry = true <;> simp [h]

theorem checkoutRetry_other (a : CheckoutAnswers) (i : Import) (calls : List GitCall)
    (version : String) (hm : i.Version ≠ "master") :
    checkoutRetry a i calls version =
      (calls ++ [GitCall.fetch (remoteName i.Repo)] ++
          (if a.fetchRetry = true then [GitCall.checkout version] else []),
        if (a.fetchRetry && a.checkoutRetry) = true then .returned else .fatal) := by
  unfold checkoutRetry
  have : ¬ (i.Version == "master") = true := by simpa using hm
  rw [if_neg this]
  by_cases h1 : a.fetchRetry = true <;> by_cases h2 : a.checkoutRetry = true <;> simp [h1, h2]

theorem checkout_after_chdir (a : CheckoutAnswers) (i : Import) (hchdir : a.chdir = true) :
    ((checkout a i).1.filter GitCall.isCheckout).length ≤ 2 ∧
    ((usesRemoteRef a i && !a.fetchFirst) = false → a.checkoutFirst = true →
      checkout a i =
        (callsBeforeCheckout a i ++ [GitCall.checkout (firstRef a i)], .returned)) ∧
    ((usesRemoteRef a i && !a.fetchFirst) = false → a.checkoutFirst = false →
      i.Version = "master" → ∀ bytes commit rest, a.logAll = some bytes →
      stringsFields (trimSpace bytes) = commit :: rest →
      checkout a i =
        (callsBeforeCheckout a i ++
          [GitCall.checkout (firstRef a i), GitCall.logAll, GitCall.checkout commit],
          if a.checkoutRetry = true then .returned else .fatal)) ∧
    ((usesRemoteRef a i && !a.fetchFirst) = false → a.checkoutFirst = false →
      i.Version ≠ "master" →
      checkout a i =
        (callsBeforeCheckout a i ++
          [GitCall.checkout (firstRef a i), GitCall.fetch (remoteName i.Repo)] ++
          (if a.fetchRetry = true then [GitCall.checkout (firstRef a i)] else []),
          if (a.fetchRetry && a.checkoutRetry) = true then .returned else .fatal)) ∧
    ((checkout a i).2 = .fatal ↔
      (usesRemoteRef a i = true ∧ a.fetchFirst = false) ∨
      (((checkout a i).1.filter GitCall.isCheckout).length = 2 ∧ a.checkoutRetry = false) ∨
      ((usesRemoteRef a i && !a.fetchFirst) = false ∧ a.checkoutFirst = false ∧
        ((i.Version = "master" ∧ a.logAll = none) ∨
          (i.Version ≠ "master" ∧ a.fetchRetry = false)))) ∧
    ((usesRemoteRef a i && !a.fetchFirst) = false → a.checkoutFirst = false →
      i.Version = "master" → ∀ bytes, a.logAll = some bytes →
      stringsFields (trimSpace bytes) = [] →
      checkout a i =
        (callsBeforeCheckout a i ++ [GitCall.checkout (firstRef a i), GitCall.logAll],
          .panic)) := by
  have hco := checkout_of_chdir a i hchdir
  have hpre := filter_callsBeforeCheckout a i
  by_cases hf : (usesRemoteRef a i && !a.fetchFirst) = true
  · -- the fetch before the first attempt fails
    rw [if_pos hf] at hco
    have hf' : usesRemoteRef a i = true ∧ a.fetchFirst = false := by simpa using hf
    refine ⟨by rw [hco]; simp [hpre], by simp [hf], by simp [hf], by simp [hf], ?_,
      by simp [hf]⟩
    rw [hco]
    simp [hf'.1, hf'.2]
  · rw [if_neg hf] at hco
    have hf0 : (usesRemoteRef a i && !a.fetchFirst) = false := by simpa using hf
    have hnf : ¬ (usesRemoteRef a i = true ∧ a.fetchFirst = false) := by simpa using hf
    by_cases hc : a.checkoutFirst = true
    · -- the first attempt succeeds
      rw [if_pos hc] at hco
      refine ⟨by rw [hco]; simp [hpre, GitCall.isCheckout], fun _ _ => hco,
        by simp [hc], by simp [hc], ?_, by simp [hc]⟩
      rw [hco]
      simp [hnf, hc, hpre, GitCall.isCheckout]
    · rw [if_neg hc] at hco
      have hc0 : a.checkoutFirst = false := by simpa using hc
      by_cases hm : i.Version = "master"
      · rw [checkoutRetry_master a i _ _ hm] at hco
        cases hl : a.logAll with
        | none =>
          rw [hl] at hco
          dsimp only at hco
          refine ⟨by rw [hco]; simp [hpre, GitCall.isCheckout], by simp [hc0], by simp,
            fun _ _ h => absurd hm h, ?_, by simp⟩
          rw [hco]
          simp [hnf, hpre, GitCall.isCheckout, hf0, hc0, hm]
        | some bytes =>
          rw [hl] at hco
          dsimp only at hco
          cases hfs : stringsFields (trimSpace bytes) with
          | nil =>
            rw [hfs] at hco
            dsimp only at hco
            refine ⟨by rw [hco]; simp [hpre, GitCall.isCheckout], by simp [hc0], ?_,
              fun _ _ h => absurd hm h, ?_, ?_⟩
            · intro _ _ _ b c r hb hcr
              rw [Option.some.injEq] at hb
              rw [← hb, hfs] at hcr
              exact absurd hcr (by simp)
            · rw [hco]
              simp [hnf, hpre, GitCall.isCheckout, hm]
            · intro _ _ _ b hb _
              rw [hco]
              simp [List.append_assoc]
          | cons commit rest =>
            rw [hfs] at hco
            dsimp only at hco
            refine ⟨by rw [hco]; simp [hpre, GitCall.isCheckout], by simp [hc0], ?_,
              fun _ _ h => absurd hm h, ?_, ?_⟩
            · intro _ _ _ b c r hb hcr
              rw [Option.some.injEq] at hb
              rw [← hb, hfs, List.cons.injEq] at hcr
              rw [hco, ← hcr.1]
              simp [List.append_assoc]
            · rw [hco]
              by_cases h2 : a.checkoutRetry = true <;>
                simp [hnf, hpre, GitCall.isCheckout, hm, h2]
            · intro _ _ _ b hb hcr
              rw [Option.some.injEq] at hb
              rw [← hb, hfs] at hcr
              exact absurd hcr (by simp)
      · rw [checkoutRetry_other a i _ _ hm] at hco
        refine ⟨?_, by simp [hc0], fun _ _ h => absurd h hm, ?_, ?_, fun _ _ h => absurd h hm⟩
        · rw [hco]
          by_cases h1 : a.fetchRetry = true <;> simp [h1, hpre, GitCall.isCheckout]
        · intro _ _ _
          rw [hco]
          simp [List.append_assoc]
        · rw [hco]
          by_cases h1 : a.fetchRetry = true <;> by_cases h2 : a.checkoutRetry = true <;>
            simp [hnf, hpre, GitCall.isCheckout, hm, h1, h2, hf0, hc0]

/-! ## The `checkout` claim -/

/-- C13, the claim at two runs for the entry pinned to "master".  When
`os.Chdir(repoDir)` fails, `logrus.Fatalf` ends the run before any git call: the run
is fatal although no checkout was attempted and no fetch or query failed.  And when
the first attempt fails and the query for the latest commit answers with an empty
output, indexing its fields panics: there is no second attempt, and the run does not
end by `logrus.Fatal`. -/
theorem C13_counterexample :
    checkout { retryAnswers with chdir := false } masterEntry = ([], .fatal) ∧
    (∀ c ∈ (checkout { retryAnswers with chdir := false } masterEntry).1,
      GitCall.isCheckout c = false ∧ GitCall.isFetch c = false ∧ c ≠ GitCall.logAll) ∧
    checkout { retryAnswers with logAll := some "" } masterEntry =
      ([GitCall.fetch "origin", GitCall.checkout "origin/master", GitCall.logAll], .panic) ∧
    ((checkout { retryAnswers with logAll := some "" } masterEntry).1.filter
      GitCall.isCheckout).length = 1 := by
  refine ⟨by decide, by decide, by decide, by decide⟩

/-- C13 (amended): with the outcomes of `os.Chdir(repoDir)` and of the git calls as
inputs, and the answer of the query for the latest commit, when it succeeds, holding
at least one field: `checkout` makes at most two checkout attempts.  If
`os.Chdir(repoDir)` fails the run is fatal before any git call.  Otherwise: if the
first attempt succeeds it is the last git call; if it fails and the version is
"master", the latest commit is asked for and the second attempt targets the first
field of the answer, with no fetch in between; if it fails and the version is not
"master", one more fetch is made and the second attempt, made when that fetch
succeeds, targets the ref of the first.  `logrus.Fatal` ends the run exactly when
`os.Chdir` fails, a fetch before the first attempt fails, the second attempt fails,
the query for the latest commit fails, or the fetch before the retry fails; in every
other case `checkout` returns. -/
theorem C13_checkout_attempts (a : CheckoutAnswers) (i : Import)
    (hfields : i.Version = "master" → ∀ bytes, a.logAll = some bytes →
      stringsFields (trimSpace bytes) ≠ []) :
    ((checkout a i).1.filter GitCall.isCheckout).length ≤ 2 ∧
    (a.chdir = false → checkout a i = ([], .fatal)) ∧
    (a.chdir = true → (usesRemoteRef a i && !a.fetchFirst) = false →
      a.checkoutFirst = true →
      checkout a i =
        (callsBeforeCheckout a i ++ [GitCall.checkout (firstRef a i)], .returned)) ∧
    (a.chdir = true → (usesRemoteRef a i && !a.fetchFirst) = false →
      a.checkoutFirst = false → i.Version = "master" → ∀ bytes, a.logAll = some bytes →
      ∃ commit rest, stringsFields (trimSpace bytes) = commit :: rest ∧
        checkout a i =
          (callsBeforeCheckout a i ++
            [GitCall.checkout (firstRef a i), GitCall.logAll, GitCall.checkout commit],
            if a.checkoutRetry = true then .returned else .fatal)) ∧
    (a.chdir = true → (usesRemoteRef a i && !a.fetchFirst) = false →
      a.checkoutFirst = false → i.Version ≠ "master" →
      checkout a i =
        (callsBeforeCheckout a i ++
          [GitCall.checkout (firstRef a i), GitCall.fetch (remoteName i.Repo)] ++
          (if a.fetchRetry = true then [GitCall.checkout (firstRef a i)] else []),
          if (a.fetchRetry && a.checkoutRetry) = true then .returned else .fatal)) ∧
    ((checkout a i).2 = .fatal ↔
      a.chdir = false ∨
      (a.chdir = true ∧ usesRemoteRef a i = true ∧ a.fetchFirst = false) ∨
      (((checkout a i).1.filter GitCall.isCheckout).length = 2 ∧ a.checkoutRetry = false) ∨
      (a.chdir = true ∧ (usesRemoteRef a i && !a.fetchFirst) = false ∧
        a.checkoutFirst = false ∧
        ((i.Version = "master" ∧ a.logAll = none) ∨
          (i.Version ≠ "master" ∧ a.fetchRetry = false)))) ∧
    ((checkout a i).2 ≠ .fatal → (checkout a i).2 = .returned) := by
  by_cases hch : a.chdir = true
  · obtain ⟨h1, h2, h3, h4, h5, _⟩ := checkout_after_chdir a i hch
    have hmaster : (usesRemoteRef a i && !a.fetchFirst) = false →
        a.checkoutFirst = false → i.Version = "master" → ∀ bytes, a.logAll = some bytes →
        ∃ commit rest, stringsFields (trimSpace bytes) = commit :: rest ∧
          checkout a i =
            (callsBeforeCheckout a i ++
              [GitCall.checkout (firstRef a i), GitCall.logAll, GitCall.checkout commit],
              if a.checkoutRetry = true then .returned else .fatal) := by
      intro hf hc hm bytes hb
      cases hfs : stringsFields (trimSpace bytes) with
      | nil => exact absurd hfs (hfields hm bytes hb)
      | cons commit rest => exact ⟨commit, rest, rfl, h3 hf hc hm bytes commit rest hb hfs⟩
    refine ⟨h1, fun h => absurd hch (by simp [h]), fun _ => h2, fun _ => hmaster,
      fun _ => h4, ?_, ?_⟩
    · rw [h5]
      simp [hch]
    · intro hnf
      by_cases hf : (usesRemoteRef a i && !a.fetchFirst) = true
      · exact absurd (h5.2 (Or.inl (by simpa using hf))) hnf
      · have hf0 : (usesRemoteRef a i && !a.fetchFirst) = false := by simpa using hf
        by_cases hc : a.checkoutFirst = true
        · rw [h2 hf0 hc]
        · have hc0 : a.checkoutFirst = false := by simpa using hc
          by_cases hm : i.Version = "master"
          · cases hl : a.logAll with
            | none => exact absurd (h5.2 (Or.inr (Or.inr ⟨hf0, hc0, Or.inl ⟨hm, hl⟩⟩))) hnf
            | some bytes =>
              obtain ⟨commit, rest, _, hco⟩ := hmaster hf0 hc0 hm bytes hl
              rw [hco] at hnf ⊢
              by_cases h2 : a.checkoutRetry = true
              · simp [h2]
              · simp [h2] at hnf
          · have hco := h4 hf0 hc0 hm
            rw [hco] at hnf ⊢
            by_cases h2 : (a.fetchRetry && a.checkoutRetry) = true
            · simp only [h2, if_true]
            · simp only [h2, if_false] at hnf
              exact absurd rfl hnf
  · have hch0 : a.chdir = false := by simpa using hch
    have hco : checkout a i = ([], .fatal) := by simp [checkout, hch0]
    refine ⟨by rw [hco]; simp, fun _ => hco, fun h => absurd h hch, fun h => absurd h hch,
      fun h => absurd h hch, ?_, ?_⟩
    · rw [hco]
      simp [hch0]
    · rw [hco]
      simp

/-- C13 (amended) at `retryAnswers`, whose query answers `4f2a9c1 Fix the walk`: for
"master" the retry targets the commit `4f2a9c1`, with no fetch after the first
attempt; for a tag one fetch comes between the two attempts at the same ref; and
with `os.Chdir` failing the run is fatal before any git call. -/
theorem C13_checkout_attempts_witness :
    checkout retryAnswers masterEntry =
      ([GitCall.fetch "origin", GitCall.checkout "origin/master", GitCall.logAll,
        GitCall.checkout "4f2a9c1"], .returned) ∧
    checkout retryAnswers taggedEntry =
      ([GitCall.branchList "origin/v0.8.0", GitCall.checkout "v0.8.0", GitCall.fetch "origin",
        GitCall.checkout "v0.8.0"], .returned) ∧
    (masterEntry.Version = "master" → ∀ bytes, retryAnswers.logAll = some bytes →
      stringsFields (trimSpace bytes) ≠ []) ∧
    ((checkout retryAnswers masterEntry).1.filter GitCall.isCheckout).length ≤ 2 ∧
    checkout { retryAnswers with chdir := false } taggedEntry = ([], .fatal) :=
  ⟨by decide, by decide,
    fun _ bytes hb => by
      have hbytes : bytes = "4f2a9c1 Fix the walk\n" := by
        simpa [retryAnswers] using hb.symm
      rw [hbytes]
      decide,
    (C13_checkout_attempts retryAnswers masterEntry (fun _ bytes hb => by
      have hbytes : bytes = "4f2a9c1 Fix the walk\n" := by
        simpa [retryAnswers] using hb.symm
      rw [hbytes]
      decide)).1,
    (C13_checkout_attempts { retryAnswers with chdir := false } taggedEntry
      (fun h => absurd h (by decide))).2.1 rfl⟩

/-! ## Lemmas on the entries `vendor` works on -/

theorem prepareAndCheckout_quiet (w : World) (update insecure : Bool) (trashDir : String)
    (hprep : ∀ tr i, w.prepareCacheFatal tr i = false)
    (hco : ∀ tr i, w.checkoutFatal tr i = false) (l : List Import) (tr : List Step) :
    prepareAndCheckout w update insecure trashDir l tr =
      (tr ++ (l.filter (fun i => !(update && i.Lock))).flatMap
        (fun i => [Step.prepareCache trashDir i insecure, Step.checkout trashDir i]), false) := by
  induction l generalizing tr with
  | nil => simp [prepareAndCheckout]
  | cons i rest ih =>
    unfold prepareAndCheckout
    by_cases h : (update && i.Lock) = true
    · rw [if_pos h, ih]
      have hp : ¬ (fun i : Import => !(update && i.Lock)) i = true := by
        show ¬ (!(update && i.Lock)) = true
        rw [h]; decide
      rw [@List.filter_cons_of_neg _ (fun i : Import => !(update && i.Lock)) i rest hp]
    · rw [if_neg h]
      simp only [hprep, hco, Bool.false_eq_true, if_false]
      rw [ih]
      have hp : (fun i : Import => !(update && i.Lock)) i = true := by
        show (!(update && i.Lock)) = true
        rw [Bool.not_eq_true] at h
        rw [h]; rfl
      rw [@List.filter_cons_of_pos _ (fun i : Import => !(update && i.Lock)) i rest hp,
        List.flatMap_cons, List.append_assoc, List.append_assoc]
      rfl

theorem moveDeps_quiet (w : World) (vendorDir trashDir : String)
    (hmv : ∀ tr i, w.mvOutput tr i = none) (l : List Import) (tr : List Step) :
    moveDeps w vendorDir trashDir l tr =
      (tr ++ (l.filter (fun i => !i.Lock)).map (Step.mv vendorDir trashDir), none) := by
  induction l generalizing tr with
  | nil => simp [moveDeps]
  | cons i rest ih =>
    unfold moveDeps
    by_cases h : i.Lock = true
    · simp only [h, Bool.not_true, Bool.false_eq_true, if_false]
      rw [ih]
      have hp : ¬ (fun i : Import => !i.Lock) i = true := by
        show ¬ (!i.Lock) = true
        rw [h]; decide
      rw [@List.filter_cons_of_neg _ (fun i : Import => !i.Lock) i rest hp]
    · rw [Bool.not_eq_true] at h
      simp only [h, Bool.not_false, if_true, mv, hmv]
      rw [ih]
      have hp : (fun i : Import => !i.Lock) i = true := by
        show (!i.Lock) = true
        rw [h]; rfl
      rw [@List.filter_cons_of_pos _ (fun i : Import => !i.Lock) i rest hp, List.map_cons,
        List.append_assoc]
      rfl

theorem copyDeps_quiet (w : World) (vendorDir trashDir : String)
    (hcp : ∀ tr i, w.cpOutput tr i = none) (l : List Import) (tr : List Step) :
    copyDeps w vendorDir trashDir l tr =
      (tr ++ l.map (Step.cpy vendorDir trashDir), none) := by
  induction l generalizing tr with
  | nil => simp [copyDeps]
  | cons i rest ih =>
    unfold copyDeps
    simp only [cpy, hcp]
    rw [ih]
    simp [List.append_assoc]

theorem prepareAndCheckout_steps (w : World) (update insecure : Bool) (trashDir : String)
    (l : List Import) (tr : List Step) :
    ∃ extra, (prepareAndCheckout w update insecure trashDir l tr).1 = tr ++ extra ∧
      ∀ s ∈ extra, ∃ i ∈ l, (update && i.Lock) = false ∧
        (s = Step.prepareCache trashDir i insecure ∨ s = Step.checkout trashDir i) := by
  induction l generalizing tr with
  | nil => exact ⟨[], by simp [prepareAndCheckout], by simp⟩
  | cons i rest ih =>
    unfold prepareAndCheckout
    by_cases h : (update && i.Lock) = true
    · rw [if_pos h]
      obtain ⟨extra, he, hs⟩ := ih tr
      exact ⟨extra, he, fun s hse => by
        obtain ⟨j, hj, hjs⟩ := hs s hse
        exact ⟨j, List.mem_cons_of_mem _ hj, hjs⟩⟩
    · rw [if_neg h]
      have h0 : (update && i.Lock) = false := by simpa using h
      dsimp only
      by_cases hp : w.prepareCacheFatal (tr ++ [Step.prepareCache trashDir i insecure]) i = true
      · rw [if_pos hp]
        exact ⟨[Step.prepareCache trashDir i insecure], rfl, fun s hse => by
          rw [List.mem_singleton] at hse
          exact ⟨i, List.mem_cons_self _ _, h0, Or.inl hse⟩⟩
      · rw [if_neg hp]
        by_cases hc : w.checkoutFatal (tr ++ [Step.prepareCache trashDir i insecure] ++
            [Step.checkout trashDir i]) i = true
        · rw [if_pos hc]
          refine ⟨[Step.prepareCache trashDir i insecure, Step.checkout trashDir i],
            by simp, fun s hse => ?_⟩
          simp only [List.mem_cons, List.mem_singleton, List.not_mem_nil, or_false] at hse
          exact ⟨i, List.mem_cons_self _ _, h0, hse⟩
        · rw [if_neg hc]
          obtain ⟨extra, he, hs⟩ := ih (tr ++ [Step.prepareCache trashDir i insecure] ++
            [Step.checkout trashDir i])
          refine ⟨[Step.prepareCache trashDir i insecure, Step.checkout trashDir i] ++ extra,
            by rw [he]; simp, fun s hse => ?_⟩
          rcases List.mem_append.1 hse with h1 | h1
          · simp only [List.mem_cons, List.mem_singleton, List.not_mem_nil, or_false] at h1
            exact ⟨i, List.mem_cons_self _ _, h0, h1⟩
          · obtain ⟨j, hj, hjs⟩ := hs s h1
            exact ⟨j, List.mem_cons_of_mem _ hj, hjs⟩

theorem moveDeps_steps (w : World) (vendorDir trashDir : String) (l : List Import)
    (tr : List Step) :
    ∃ extra, (moveDeps w vendorDir trashDir l tr).1 = tr ++ extra ∧
      ∀ s ∈ extra, ∃ i ∈ l, i.Lock = false ∧ s = Step.mv vendorDir trashDir i := by
  induction l generalizing tr with
  | nil => exact ⟨[], by simp [moveDeps], by simp⟩
  | cons i rest ih =>
    unfold moveDeps
    by_cases h : i.Lock = true
    · simp only [h, Bool.not_true, Bool.false_eq_true, if_false]
      obtain ⟨extra, he, hs⟩ := ih tr
      exact ⟨extra, he, fun s hse => by
        obtain ⟨j, hj, hjs⟩ := hs s hse
        exact ⟨j, List.mem_cons_of_mem _ hj, hjs⟩⟩
    · have h0 : i.Lock = false := by simpa using h
      simp only [h0, Bool.not_false, if_true]
      cases hm : mv w (tr ++ [Step.mv vendorDir trashDir i]) vendorDir trashDir i with
      | some err =>
        exact ⟨[Step.mv vendorDir trashDir i], rfl, fun s hse => by
          rw [List.mem_singleton] at hse
          exact ⟨i, List.mem_cons_self _ _, h0, hse⟩⟩
      | none =>
        obtain ⟨extra, he, hs⟩ := ih (tr ++ [Step.mv vendorDir trashDir i])
        refine ⟨Step.mv vendorDir trashDir i :: extra, by rw [he]; simp, fun s hse => ?_⟩
        rcases List.mem_cons.1 hse with h1 | h1
        · exact ⟨i, List.mem_cons_self _ _, h0, h1⟩
        · obtain ⟨j, hj, hjs⟩ := hs s h1
          exact ⟨j, List.mem_cons_of_mem _ hj, hjs⟩

theorem copyDeps_steps (w : World) (vendorDir trashDir : String) (l : List Import)
    (tr : List Step) :
    ∃ extra, (copyDeps w vendorDir trashDir l tr).1 = tr ++ extra ∧
      ∀ s ∈ extra, ∃ i ∈ l, s = Step.cpy vendorDir trashDir i := by
  induction l generalizing tr with
  | nil => exact ⟨[], by simp [copyDeps], by simp⟩
  | cons i rest ih =>
    unfold copyDeps
    dsimp only
    cases hm : cpy w (tr ++ [Step.cpy vendorDir trashDir i]) vendorDir trashDir i with
    | some err =>
      exact ⟨[Step.cpy vendorDir trashDir i], rfl, fun s hse => by
        rw [List.mem_singleton] at hse
        exact ⟨i, List.mem_cons_self _ _, hse⟩⟩
    | none =>
      obtain ⟨extra, he, hs⟩ := ih (tr ++ [Step.cpy vendorDir trashDir i])
      refine ⟨Step.cpy vendorDir trashDir i :: extra, by rw [he]; simp, fun s hse => ?_⟩
      rcases List.mem_cons.1 hse with h1 | h1
      · exact ⟨i, List.mem_cons_self _ _, h1⟩
      · obtain ⟨j, hj, hjs⟩ := hs s h1
        exact ⟨j, List.mem_cons_of_mem _ hj, hjs⟩

theorem vendorFinish_steps (w : World) (keep : Bool) (dir vendorDir : String) (tr : List Step) :
    ∃ extra, (vendorFinish w keep dir vendorDir tr).steps = tr ++ extra ∧
      ∀ s ∈ extra, s.entry = none := by
  unfold vendorFinish
  cases keep with
  | true => exact ⟨[Step.chdir dir], rfl, by simp [Step.entry]⟩
  | false =>
    simp only [Bool.not_false, if_true]
    cases w.stripGitError (tr ++ [Step.stripGitDirs vendorDir]) with
    | none => exact ⟨[Step.stripGitDirs vendorDir, Step.chdir dir], by simp, by simp [Step.entry]⟩
    | some msg =>
      exact ⟨[Step.stripGitDirs vendorDir, Step.chdir dir], by simp, by simp [Step.entry]⟩

theorem vendorFinish_quiet (w : World) (keep : Bool) (dir vendorDir : String) (tr : List Step)
    (hstrip : ∀ tr, w.stripGitError tr = none) :
    vendorFinish w keep dir vendorDir tr =
      ⟨tr ++ (if keep then [] else [Step.stripGitDirs vendorDir]) ++ [Step.chdir dir], .ok⟩ := by
  unfold vendorFinish
  cases keep <;> simp [hstrip]

theorem find_unversioned_none (l : List Import) (h : ∀ i ∈ l, i.Version ≠ "") :
    l.find? (fun i => i.Version == "") = none := by
  rw [List.find?_eq_none]
  intro i hi hv
  exact h i hi (by simpa using hv)

theorem vendor_update_steps (w : World) (keep : Bool) (trashDir dir targetDir : String)
    (trashConf : Conf) (insecure : Bool) :
    ∀ s ∈ (vendor w keep true trashDir dir targetDir trashConf insecure).steps, ∀ i,
      s.entry = some i → i ∈ trashConf.Imports ∧ i.Lock = false ∧
        (s = Step.prepareCache trashDir i insecure ∨ s = Step.checkout trashDir i ∨
          s = Step.mv (w.pathJoin [dir, targetDir]) trashDir i) := by
  have hP1 : ∀ extra : List Step,
      (∀ s ∈ extra, ∃ i ∈ trashConf.Imports, (true && i.Lock) = false ∧
        (s = Step.prepareCache trashDir i insecure ∨ s = Step.checkout trashDir i)) →
      ∀ s ∈ extra, ∀ i, s.entry = some i → i ∈ trashConf.Imports ∧ i.Lock = false ∧
        (s = Step.prepareCache trashDir i insecure ∨ s = Step.checkout trashDir i ∨
          s = Step.mv (w.pathJoin [dir, targetDir]) trashDir i) := by
    intro extra h s hs i hi
    obtain ⟨j, hj, hl, hsj⟩ := h s hs
    have hij : i = j := by
      rcases hsj with h1 | h1 <;> rw [h1] at hi <;> simpa [Step.entry] using hi.symm
    subst hij
    exact ⟨hj, by simpa using hl, by
      rcases hsj with h1 | h1
      · exact Or.inl h1
      · exact Or.inr (Or.inl h1)⟩
  have hP2 : ∀ extra : List Step,
      (∀ s ∈ extra, ∃ i ∈ trashConf.Imports, i.Lock = false ∧
        s = Step.mv (w.pathJoin [dir, targetDir]) trashDir i) →
      ∀ s ∈ extra, ∀ i, s.entry = some i → i ∈ trashConf.Imports ∧ i.Lock = false ∧
        (s = Step.prepareCache trashDir i insecure ∨ s = Step.checkout trashDir i ∨
          s = Step.mv (w.pathJoin [dir, targetDir]) trashDir i) := by
    intro extra h s hs i hi
    obtain ⟨j, hj, hl, hsj⟩ := h s hs
    have hij : i = j := by
      rw [hsj] at hi; simpa [Step.entry] using hi.symm
    subst hij
    exact ⟨hj, hl, Or.inr (Or.inr hsj)⟩
  have hP0 : ∀ extra : List Step, (∀ s ∈ extra, s.entry = none) →
      ∀ s ∈ extra, ∀ i, s.entry = some i → i ∈ trashConf.Imports ∧ i.Lock = false ∧
        (s = Step.prepareCache trashDir i insecure ∨ s = Step.checkout trashDir i ∨
          s = Step.mv (w.pathJoin [dir, targetDir]) trashDir i) := by
    intro extra h s hs i hi
    rw [h s hs] at hi
    exact absurd hi (by simp)
  unfold vendor
  cases hfind : trashConf.Imports.find? (fun i => i.Version == "") with
  | some j =>
    exact hP0 [Step.chdir dir] (by simp [Step.entry])
  | none =>
    dsimp only
    obtain ⟨e1, he1, hs1⟩ := prepareAndCheckout_steps w true insecure trashDir trashConf.Imports
      [Step.mkdirAll trashDir, Step.setenv "GOPATH" trashDir]
    rcases hp : prepareAndCheckout w true insecure trashDir trashConf.Imports
      [Step.mkdirAll trashDir, Step.setenv "GOPATH" trashDir] with ⟨tr, b⟩
    rw [hp] at he1
    simp only at he1
    have htr : ∀ s ∈ tr, ∀ i, s.entry = some i → i ∈ trashConf.Imports ∧ i.Lock = false ∧
        (s = Step.prepareCache trashDir i insecure ∨ s = Step.checkout trashDir i ∨
          s = Step.mv (w.pathJoin [dir, targetDir]) trashDir i) := by
      intro s hs
      rw [he1] at hs
      rcases List.mem_append.1 hs with h | h
      · exact hP0 _ (by simp [Step.entry]) s h
      · exact hP1 e1 hs1 s h
    cases b with
    | true => exact htr
    | false =>
      simp only [if_true]
      obtain ⟨e2, he2, hs2⟩ := moveDeps_steps w (w.pathJoin [dir, targetDir]) trashDir
        trashConf.Imports tr
      rcases hm : moveDeps w (w.pathJoin [dir, targetDir]) trashDir trashConf.Imports tr with
        ⟨tr2, e⟩
      rw [hm] at he2
      simp only at he2
      have htr2 : ∀ s ∈ tr2, ∀ i, s.entry = some i → i ∈ trashConf.Imports ∧ i.Lock = false ∧
          (s = Step.prepareCache trashDir i insecure ∨ s = Step.checkout trashDir i ∨
            s = Step.mv (w.pathJoin [dir, targetDir]) trashDir i) := by
        intro s hs
        rw [he2] at hs
        rcases List.mem_append.1 hs with h | h
        · exact htr s h
        · exact hP2 e2 hs2 s h
      cases e with
      | some err =>
        intro s hs
        rcases List.mem_append.1 hs with h | h
        · exact htr2 s h
        · exact hP0 [Step.chdir dir] (by simp [Step.entry]) s h
      | none =>
        obtain ⟨e3, he3, hs3⟩ := vendorFinish_steps w keep dir (w.pathJoin [dir, targetDir]) tr2
        intro s hs
        rw [he3] at hs
        rcases List.mem_append.1 hs with h | h
        · exact htr2 s h
        · exact hP0 e3 hs3 s h

/-! ## The claim on the entries `vendor` works on -/

/-- C15: for a ledger whose entries all have a version, `vendor` in update mode never
prepares, checks out, moves or copies a locked entry (whatever fails on the way), and
when no subprocess fails it prepares and checks out exactly the entries with
`lock = false`, in ledger order, then moves exactly those, in ledger order; in
non-update mode, when no subprocess fails, it prepares and checks out every entry,
locked or not, in ledger order, and then copies every entry. -/
theorem C15_vendor_skips_locked_in_update (w : World) (keep : Bool)
    (trashDir dir targetDir : String) (trashConf : Conf) (insecure : Bool)
    (hver : ∀ i ∈ trashConf.Imports, i.Version ≠ "") :
    (∀ s ∈ (vendor w keep true trashDir dir targetDir trashConf insecure).steps, ∀ i,
      s.entry = some i → i ∈ trashConf.Imports ∧ i.Lock = false ∧
        (s = Step.prepareCache trashDir i insecure ∨ s = Step.checkout trashDir i ∨
          s = Step.mv (w.pathJoin [dir, targetDir]) trashDir i)) ∧
    ((∀ tr i, w.prepareCacheFatal tr i = false) → (∀ tr i, w.checkoutFatal tr i = false) →
      (∀ tr i, w.mvOutput tr i = none) → (∀ tr i, w.cpOutput tr i = none) →
      (∀ tr, w.stripGitError tr = none) →
      vendor w keep true trashDir dir targetDir trashConf insecure =
        ⟨[Step.mkdirAll trashDir, Step.setenv "GOPATH" trashDir] ++
          (trashConf.Imports.filter (fun i => !i.Lock)).flatMap
            (fun i => [Step.prepareCache trashDir i insecure, Step.checkout trashDir i]) ++
          (trashConf.Imports.filter (fun i => !i.Lock)).map
            (Step.mv (w.pathJoin [dir, targetDir]) trashDir) ++
          (if keep then [] else [Step.stripGitDirs (w.pathJoin [dir, targetDir])]) ++
          [Step.chdir dir], .ok⟩ ∧
      vendor w keep false trashDir dir targetDir trashConf insecure =
        ⟨[Step.mkdirAll trashDir, Step.setenv "GOPATH" trashDir] ++
          trashConf.Imports.flatMap
            (fun i => [Step.prepareCache trashDir i insecure, Step.checkout trashDir i]) ++
          [Step.removeAll (w.pathJoin [dir, targetDir]),
            Step.mkdirAll (w.pathJoin [dir, targetDir])] ++
          trashConf.Imports.map (Step.cpy (w.pathJoin [dir, targetDir]) trashDir) ++
          (if keep then [] else [Step.stripGitDirs (w.pathJoin [dir, targetDir])]) ++
          [Step.chdir dir], .ok⟩) := by
  refine ⟨vendor_update_steps w keep trashDir dir targetDir trashConf insecure, ?_⟩
  intro hprep hco hmv hcp hstrip
  have hfind := find_unversioned_none trashConf.Imports hver
  constructor
  · unfold vendor
    rw [hfind]
    dsimp only
    rw [prepareAndCheckout_quiet w true insecure trashDir hprep hco]
    dsimp only
    rw [if_pos rfl, moveDeps_quiet w _ trashDir hmv]
    dsimp only
    rw [vendorFinish_quiet w keep dir _ _ hstrip]
    have hfilter : trashConf.Imports.filter (fun i => !(true && i.Lock)) =
        trashConf.Imports.filter (fun i => !i.Lock) := by
      apply List.filter_congr
      intro i _
      simp
    rw [hfilter]
  · unfold vendor
    rw [hfind]
    dsimp only
    rw [prepareAndCheckout_quiet w false insecure trashDir hprep hco]
    dsimp only
    rw [if_neg (by decide), copyDeps_quiet w _ trashDir hcp]
    dsimp only
    rw [vendorFinish_quiet w keep dir _ _ hstrip]
    have hfilter : trashConf.Imports.filter (fun i => !(false && i.Lock)) = trashConf.Imports := by
      rw [List.filter_eq_self]
      intro i _
      simp
    rw [hfilter]

/-- C15 at `lockedConf`: in update mode the locked `github.com/urfave/cli` is neither
prepared, checked out nor moved, and the two other entries are, in ledger order. -/
theorem C15_vendor_skips_locked_in_update_witness :
    vendor quietWorld true true "/cache" "/proj" "vendor" lockedConf false =
      ⟨[Step.mkdirAll "/cache", Step.setenv "GOPATH" "/cache",
        Step.prepareCache "/cache" { Package := "github.com/pkg/errors", Version := "v0.8.0" } false,
        Step.checkout "/cache" { Package := "github.com/pkg/errors", Version := "v0.8.0" },
        Step.prepareCache "/cache" { Package := "gopkg.in/yaml.v2", Version := "v2.2.1" } false,
        Step.checkout "/cache" { Package := "gopkg.in/yaml.v2", Version := "v2.2.1" },
        Step.mv "/proj/vendor" "/cache" { Package := "github.com/pkg/errors", Version := "v0.8.0" },
        Step.mv "/proj/vendor" "/cache" { Package := "gopkg.in/yaml.v2", Version := "v2.2.1" },
        Step.chdir "/proj"], .ok⟩ ∧
    ∀ s ∈ (vendor quietWorld true true "/cache" "/proj" "vendor" lockedConf false).steps, ∀ i,
      s.entry = some i → i ∈ lockedConf.Imports ∧ i.Lock = false ∧
        (s = Step.prepareCache "/cache" i false ∨ s = Step.checkout "/cache" i ∨
          s = Step.mv (quietWorld.pathJoin ["/proj", "vendor"]) "/cache" i) :=
  ⟨by decide,
    (C15_vendor_skips_locked_in_update quietWorld true "/cache" "/proj" "vendor" lockedConf false
      (by decide)).1⟩

end Trash
